import Mathlib

/-!
# runner-go: the `Runner` abstraction and the `Join` combinator

A verification development over `runner.go`.

The Go code is concurrent, so it is embedded as a small-step transition system whose steps are
chosen by an explicit schedule:

* `Fn E` is the type of the values `func(context.Context) error` the package is handed or
  builds itself: straight-line bodies over the operations the package and its tests use on a
  context and on a shared atomic counter, and the closure that `Join` returns (`Fn.fan`).
* `Inv E` is the state of one invocation `r.Run(ctx)`: either a body that is still running, or
  the frame of the `Join` closure with its local variables and its goroutines.
* `Inv.step` performs one atomic step of the goroutine addressed by a path; `Conf.move` adds the
  one step of the environment, the cancellation of the caller's context; `exec` runs a
  schedule, a list of moves.

An error value is an `Option E`: `none` is Go's `nil`, `some e` a non-nil error.
-/

namespace runner

/-! ## Definitions -/

/-- A value of type `func(context.Context) error`.  The program point of a running body is the
remainder of the body, so a body is its own continuation.

* `ret err`        : `return err`
* `add k`          : `count.Add(1)` on the `atomic.Int32` counter the closures share, then `k`
* `load n hit miss`: `if count.Load() >= n { hit } else { miss }`
* `done k`         : `<-ctx.Done()`, then `k` (blocks until the context is cancelled)
* `poll can live`  : `if ctx.Err() != nil { can } else { live }`
* `fan runners`    : the closure built by `Join` (runner.go lines 37-64) over the captured
                     `runners`; a captured runner is represented by the function its `Run`
                     calls. -/
inductive Fn (E : Type) where
  | ret (err : Option E)
  | add (k : Fn E)
  | load (n : Int) (hit miss : Fn E)
  | done (k : Fn E)
  | poll (can live : Fn E)
  | fan (runners : List (Fn E))

/-- The struct `runner` of runner.go: `type runner struct { fn func(context.Context) error }`. -/
structure Runner (E : Type) where
  fn : Fn E

/-- Go: `func New(fn func(context.Context) error) Runner { return &runner{fn: fn} }`. -/
def New {E : Type} (fn : Fn E) : Runner E := ⟨fn⟩

/-- Go: `func Err(err error) Runner { return New(func(context.Context) error { return err }) }`. -/
def Err {E : Type} (err : Option E) : Runner E := New (.ret err)

/-- Go: `func OK() Runner { return Err(nil) }`. -/
def OK {E : Type} : Runner E := Err none

/-- Go: `func Join(runners ...Runner) Runner`: `OK()` for no runners, otherwise `New` of the
fan-out closure over the runners. -/
def Join {E : Type} (runners : List (Runner E)) : Runner E :=
  if runners.length = 0 then OK else New (.fan (runners.map (·.fn)))

/-- How the goroutine started for one runner (runner.go lines 50-59) has ended, or `live` while
`runner.Run(ctx)` has not been collected yet.

* `clean`  : `rerr == nil`, the `if` of line 53 was not entered
* `latched`: `rerr != nil` and this goroutine's function ran inside `once.Do` (lines 55-56)
* `dropped`: `rerr != nil` but `once` was already done, nothing happened -/
inductive Status where
  | live
  | latched
  | dropped
  | clean
deriving DecidableEq, Repr

/-- The local state of one invocation of the `Join` closure after line 45.

* `todo`     : the runners the `range` loop of line 47 has still to start
* `once`     : whether `once` (line 44) is done
* `err`      : the variable `err` (line 43)
* `cancelled`: whether the context derived in line 38 has been cancelled through its own
               `cancel` (it is also cancelled whenever its parent is)
* `gate`     : how often `cancel()` of line 55 has been called
* `deferred` : how often the deferred `cancel()` of line 39 has been called
* `flips`    : how often a call of `cancel` found the derived context not yet cancelled
* `returned` : whether the closure has returned (line 63 and the deferred call) -/
structure Frame (E : Type) where
  todo : List (Fn E)
  once : Bool
  err : Option E
  cancelled : Bool
  gate : Nat
  deferred : Nat
  flips : Nat
  returned : Bool

/-- The state of one invocation `r.Run(ctx)`, which is `r.fn(ctx)` (runner.go line 17).

* `call fn`  : the body `fn` remains to be executed
* `join f gs`: the invocation runs the `Join` closure, `f` is its local state and `gs` are the
               goroutines started so far, in the order of the loop, each with the invocation of
               `runner.Run(ctx)` it makes (line 53). -/
inductive Inv (E : Type) where
  | call (fn : Fn E)
  | join (f : Frame E) (gs : List (Status × Inv E))

variable {E : Type}

/-- Go: `func (r *runner) Run(ctx context.Context) error { return r.fn(ctx) }`: the invocation
starts at the beginning of the body of `r.fn`. -/
def Runner.Run (r : Runner E) : Inv E := .call r.fn

/-- The value an invocation has returned, if it has returned. -/
def Inv.result : Inv E → Option (Option E)
  | .call (.ret err) => some err
  | .call _ => none
  | .join f _ => if f.returned then some f.err else none

/-- The frame right after lines 38-45: context derived, `cancel` deferred, `wg`, `err` and `once`
declared, the loop not yet entered. -/
def Frame.init (runners : List (Fn E)) : Frame E :=
  { todo := runners, once := false, err := none, cancelled := false,
    gate := 0, deferred := 0, flips := 0, returned := false }

/-- Lines 55-56 inside `once.Do`: `cancel()` and `err = rerr`; `once` is done afterwards.  The
call of `cancel` changes the derived context only if that is not cancelled yet, neither through
`cancel` nor through its parent (`c`). -/
def Frame.latch (c : Bool) (f : Frame E) (e : E) : Frame E :=
  { f with once := true, err := some e, cancelled := true, gate := f.gate + 1,
           flips := if c || f.cancelled then f.flips else f.flips + 1 }

/-- Line 63 with the deferred `cancel()` of line 39: the closure returns `err`. -/
def Frame.leave (c : Bool) (f : Frame E) : Frame E :=
  { f with returned := true, cancelled := true, deferred := f.deferred + 1,
           flips := if c || f.cancelled then f.flips else f.flips + 1 }

/-- The value `count.Load()` reads from an `atomic.Int32` whose 32 bits are `n % 2 ^ 32`: the
two's complement reading, between `-2 ^ 31` and `2 ^ 31 - 1`. -/
def int32 (n : Nat) : Int :=
  if n % 2 ^ 32 < 2 ^ 31 then ((n % 2 ^ 32 : Nat) : Int) else ((n % 2 ^ 32 : Nat) : Int) - 2 ^ 32

/-- One step of the invocation itself (not of one of its goroutines), under a context that is
cancelled iff `c`, with the 32 bits of the shared counter at `n`.  `none`: no step is enabled.
`count.Add(1)` wraps around as `atomic.Int32` does (from `2 ^ 31 - 1` to `-2 ^ 31`).

For a frame: the next iteration of the loop of lines 47-60 (`wg.Add(1)` and the `go`
statement), or, after the loop, `wg.Wait()` passing once every goroutine has called `wg.Done`
followed by `return err` and the deferred `cancel()`. -/
def Inv.self (c : Bool) (n : Nat) : Inv E → Option (Nat × Inv E)
  | .call (.ret _) => none
  | .call (.add k) => some ((n + 1) % 2 ^ 32, .call k)
  | .call (.load m hit miss) => some (n, .call (if m ≤ int32 n then hit else miss))
  | .call (.done k) => if c then some (n, .call k) else none
  | .call (.poll can live) => some (n, .call (if c then can else live))
  | .call (.fan runners) => some (n, .join (Frame.init runners) [])
  | .join f gs =>
    match f.todo with
    | r :: rest => some (n, .join { f with todo := rest } (gs ++ [(Status.live, .call r)]))
    | [] =>
      if f.returned then none
      else if gs.all (fun g => g.1 ≠ Status.live) then some (n, .join (f.leave c) gs)
      else none

/-- Lines 53-58 and the deferred `wg.Done()` of line 51, for goroutine `i` whose
`runner.Run(ctx)` has returned `rerr`; it is one atomic step because `once.Do` serialises its
callers and `err` is read only after `wg.Wait()`. -/
def Inv.collect (c : Bool) (f : Frame E) (gs : List (Status × Inv E)) (i : Nat) (t : Inv E) :
    Option E → Inv E
  | none => .join f (gs.set i (Status.clean, t))
  | some e =>
    if f.once then .join f (gs.set i (Status.dropped, t))
    else .join (f.latch c e) (gs.set i (Status.latched, t))

/-- One atomic step of the goroutine addressed by a path: `[]` is the invocation itself,
`i :: p` is goroutine `i` of the frame, which either takes the step `p` inside its call of
`runner.Run(ctx)` (whose context is the derived one, cancelled iff the frame's own flag is set
or the parent is cancelled), or, with `p = []` once that call has returned, collects the
result. -/
def Inv.step : List Nat → Bool → Nat → Inv E → Option (Nat × Inv E)
  | [], c, n, t => t.self c n
  | _ :: _, _, _, .call _ => none
  | i :: p, c, n, .join f gs =>
    match gs[i]? with
    | some (Status.live, t) =>
      match p, t.result with
      | [], some rerr => some (n, Inv.collect c f gs i t rerr)
      | _, _ =>
        (Inv.step p (c || f.cancelled) n t).map
          (fun r => (r.1, .join f (gs.set i (Status.live, r.2))))
    | _ => none

/-- A configuration: whether the caller's context is cancelled, the bits of the shared counter
(read through `int32`), and the invocation. -/
structure Conf (E : Type) where
  cancelled : Bool
  count : Nat
  inv : Inv E

/-- A move of a schedule: `none` is the environment cancelling the caller's context, `some p` a
step of the goroutine at path `p`. -/
abbrev Move := Option (List Nat)

/-- One move of a configuration. -/
def Conf.move (s : Conf E) : Move → Option (Conf E)
  | none => some { s with cancelled := true }
  | some p => (s.inv.step p s.cancelled s.count).map
      (fun r => { s with count := r.1, inv := r.2 })

/-- Run a schedule; `none` if some move of it is not enabled. -/
def exec : List Move → Conf E → Option (Conf E)
  | [], s => some s
  | m :: ms, s => (s.move m).bind (exec ms)

/-- The configuration in which `r.Run(ctx)` is invoked. -/
def Runner.start (r : Runner E) (cancelled : Bool) (count : Nat) : Conf E :=
  { cancelled := cancelled, count := count, inv := r.Run }

/-- The value `r.Run(ctx)` returns under a schedule: `none` if the schedule is not enabled or
the invocation has not returned at its end. -/
def Runner.returns (r : Runner E) (cancelled : Bool) (count : Nat) (sched : List Move) :
    Option (Option E) :=
  (exec sched (r.start cancelled count)).bind (fun s => s.inv.result)

/-- The states `t2` that an execution of the invocation `t` passes through, whatever its
context and the other users of the counter do. -/
inductive Inv.Runs : Inv E → Inv E → Prop where
  | refl (t : Inv E) : Inv.Runs t t
  | tail {t t1 t2 : Inv E} {p : List Nat} {c : Bool} {n n2 : Nat} :
      Inv.Runs t t1 → t1.step p c n = some (n2, t2) → Inv.Runs t t2

/-- Run a list of steps under a context whose state `c` does not change. -/
def Inv.run : List (List Nat) → Bool → Nat → Inv E → Option (Nat × Inv E)
  | [], _, n, t => some (n, t)
  | p :: ps, c, n, t => (t.step p c n).bind (fun r => Inv.run ps c r.1 r.2)

/-- What holds of the frame `f` with goroutines `gs` in every state of an invocation of the
closure `Join` built over `rs`; `c = false` says that its context has not been cancelled so
far. -/
structure Sound (c : Bool) (rs : List (Fn E)) (f : Frame E) (gs : List (Status × Inv E)) :
    Prop where
  /-- the loop has started the runners in order, one goroutine each -/
  todo_eq : f.todo = rs.drop gs.length
  len_le : gs.length ≤ rs.length
  /-- goroutine `i` holds an execution of runner `i` -/
  runs : ∀ (i : Nat) (g : Status × Inv E) (r : Fn E), gs[i]? = some g → rs[i]? = some r →
    Inv.Runs (.call r) g.2
  /-- the flag `once` is done exactly when `err` is set -/
  once_err : f.once = f.err.isSome
  gate_eq : f.gate = if f.once then 1 else 0
  deferred_eq : f.deferred = if f.returned then 1 else 0
  cancelled_eq : f.cancelled = (f.once || f.returned)
  flips_le : f.flips ≤ 1
  flips_zero : f.cancelled = false → f.flips = 0
  flips_eq : c = false → f.flips = if f.cancelled then 1 else 0
  /-- the closure returns only after the loop and after every goroutine is done -/
  returned_all : f.returned = true → f.todo = [] ∧ ∀ g ∈ gs, g.1 ≠ Status.live
  /-- a goroutine that is done holds the returned invocation of its runner -/
  done_res : ∀ g ∈ gs, g.1 ≠ Status.live → ∃ r, g.2.result = some r
  clean_res : ∀ g ∈ gs, g.1 = Status.clean → g.2.result = some none
  dropped_res : ∀ g ∈ gs, g.1 = Status.dropped → f.once = true ∧ ∃ e, g.2.result = some (some e)
  latched_res : ∀ g ∈ gs, g.1 = Status.latched → f.err.isSome ∧ g.2.result = some f.err
  /-- at most one goroutine got through the gate, and one did if `once` is done -/
  latched_one : ∀ (i j : Nat) (gi gj : Status × Inv E), gs[i]? = some gi → gs[j]? = some gj →
    gi.1 = Status.latched → gj.1 = Status.latched → i = j
  latched_ex : f.once = true → ∃ g ∈ gs, g.1 = Status.latched
  latched_once : ∀ g ∈ gs, g.1 = Status.latched → f.once = true

/-- The states of an invocation of the closure `Join` builds over `rs`: before line 38, or a
sound frame. -/
def Joined (rs : List (Fn E)) (s : Conf E) : Prop :=
  s.inv = .call (.fan rs) ∨ ∃ f gs, s.inv = .join f gs ∧ Sound s.cancelled rs f gs

/-- The frame of the closure over `rs` has latched the error `e`. -/
def Latched (rs : List (Fn E)) (e : E) (s : Conf E) : Prop :=
  ∃ f gs, s.inv = .join f gs ∧ Sound s.cancelled rs f gs ∧ f.err = some e

/-- A bound on the number of steps an invocation of the body can take: one per operation, and
for the closure of `Join` the derivation of the context, the return, and for each runner the
`go` statement, the runner's own steps and the collection of its result. -/
def Fn.cost : Fn E → Nat
  | .ret _ => 0
  | .add k => k.cost + 1
  | .load _ hit miss => hit.cost + miss.cost + 1
  | .done k => k.cost + 1
  | .poll can live => can.cost + live.cost + 1
  | .fan runners => costs runners + 2
where
  /-- The bound for the runners the loop has still to start. -/
  costs : List (Fn E) → Nat
  | [] => 0
  | r :: rs => r.cost + 2 + costs rs

/-- A bound on the number of steps an invocation can still take. -/
def Inv.cost : Inv E → Nat
  | .call fn => fn.cost
  | .join f gs => (if f.returned then 0 else 1) + Fn.cost.costs f.todo + costs gs
where
  /-- The bound for the goroutines of a frame. -/
  costs : List (Status × Inv E) → Nat
  | [] => 0
  | (st, t) :: gs => (if st = Status.live then t.cost + 1 else 0) + costs gs

/-- The body never waits for its context to be cancelled: it contains no `<-ctx.Done()`. -/
def Fn.nowait : Fn E → Bool
  | .ret _ => true
  | .add k => k.nowait
  | .load _ hit miss => hit.nowait && miss.nowait
  | .done _ => false
  | .poll can live => can.nowait && live.nowait
  | .fan runners => nowaits runners
where
  /-- None of the bodies waits. -/
  nowaits : List (Fn E) → Bool
  | [] => true
  | r :: rs => r.nowait && nowaits rs

/-- The invocation cannot block: what remains of it contains no `<-ctx.Done()`, or sits below
a frame whose derived context is cancelled. -/
def Inv.nowait : Inv E → Bool
  | .call fn => fn.nowait
  | .join f gs => f.cancelled || (Fn.nowait.nowaits f.todo && nowaits gs)
where
  /-- None of the live goroutines can block. -/
  nowaits : List (Status × Inv E) → Bool
  | [] => true
  | (st, t) :: gs => (st != Status.live || t.nowait) && nowaits gs

/-- The configuration cannot block: the caller's context is cancelled or the invocation
cannot block by itself. -/
def Conf.free (s : Conf E) : Prop := s.cancelled = true ∨ s.inv.nowait = true

/-- The states of an invocation of the closure over `rs`, each of whose runners either waits for
its context and then returns `cerr` or returns `f` at once, under a caller's context that is
not cancelled: the only error latched is `f`, and a waiting runner is still waiting, or has
returned `cerr` after `once` was done and was not the one to get through the gate. -/
def Waiting (cerr f : E) (rs : List (Fn E)) (t : Inv E) : Prop :=
  t = .call (.fan rs) ∨ ∃ fr gs, t = .join fr gs ∧ Sound false rs fr gs ∧
    (fr.err = none ∨ fr.err = some f) ∧
    ∀ (i : Nat) (g : Status × Inv E), gs[i]? = some g →
      rs[i]? = some (.done (.ret (some cerr))) →
      (g.2 = .call (.done (.ret (some cerr))) ∧ g.1 = Status.live) ∨
      (g.2 = .call (.ret (some cerr)) ∧ fr.once = true ∧ g.1 ≠ Status.latched)

/-- The body does not read the shared counter: it contains no `count.Load()`.  Such a body
learns about the other goroutines through its context only. -/
def Fn.pure : Fn E → Bool
  | .ret _ => true
  | .add k => k.pure
  | .load _ _ _ => false
  | .done k => k.pure
  | .poll can live => can.pure && live.pure
  | .fan runners => pures runners
where
  /-- None of the bodies reads the shared counter. -/
  pures : List (Fn E) → Bool
  | [] => true
  | r :: rs => r.pure && pures rs

/-- Nothing that remains of the invocation reads the shared counter. -/
def Inv.pure : Inv E → Bool
  | .call fn => fn.pure
  | .join f gs => Fn.pure.pures f.todo && pures gs
where
  /-- None of the goroutines reads the shared counter. -/
  pures : List (Status × Inv E) → Bool
  | [] => true
  | (_, t) :: gs => t.pure && pures gs

/-- The frames of the invocation, at every depth, are as the code leaves them: `once` is done
exactly when `err` is set, the derived context is cancelled through its own `cancel` exactly
when `once` is done or the closure has returned, and a closure that has returned has ended its
loop and has no live goroutine. -/
def Inv.wf : Inv E → Bool
  | .call _ => true
  | .join f gs =>
    (f.once == f.err.isSome) && (f.cancelled == (f.once || f.returned)) &&
    (!f.returned || (f.todo.isEmpty && gs.all (fun g => g.1 != Status.live))) && wfs gs
where
  /-- The frames of all the goroutines are as the code leaves them. -/
  wfs : List (Status × Inv E) → Bool
  | [] => true
  | (_, t) :: gs => t.wf && wfs gs

/-- What two sets of outcomes give when both invocations must return for the `Join` to return:
the errors of either, and nil only together. -/
def both (a b : List E × Bool) : List E × Bool := (a.1 ++ b.1, a.2 && b.2)

/-- The outcomes of an invocation of the body under a context whose state is `c` and stays so
until the body has returned: the non-nil errors it may return, and whether it may return nil.
A body that reads the shared counter is given no outcome.  For the closure of `Join`: the
errors its runners may return, and nil if all of them may return nil. -/
def Fn.out (c : Bool) : Fn E → List E × Bool
  | .ret err => (err.toList, err.isNone)
  | .add k => k.out c
  | .load _ _ _ => ([], false)
  | .done k => if c then k.out c else ([], false)
  | .poll can live => if c then can.out c else live.out c
  | .fan runners => outs c runners
where
  /-- The outcomes of the closure over the runners. -/
  outs (c : Bool) : List (Fn E) → List E × Bool
  | [] => ([], true)
  | r :: rs => both (r.out c) (outs c rs)

/-- The outcomes left to an invocation in a given state, under a context whose state is `c` and
stays so: for a frame the latched error once `once` is done, `err` once it has returned, and
else the outcomes left to the runners still to start and to the live goroutines. -/
def Inv.out (c : Bool) : Inv E → List E × Bool
  | .call fn => fn.out c
  | .join f gs =>
    if f.once || f.returned then (f.err.toList, f.err.isNone)
    else both (Fn.out.outs c f.todo) (outs c gs)
where
  /-- The outcomes left to the live goroutines. -/
  outs (c : Bool) : List (Status × Inv E) → List E × Bool
  | [] => ([], true)
  | (st, t) :: gs => if st = Status.live then both (t.out c) (outs c gs) else outs c gs

/-- What two sets of outcomes give when either invocation may be the one that is made: the
outcomes of both. -/
def either (a b : List E × Bool) : List E × Bool := (a.1 ++ b.1, a.2 || b.2)

/-- The outcomes of an invocation of the body under a context that is not cancelled when the
body starts and that the caller may cancel at any moment, or never.  `<-ctx.Done()` is passed
only after the cancellation, so what follows it runs under the cancelled context; `ctx.Err()`
is non-nil if the cancellation came first, and else what follows may still see it come. -/
def Fn.dyn : Fn E → List E × Bool
  | .ret err => (err.toList, err.isNone)
  | .add k => k.dyn
  | .load _ _ _ => ([], false)
  | .done k => k.out true
  | .poll can live => either (can.out true) live.dyn
  | .fan runners => dyns runners
where
  /-- The outcomes of the closure over the runners. -/
  dyns : List (Fn E) → List E × Bool
  | [] => ([], true)
  | r :: rs => both r.dyn (dyns rs)

/-- The outcomes left to an invocation in a given state, under a context that is not cancelled
so far and that the caller may cancel at any moment, or never. -/
def Inv.dyn : Inv E → List E × Bool
  | .call fn => fn.dyn
  | .join f gs =>
    if f.once || f.returned then (f.err.toList, f.err.isNone)
    else both (Fn.dyn.dyns f.todo) (dyns gs)
where
  /-- The outcomes left to the live goroutines. -/
  dyns : List (Status × Inv E) → List E × Bool
  | [] => ([], true)
  | (st, t) :: gs => if st = Status.live then both t.dyn (dyns gs) else dyns gs

/-- The outcomes of an invocation of the body under a context whose state is `c` when the body
starts and that the caller may cancel at any moment. -/
def Fn.outcomes (c : Bool) (fn : Fn E) : List E × Bool := if c then fn.out true else fn.dyn

/-- The outcomes `a` are among the outcomes `b`. -/
def Among (a b : List E × Bool) : Prop := (∀ e ∈ a.1, e ∈ b.1) ∧ (a.2 = true → b.2 = true)

/-- The value `v` is one of the outcomes `a`. -/
def May (a : List E × Bool) : Option E → Prop
  | none => a.2 = true
  | some e => e ∈ a.1

/-! ## Theorems -/

/-! ## Lists of goroutines -/

theorem get?_set_same {α : Type} {l : List α} {i : Nat} {x y : α} (h : l[i]? = some x) :
    (l.set i y)[i]? = some y := by
  have hi : i < l.length := by
    by_contra hc
    rw [List.getElem?_eq_none (by omega)] at h
    cases h
  simp [List.getElem?_set, hi]

theorem get?_set_other {α : Type} {l : List α} {i j : Nat} {y : α} (h : i ≠ j) :
    (l.set i y)[j]? = l[j]? := by
  simp [List.getElem?_set, h]

theorem get?_set_cases {α : Type} {l : List α} {i j : Nat} {y g : α}
    (h : (l.set i y)[j]? = some g) : (j = i ∧ g = y) ∨ (j ≠ i ∧ l[j]? = some g) := by
  by_cases hji : j = i
  · subst hji
    left
    refine ⟨rfl, ?_⟩
    rw [List.getElem?_set] at h
    simp at h
    exact h.2.symm
  · right
    refine ⟨hji, ?_⟩
    rwa [get?_set_other (Ne.symm hji)] at h

theorem get?_snoc_cases {α : Type} {l : List α} {j : Nat} {x g : α}
    (h : (l ++ [x])[j]? = some g) : l[j]? = some g ∨ (j = l.length ∧ g = x) := by
  by_cases hj : j < l.length
  · left
    rwa [List.getElem?_append_left hj] at h
  · right
    rw [List.getElem?_append_right (by omega)] at h
    have : j - l.length = 0 := by
      by_contra hc
      rw [List.getElem?_eq_none (by simp; omega)] at h
      cases h
    refine ⟨by omega, ?_⟩
    rw [this] at h
    simpa using h.symm

theorem mem_set_cases {α : Type} {l : List α} {i : Nat} {y g : α} (h : g ∈ l.set i y) :
    g = y ∨ g ∈ l := by
  obtain ⟨j, hj⟩ := List.mem_iff_getElem?.1 h
  rcases get?_set_cases hj with ⟨_, h1⟩ | ⟨_, h1⟩
  · exact Or.inl h1
  · exact Or.inr (List.mem_iff_getElem?.2 ⟨j, h1⟩)

/-! ## The steps of a frame -/

/-- The four kinds of step of a frame: the loop starts the next goroutine, the closure returns,
a goroutine collects the result of its runner, a goroutine's runner takes a step. -/
theorem Inv.step_join {p : List Nat} {c : Bool} {n n2 : Nat} {f : Frame E}
    {gs : List (Status × Inv E)} {t2 : Inv E}
    (h : (Inv.join f gs).step p c n = some (n2, t2)) :
    (∃ r rest, p = [] ∧ f.todo = r :: rest ∧ n2 = n ∧
        t2 = .join { f with todo := rest } (gs ++ [(Status.live, .call r)])) ∨
    (p = [] ∧ f.todo = [] ∧ f.returned = false ∧ (∀ g ∈ gs, g.1 ≠ Status.live) ∧ n2 = n ∧
        t2 = .join (f.leave c) gs) ∨
    (∃ i t rerr, p = [i] ∧ gs[i]? = some (Status.live, t) ∧ t.result = some rerr ∧ n2 = n ∧
        t2 = Inv.collect c f gs i t rerr) ∨
    (∃ i q t t1, p = i :: q ∧ gs[i]? = some (Status.live, t) ∧
        t.step q (c || f.cancelled) n = some (n2, t1) ∧
        t2 = .join f (gs.set i (Status.live, t1))) := by
  cases p with
  | nil =>
    simp only [Inv.step, Inv.self] at h
    split at h
    · rename_i r rest hr
      left
      simp only [Option.some.injEq, Prod.mk.injEq] at h
      exact ⟨r, rest, rfl, hr, h.1.symm, h.2.symm⟩
    · rename_i hr
      right; left
      split at h
      · cases h
      · rename_i hret
        split at h
        · rename_i hall
          simp only [Option.some.injEq, Prod.mk.injEq] at h
          refine ⟨rfl, hr, by simpa using hret, ?_, h.1.symm, h.2.symm⟩
          intro g hg
          have := List.all_eq_true.1 hall g hg
          simpa using this
        · cases h
  | cons i q =>
    simp only [Inv.step] at h
    split at h
    · rename_i t hg
      split at h
      · rename_i rerr hres
        right; right; left
        simp only [Option.some.injEq, Prod.mk.injEq] at h
        exact ⟨i, t, rerr, rfl, hg, hres, h.1.symm, h.2.symm⟩
      · right; right; right
        simp only [Option.map_eq_some', Prod.mk.injEq, Prod.exists] at h
        obtain ⟨a, b, hs, ha, hb⟩ := h
        exact ⟨i, _, t, b, rfl, hg, ha ▸ hs, hb.symm⟩
    · cases h

theorem Inv.step_spawn {c : Bool} {n : Nat} {f : Frame E} {gs : List (Status × Inv E)}
    {r : Fn E} {rest : List (Fn E)} (h : f.todo = r :: rest) :
    (Inv.join f gs).step [] c n
      = some (n, .join { f with todo := rest } (gs ++ [(Status.live, .call r)])) := by
  simp [Inv.step, Inv.self, h]

theorem Inv.step_leave {c : Bool} {n : Nat} {f : Frame E} {gs : List (Status × Inv E)}
    (h : f.todo = []) (hr : f.returned = false) (hall : ∀ g ∈ gs, g.1 ≠ Status.live) :
    (Inv.join f gs).step [] c n = some (n, .join (f.leave c) gs) := by
  have : gs.all (fun g => g.1 ≠ Status.live) = true := by
    rw [List.all_eq_true]
    intro g hg
    simpa using hall g hg
  simp only [Inv.step, Inv.self, h, hr, this]
  simp

theorem Inv.step_collect {c : Bool} {n i : Nat} {f : Frame E} {gs : List (Status × Inv E)}
    {t : Inv E} {rerr : Option E} (hg : gs[i]? = some (Status.live, t))
    (hres : t.result = some rerr) :
    (Inv.join f gs).step [i] c n = some (n, Inv.collect c f gs i t rerr) := by
  simp [Inv.step, hg, hres]

theorem Inv.step_inner {c : Bool} {n n2 i : Nat} {q : List Nat} {f : Frame E}
    {gs : List (Status × Inv E)} {t t1 : Inv E} (hg : gs[i]? = some (Status.live, t))
    (hres : t.result = none) (hs : t.step q (c || f.cancelled) n = some (n2, t1)) :
    (Inv.join f gs).step (i :: q) c n = some (n2, .join f (gs.set i (Status.live, t1))) := by
  simp only [Inv.step, hg, hres, hs]
  rfl

theorem Sound.init (c : Bool) (rs : List (Fn E)) : Sound c rs (Frame.init rs) [] := by
  constructor <;> simp [Frame.init]

/-- The state of the caller's context may change from not cancelled to cancelled. -/
theorem Sound.cancel {c : Bool} {rs : List (Fn E)} {f : Frame E} {gs : List (Status × Inv E)}
    (h : Sound c rs f gs) : Sound true rs f gs :=
  { h with flips_eq := by simp }

theorem mem_set_of_mem {α : Type} {l : List α} {i : Nat} {x y g : α} (hg : g ∈ l)
    (hx : l[i]? = some x) (hne : g ≠ x) : g ∈ l.set i y := by
  obtain ⟨j, hj⟩ := List.mem_iff_getElem?.1 hg
  have hji : i ≠ j := by
    rintro rfl
    rw [hx] at hj
    exact hne (Option.some.inj hj).symm
  exact List.mem_iff_getElem?.2 ⟨j, by rw [get?_set_other hji]; exact hj⟩

theorem mem_set_self {α : Type} {l : List α} {i : Nat} {x y : α} (hx : l[i]? = some x) :
    y ∈ l.set i y :=
  List.mem_iff_getElem?.2 ⟨i, get?_set_same hx⟩

theorem drop_cons_get? {α : Type} {l : List α} {k : Nat} {r : α} {rest : List α}
    (h : l.drop k = r :: rest) : l[k]? = some r ∧ l.drop (k + 1) = rest ∧ k < l.length := by
  have hk : k < l.length := by
    by_contra hc
    rw [List.drop_eq_nil_of_le (by omega)] at h
    cases h
  refine ⟨?_, ?_, hk⟩
  · have := List.getElem?_drop l k 0
    rw [h] at this
    simpa using this.symm
  · rw [← List.tail_drop, h]
    rfl

/-- A goroutine's runner takes a step: the frame stays sound. -/
theorem Sound.inner {c : Bool} {rs : List (Fn E)} {f : Frame E} {gs : List (Status × Inv E)}
    {i : Nat} {t t1 : Inv E} (h : Sound c rs f gs) (hg : gs[i]? = some (Status.live, t))
    (hr : ∀ r, Inv.Runs (.call r) t → Inv.Runs (.call r) t1) :
    Sound c rs f (gs.set i (Status.live, t1)) where
  todo_eq := by simpa using h.todo_eq
  len_le := by simpa using h.len_le
  runs := by
    intro j g r hj hrj
    rcases get?_set_cases hj with ⟨rfl, rfl⟩ | ⟨_, hj2⟩
    · exact hr r (h.runs j _ r hg hrj)
    · exact h.runs j g r hj2 hrj
  once_err := h.once_err
  gate_eq := h.gate_eq
  deferred_eq := h.deferred_eq
  cancelled_eq := h.cancelled_eq
  flips_le := h.flips_le
  flips_zero := h.flips_zero
  flips_eq := h.flips_eq
  returned_all := by
    intro hret
    have := (h.returned_all hret).2 _ (List.mem_iff_getElem?.2 ⟨i, hg⟩)
    exact absurd rfl this
  done_res := by
    intro g hgm hl
    rcases mem_set_cases hgm with rfl | hm
    · exact absurd rfl hl
    · exact h.done_res g hm hl
  clean_res := by
    intro g hgm hl
    rcases mem_set_cases hgm with rfl | hm
    · cases hl
    · exact h.clean_res g hm hl
  dropped_res := by
    intro g hgm hl
    rcases mem_set_cases hgm with rfl | hm
    · cases hl
    · exact h.dropped_res g hm hl
  latched_res := by
    intro g hgm hl
    rcases mem_set_cases hgm with rfl | hm
    · cases hl
    · exact h.latched_res g hm hl
  latched_one := by
    intro a b ga gb ha hb hla hlb
    rcases get?_set_cases ha with ⟨_, rfl⟩ | ⟨_, ha2⟩
    · cases hla
    rcases get?_set_cases hb with ⟨_, rfl⟩ | ⟨_, hb2⟩
    · cases hlb
    exact h.latched_one a b ga gb ha2 hb2 hla hlb
  latched_ex := by
    intro ho
    obtain ⟨g, hgm, hl⟩ := h.latched_ex ho
    refine ⟨g, mem_set_of_mem hgm hg ?_, hl⟩
    rintro rfl
    cases hl
  latched_once := by
    intro g hgm hl
    rcases mem_set_cases hgm with rfl | hm
    · cases hl
    · exact h.latched_once g hm hl

/-- The loop starts the next goroutine: the frame stays sound. -/
theorem Sound.spawn {c : Bool} {rs : List (Fn E)} {f : Frame E} {gs : List (Status × Inv E)}
    {r : Fn E} {rest : List (Fn E)} (h : Sound c rs f gs) (ht : f.todo = r :: rest) :
    Sound c rs { f with todo := rest } (gs ++ [(Status.live, .call r)]) := by
  have hd := drop_cons_get? (h.todo_eq ▸ ht)
  have hmem : ∀ g, g ∈ gs ++ [(Status.live, Inv.call r)] → g.1 ≠ Status.live → g ∈ gs := by
    intro g hgm hl
    rcases List.mem_append.1 hgm with hm | hm
    · exact hm
    · rw [List.mem_singleton] at hm
      subst hm
      exact absurd rfl hl
  exact {
    todo_eq := by simpa using hd.2.1.symm
    len_le := by simpa using hd.2.2
    runs := by
      intro j g r2 hj hrj
      rcases get?_snoc_cases hj with hj2 | ⟨rfl, rfl⟩
      · exact h.runs j g r2 hj2 hrj
      · rw [hd.1] at hrj
        cases hrj
        exact Inv.Runs.refl _
    once_err := h.once_err
    gate_eq := h.gate_eq
    deferred_eq := h.deferred_eq
    cancelled_eq := h.cancelled_eq
    flips_le := h.flips_le
    flips_zero := h.flips_zero
    flips_eq := h.flips_eq
    returned_all := by
      intro hret
      have := (h.returned_all hret).1
      rw [ht] at this
      cases this
    done_res := fun g hgm hl => h.done_res g (hmem g hgm hl) hl
    clean_res := fun g hgm hl => h.clean_res g (hmem g hgm (by rw [hl]; decide)) hl
    dropped_res := fun g hgm hl => h.dropped_res g (hmem g hgm (by rw [hl]; decide)) hl
    latched_res := fun g hgm hl => h.latched_res g (hmem g hgm (by rw [hl]; decide)) hl
    latched_one := by
      intro a b ga gb ha hb hla hlb
      rcases get?_snoc_cases ha with ha2 | ⟨_, rfl⟩
      · rcases get?_snoc_cases hb with hb2 | ⟨_, rfl⟩
        · exact h.latched_one a b ga gb ha2 hb2 hla hlb
        · cases hlb
      · cases hla
    latched_ex := by
      intro ho
      obtain ⟨g, hgm, hl⟩ := h.latched_ex ho
      exact ⟨g, List.mem_append_left _ hgm, hl⟩
    latched_once := fun g hgm hl => h.latched_once g (hmem g hgm (by rw [hl]; decide)) hl }

/-- The closure returns: the frame stays sound. -/
theorem Sound.leave {c c2 : Bool} {rs : List (Fn E)} {f : Frame E} {gs : List (Status × Inv E)}
    (h : Sound c rs f gs) (hc2 : c = false → c2 = false) (ht : f.todo = [])
    (hr : f.returned = false) (hall : ∀ g ∈ gs, g.1 ≠ Status.live) :
    Sound c rs (f.leave c2) gs where
  todo_eq := h.todo_eq
  len_le := h.len_le
  runs := h.runs
  once_err := h.once_err
  gate_eq := h.gate_eq
  deferred_eq := by
    have := h.deferred_eq
    simp [Frame.leave, hr] at this ⊢
    exact this
  cancelled_eq := by simp [Frame.leave]
  flips_le := by
    have h1 := h.flips_le
    have h2 := h.flips_zero
    simp only [Frame.leave]
    split
    · exact h1
    · rename_i hc
      simp only [Bool.or_eq_true, not_or, Bool.not_eq_true] at hc
      rw [h2 hc.2]
  flips_zero := by
    intro hcan
    simp [Frame.leave] at hcan
  flips_eq := by
    intro hc
    have h2 := h.flips_eq hc
    simp only [Frame.leave, hc2 hc, Bool.false_or]
    cases hcan : f.cancelled <;> simp [hcan] at h2 ⊢ <;> exact h2
  returned_all := fun _ => ⟨ht, hall⟩
  done_res := h.done_res
  clean_res := h.clean_res
  dropped_res := h.dropped_res
  latched_res := h.latched_res
  latched_one := h.latched_one
  latched_ex := h.latched_ex
  latched_once := h.latched_once

/-- A goroutine collects the result `nil` of its runner, or a non-nil result after `once` is
done: the frame stays sound. -/
theorem Sound.pass {c : Bool} {rs : List (Fn E)} {f : Frame E} {gs : List (Status × Inv E)}
    {i : Nat} {t : Inv E} {rerr : Option E} {st : Status} (h : Sound c rs f gs)
    (hg : gs[i]? = some (Status.live, t)) (hres : t.result = some rerr)
    (hst : (st = Status.clean ∧ rerr = none) ∨
      (st = Status.dropped ∧ f.once = true ∧ ∃ e, rerr = some e)) :
    Sound c rs f (gs.set i (st, t)) where
  todo_eq := by simpa using h.todo_eq
  len_le := by simpa using h.len_le
  runs := by
    intro j g r hj hrj
    rcases get?_set_cases hj with ⟨rfl, rfl⟩ | ⟨_, hj2⟩
    · exact h.runs j (Status.live, t) r hg hrj
    · exact h.runs j g r hj2 hrj
  once_err := h.once_err
  gate_eq := h.gate_eq
  deferred_eq := h.deferred_eq
  cancelled_eq := h.cancelled_eq
  flips_le := h.flips_le
  flips_zero := h.flips_zero
  flips_eq := h.flips_eq
  returned_all := by
    intro hret
    have := (h.returned_all hret).2 _ (List.mem_iff_getElem?.2 ⟨i, hg⟩)
    exact absurd rfl this
  done_res := by
    intro g hgm hl
    rcases mem_set_cases hgm with rfl | hm
    · exact ⟨rerr, hres⟩
    · exact h.done_res g hm hl
  clean_res := by
    intro g hgm hl
    rcases mem_set_cases hgm with rfl | hm
    · rcases hst with ⟨_, rfl⟩ | ⟨hd, _⟩
      · exact hres
      · simp only at hl
        rw [hd] at hl
        cases hl
    · exact h.clean_res g hm hl
  dropped_res := by
    intro g hgm hl
    rcases mem_set_cases hgm with rfl | hm
    · rcases hst with ⟨hd, _⟩ | ⟨_, ho, e, rfl⟩
      · simp only at hl
        rw [hd] at hl
        cases hl
      · exact ⟨ho, e, hres⟩
    · exact h.dropped_res g hm hl
  latched_res := by
    intro g hgm hl
    rcases mem_set_cases hgm with rfl | hm
    · rcases hst with ⟨hd, _⟩ | ⟨hd, _⟩ <;>
      · simp only at hl
        rw [hd] at hl
        cases hl
    · exact h.latched_res g hm hl
  latched_one := by
    have hne : st ≠ Status.latched := by
      rcases hst with ⟨hd, _⟩ | ⟨hd, _⟩ <;>
      · rw [hd]
        decide
    intro a b ga gb ha hb hla hlb
    rcases get?_set_cases ha with ⟨_, rfl⟩ | ⟨_, ha2⟩
    · exact absurd hla hne
    rcases get?_set_cases hb with ⟨_, rfl⟩ | ⟨_, hb2⟩
    · exact absurd hlb hne
    exact h.latched_one a b ga gb ha2 hb2 hla hlb
  latched_ex := by
    intro ho
    obtain ⟨g, hgm, hl⟩ := h.latched_ex ho
    refine ⟨g, mem_set_of_mem hgm hg ?_, hl⟩
    rintro rfl
    cases hl
  latched_once := by
    have hne : st ≠ Status.latched := by
      rcases hst with ⟨hd, _⟩ | ⟨hd, _⟩ <;>
      · rw [hd]
        decide
    intro g hgm hl
    rcases mem_set_cases hgm with rfl | hm
    · exact absurd hl hne
    · exact h.latched_once g hm hl

/-- A goroutine gets through the gate with the non-nil result of its runner: the frame stays
sound. -/
theorem Sound.latch {c c2 : Bool} {rs : List (Fn E)} {f : Frame E}
    {gs : List (Status × Inv E)} {i : Nat} {t : Inv E} {e : E} (h : Sound c rs f gs)
    (hc2 : c = false → c2 = false)
    (hg : gs[i]? = some (Status.live, t)) (hres : t.result = some (some e))
    (ho : f.once = false) : Sound c rs (f.latch c2 e) (gs.set i (Status.latched, t)) := by
  have hnl : ∀ g ∈ gs, g.1 ≠ Status.latched := by
    intro g hgm hl
    have := h.latched_once g hgm hl
    rw [ho] at this
    cases this
  have hret : f.returned = false := by
    cases hr : f.returned
    · rfl
    · have := (h.returned_all hr).2 _ (List.mem_iff_getElem?.2 ⟨i, hg⟩)
      exact absurd rfl this
  have hcan : f.cancelled = false := by
    rw [h.cancelled_eq, ho, hret]
    rfl
  exact {
    todo_eq := by simpa [Frame.latch] using h.todo_eq
    len_le := by simpa using h.len_le
    runs := by
      intro j g r hj hrj
      rcases get?_set_cases hj with ⟨rfl, rfl⟩ | ⟨_, hj2⟩
      · exact h.runs j (Status.live, t) r hg hrj
      · exact h.runs j g r hj2 hrj
    once_err := by simp [Frame.latch]
    gate_eq := by
      have := h.gate_eq
      simp [Frame.latch, ho] at this ⊢
      exact this
    deferred_eq := h.deferred_eq
    cancelled_eq := by simp [Frame.latch]
    flips_le := by
      have h1 := h.flips_le
      have h2 := h.flips_zero
      simp only [Frame.latch]
      split
      · exact h1
      · rw [h2 hcan]
    flips_zero := by
      intro hcan2
      simp [Frame.latch] at hcan2
    flips_eq := by
      intro hc
      have h2 := h.flips_eq hc
      simp only [Frame.latch, hc2 hc, Bool.false_or, hcan]
      simp [hcan] at h2
      simp [h2]
    returned_all := by
      intro hr
      simp only [Frame.latch] at hr
      rw [hret] at hr
      cases hr
    done_res := by
      intro g hgm hl
      rcases mem_set_cases hgm with rfl | hm
      · exact ⟨_, hres⟩
      · exact h.done_res g hm hl
    clean_res := by
      intro g hgm hl
      rcases mem_set_cases hgm with rfl | hm
      · cases hl
      · exact h.clean_res g hm hl
    dropped_res := by
      intro g hgm hl
      rcases mem_set_cases hgm with rfl | hm
      · cases hl
      · exact ⟨rfl, (h.dropped_res g hm hl).2⟩
    latched_res := by
      intro g hgm hl
      rcases mem_set_cases hgm with rfl | hm
      · exact ⟨rfl, hres⟩
      · exact absurd hl (hnl g hm)
    latched_one := by
      intro a b ga gb ha hb hla hlb
      rcases get?_set_cases ha with ⟨rfl, rfl⟩ | ⟨_, ha2⟩
      · rcases get?_set_cases hb with ⟨rfl, rfl⟩ | ⟨_, hb2⟩
        · rfl
        · exact absurd hlb (hnl gb (List.mem_iff_getElem?.2 ⟨b, hb2⟩))
      · exact absurd hla (hnl ga (List.mem_iff_getElem?.2 ⟨a, ha2⟩))
    latched_ex := fun _ => ⟨_, mem_set_self hg, rfl⟩
    latched_once := fun _ _ _ => rfl }

/-- Every step of a sound frame leads to a sound frame. -/
theorem Sound.step {c c2 : Bool} {rs : List (Fn E)} {f : Frame E} {gs : List (Status × Inv E)}
    {p : List Nat} {n n2 : Nat} {t2 : Inv E} (h : Sound c rs f gs)
    (hc2 : c = false → c2 = false)
    (hs : (Inv.join f gs).step p c2 n = some (n2, t2)) :
    ∃ f2 gs2, t2 = .join f2 gs2 ∧ Sound c rs f2 gs2 := by
  rcases Inv.step_join hs with ⟨r, rest, _, ht, _, rfl⟩ | ⟨_, ht, hr, hall, _, rfl⟩ |
    ⟨i, t, rerr, _, hg, hres, _, rfl⟩ | ⟨i, q, t, t1, _, hg, hst, rfl⟩
  · exact ⟨_, _, rfl, h.spawn ht⟩
  · exact ⟨_, _, rfl, h.leave hc2 ht hr hall⟩
  · cases rerr with
    | none => exact ⟨_, _, rfl, h.pass hg hres (Or.inl ⟨rfl, rfl⟩)⟩
    | some e =>
      cases ho : f.once with
      | true =>
        refine ⟨f, gs.set i (Status.dropped, t), by simp [Inv.collect, ho], ?_⟩
        exact h.pass hg hres (Or.inr ⟨rfl, ho, e, rfl⟩)
      | false =>
        refine ⟨f.latch c2 e, gs.set i (Status.latched, t), by simp [Inv.collect, ho], ?_⟩
        exact h.latch hc2 hg hres ho
  · exact ⟨_, _, rfl, h.inner hg (fun r hr => Inv.Runs.tail hr hst)⟩

/-! ## Executions of a configuration -/

theorem exec_append (a b : List Move) (s : Conf E) :
    exec (a ++ b) s = (exec a s).bind (exec b) := by
  induction a generalizing s with
  | nil => rfl
  | cons m ms ih =>
    simp only [List.cons_append, exec]
    cases s.move m with
    | none => rfl
    | some s1 => exact ih s1

/-- A property kept by every move holds at the end of every schedule. -/
theorem exec_keeps {P : Conf E → Prop}
    (hmove : ∀ s m s2, P s → s.move m = some s2 → P s2) :
    ∀ (sched : List Move) (s s2 : Conf E), P s → exec sched s = some s2 → P s2 := by
  intro sched
  induction sched with
  | nil =>
    intro s s2 hP h
    cases h
    exact hP
  | cons m ms ih =>
    intro s s2 hP h
    simp only [exec] at h
    cases hm : s.move m with
    | none => simp [hm] at h
    | some s1 =>
      rw [hm] at h
      exact ih s1 s2 (hmove s m s1 hP hm) h

theorem Conf.move_cancel {s s2 : Conf E} (h : s.move none = some s2) :
    s2 = { s with cancelled := true } := by
  simp only [Conf.move, Option.some.injEq] at h
  exact h.symm

theorem Conf.move_step {s s2 : Conf E} {p : List Nat} (h : s.move (some p) = some s2) :
    s2.cancelled = s.cancelled ∧ s.inv.step p s.cancelled s.count = some (s2.count, s2.inv) := by
  simp only [Conf.move, Option.map_eq_some'] at h
  obtain ⟨r, hr, rfl⟩ := h
  exact ⟨rfl, hr⟩

theorem Joined.move_keeps {rs : List (Fn E)} (s : Conf E) (m : Move) (s2 : Conf E)
    (h : Joined rs s) (hm : s.move m = some s2) : Joined rs s2 := by
  cases m with
  | none =>
    rw [Conf.move_cancel hm]
    rcases h with h | ⟨f, gs, h1, h2⟩
    · exact Or.inl h
    · exact Or.inr ⟨f, gs, h1, h2.cancel⟩
  | some p =>
    obtain ⟨hc, hs⟩ := Conf.move_step hm
    rcases h with h | ⟨f, gs, h1, h2⟩
    · rw [h] at hs
      cases p with
      | nil =>
        simp only [Inv.step, Inv.self, Option.some.injEq, Prod.mk.injEq] at hs
        exact Or.inr ⟨_, _, hs.2.symm, Sound.init _ _⟩
      | cons i q => simp [Inv.step] at hs
    · rw [h1] at hs
      obtain ⟨f2, gs2, h3, h4⟩ := h2.step (fun h => h) hs
      exact Or.inr ⟨f2, gs2, h3, hc ▸ h4⟩

/-- Every state of `Join(runners...).Run(ctx)` for a non-empty list of runners is a state of
the closure over them. -/
theorem Joined.exec {rs : List (Runner E)} (hne : rs ≠ []) {c : Bool} {n : Nat}
    {sched : List Move} {s : Conf E} (h : exec sched ((Join rs).start c n) = some s) :
    Joined (rs.map (·.fn)) s := by
  refine exec_keeps Joined.move_keeps sched _ s ?_ h
  left
  have : rs.length ≠ 0 := by
    intro h0
    exact hne (List.length_eq_zero.1 h0)
  simp [Runner.start, Runner.Run, Join, New, this]

/-- Once `err` is set, no step of the frame changes it. -/
theorem Sound.err_step {c : Bool} {rs : List (Fn E)} {f f2 : Frame E}
    {gs gs2 : List (Status × Inv E)} {p : List Nat} {n n2 : Nat} {e : E} (h : Sound c rs f gs)
    (he : f.err = some e) (hs : (Inv.join f gs).step p c n = some (n2, .join f2 gs2)) :
    f2.err = some e := by
  have ho : f.once = true := by rw [h.once_err, he]; rfl
  rcases Inv.step_join hs with ⟨r, rest, _, ht, _, h2⟩ | ⟨_, ht, hr, hall, _, h2⟩ |
    ⟨i, t, rerr, _, hg, hres, _, h2⟩ | ⟨i, q, t, t1, _, hg, hst, h2⟩
  · cases h2
    exact he
  · cases h2
    exact he
  · cases rerr with
    | none =>
      simp only [Inv.collect] at h2
      cases h2
      exact he
    | some e2 =>
      simp only [Inv.collect, ho, if_true] at h2
      cases h2
      exact he
  · cases h2
    exact he

theorem Latched.move_stays {rs : List (Fn E)} {e : E} (s : Conf E) (m : Move) (s2 : Conf E)
    (h : Latched rs e s) (hm : s.move m = some s2) : Latched rs e s2 := by
  obtain ⟨f, gs, h1, h2, h3⟩ := h
  cases m with
  | none =>
    rw [Conf.move_cancel hm]
    exact ⟨f, gs, h1, h2.cancel, h3⟩
  | some p =>
    obtain ⟨hc, hs⟩ := Conf.move_step hm
    rw [h1] at hs
    obtain ⟨f2, gs2, h4, h5⟩ := h2.step (fun h => h) hs
    rw [h4] at hs
    exact ⟨f2, gs2, h4, hc ▸ h5, h2.err_step h3 hs⟩

/-- The sound frame of a closure that has returned. -/
theorem Joined.returned {rs : List (Fn E)} {s : Conf E} {res : Option E} (h : Joined rs s)
    (hres : s.inv.result = some res) :
    ∃ f gs, s.inv = .join f gs ∧ Sound s.cancelled rs f gs ∧ f.returned = true ∧
      f.err = res ∧ gs.length = rs.length := by
  rcases h with h | ⟨f, gs, h1, h2⟩
  · rw [h] at hres
    cases hres
  · rw [h1] at hres
    simp only [Inv.result] at hres
    split at hres
    · rename_i hret
      refine ⟨f, gs, h1, h2, hret, Option.some.inj hres, ?_⟩
      have h3 := (h2.returned_all hret).1
      rw [h2.todo_eq] at h3
      have h4 := h2.len_le
      have h5 := List.drop_eq_nil_iff.1 h3
      omega
    · cases hres

/-! ## Executions of single runners -/

theorem Inv.step_ret (x : Option E) (p : List Nat) (c : Bool) (n : Nat) :
    (Inv.call (.ret x)).step p c n = none := by
  cases p <;> rfl

/-- The invocation of `Err(x)` is returned from the start and stays as it is. -/
theorem Inv.Runs.ret {x : Option E} {t : Inv E} (h : Inv.Runs (.call (.ret x)) t) :
    t = .call (.ret x) := by
  induction h with
  | refl => rfl
  | tail _ hs ih =>
    rw [ih, Inv.step_ret] at hs
    cases hs

/-- Every state of an invocation of the closure over `rs`, in whatever context, is the call or
a sound frame. -/
theorem Inv.Runs.fan {rs : List (Fn E)} {t : Inv E} (h : Inv.Runs (.call (.fan rs)) t) :
    t = .call (.fan rs) ∨ ∃ f gs, t = .join f gs ∧ Sound true rs f gs := by
  induction h with
  | refl => exact Or.inl rfl
  | @tail t1 t2 p c n n2 _ hs ih =>
    rcases ih with h | ⟨f, gs, h1, h2⟩
    · rw [h] at hs
      cases p with
      | nil =>
        simp only [Inv.step, Inv.self, Option.some.injEq, Prod.mk.injEq] at hs
        exact Or.inr ⟨_, _, hs.2.symm, Sound.init _ _⟩
      | cons i q => simp [Inv.step] at hs
    · rw [h1] at hs
      obtain ⟨f2, gs2, h3, h4⟩ := h2.step (by simp) hs
      exact Or.inr ⟨f2, gs2, h3, h4⟩

/-! ## Calls of `cancel` -/

/-- C8 as stated fails: `Join(Err(e)).Run(ctx)` calls the `cancel` of its derived context
twice, once inside `once.Do` (line 55) and once deferred (line 39). -/
theorem cancel_called_once_fails :
    ¬ ∀ (rs : List (Runner Nat)) (c : Bool) (n : Nat) (sched : List Move) (s : Conf Nat)
        (f : Frame Nat) (gs : List (Status × Inv Nat)),
        rs ≠ [] → exec sched ((Join rs).start c n) = some s → s.inv = .join f gs →
        f.returned = true → (∃ g ∈ gs, ∃ e, g.2.result = some (some e)) →
        f.gate + f.deferred = 1 := by
  intro h
  have := h [Err (some 7)] false 0 [some [], some [], some [0], some []]
    ⟨false, 0, .join ⟨[], true, some 7, true, 1, 1, 1, true⟩
      [(Status.latched, .call (.ret (some 7)))]⟩
    ⟨[], true, some 7, true, 1, 1, 1, true⟩ [(Status.latched, .call (.ret (some 7)))]
    (by simp) rfl rfl rfl ⟨_, List.mem_singleton.2 rfl, 7, rfl⟩
  simp at this

/-- C8 amended: when an invocation of the `Join` closure in which at least one runner returned
a non-nil error has returned, `cancel` of the derived context was called exactly twice, exactly
once inside `once.Do` and exactly once deferred at the return; at most one of the two calls
found the context not yet cancelled, and exactly one if the caller's context was never
cancelled. -/
theorem cancel_called_once_gated_once_deferred (rs : List (Runner E)) (c : Bool) (n : Nat)
    (sched : List Move) (s : Conf E) (f : Frame E) (gs : List (Status × Inv E))
    (hne : rs ≠ []) (hex : exec sched ((Join rs).start c n) = some s)
    (hinv : s.inv = .join f gs) (hret : f.returned = true)
    (hfail : ∃ g ∈ gs, ∃ e, g.2.result = some (some e)) :
    f.gate = 1 ∧ f.deferred = 1 ∧ f.gate + f.deferred = 2 ∧ f.flips ≤ 1 ∧
      (s.cancelled = false → f.flips = 1) := by
  rcases Joined.exec hne hex with h | ⟨f2, gs2, h1, hS⟩
  · rw [h] at hinv
    cases hinv
  · rw [hinv] at h1
    cases h1
    obtain ⟨g, hgm, e, hg⟩ := hfail
    have hnl := (hS.returned_all hret).2 g hgm
    have ho : f.once = true := by
      cases hst : g.1 with
      | live => exact absurd hst hnl
      | latched => exact hS.latched_once g hgm hst
      | dropped => exact (hS.dropped_res g hgm hst).1
      | clean =>
        have := hS.clean_res g hgm hst
        rw [hg] at this
        cases this
    have hgate := hS.gate_eq
    have hdef := hS.deferred_eq
    have hcan := hS.cancelled_eq
    rw [ho] at hgate hcan
    rw [hret] at hdef
    simp only [if_true] at hgate hdef
    refine ⟨hgate, hdef, by omega, hS.flips_le, ?_⟩
    intro hc
    have := hS.flips_eq hc
    rw [hcan] at this
    simpa using this

/-! ## Termination: every step uses up cost -/

theorem Inv.step_call {fn : Fn E} {p : List Nat} {c : Bool} {n n2 : Nat} {t2 : Inv E}
    (h : (Inv.call fn).step p c n = some (n2, t2)) :
    p = [] ∧ (Inv.call fn).self c n = some (n2, t2) := by
  cases p with
  | nil => exact ⟨rfl, h⟩
  | cons i q => simp [Inv.step] at h

theorem Inv.costs_append (a b : List (Status × Inv E)) :
    Inv.cost.costs (a ++ b) = Inv.cost.costs a + Inv.cost.costs b := by
  induction a with
  | nil => simp [Inv.cost.costs]
  | cons g gs ih =>
    obtain ⟨st, t⟩ := g
    rw [List.cons_append]
    simp only [Inv.cost.costs]
    rw [ih]
    omega

theorem Inv.costs_set {gs : List (Status × Inv E)} {i : Nat} {x y : Status × Inv E}
    (h : gs[i]? = some x) :
    Inv.cost.costs (gs.set i y) + (if x.1 = Status.live then x.2.cost + 1 else 0)
      = Inv.cost.costs gs + (if y.1 = Status.live then y.2.cost + 1 else 0) := by
  induction gs generalizing i with
  | nil => simp at h
  | cons g gs ih =>
    obtain ⟨st, t⟩ := g
    cases i with
    | zero =>
      simp only [List.getElem?_cons_zero, Option.some.injEq] at h
      subst h
      obtain ⟨sy, ty⟩ := y
      simp only [List.set_cons_zero, Inv.cost.costs]
      omega
    | succ j =>
      simp only [List.getElem?_cons_succ] at h
      have := ih h
      simp only [List.set_cons_succ, Inv.cost.costs]
      omega

/-- Every step lowers the cost of the invocation, so no execution is longer than the cost of
its first state. -/
theorem Inv.step_cost {p : List Nat} {c : Bool} {n n2 : Nat} {t t2 : Inv E}
    (h : t.step p c n = some (n2, t2)) : t2.cost < t.cost := by
  induction p generalizing c n n2 t t2 with
  | nil =>
    cases t with
    | call fn =>
      cases fn with
      | ret x => simp [Inv.step, Inv.self] at h
      | add k =>
        simp only [Inv.step, Inv.self, Option.some.injEq, Prod.mk.injEq] at h
        rw [← h.2]
        simp [Inv.cost, Fn.cost]
      | load m hit miss =>
        simp only [Inv.step, Inv.self, Option.some.injEq, Prod.mk.injEq] at h
        rw [← h.2]
        simp only [Inv.cost, Fn.cost]
        split <;> omega
      | done k =>
        simp only [Inv.step, Inv.self] at h
        split at h
        · simp only [Option.some.injEq, Prod.mk.injEq] at h
          rw [← h.2]
          simp [Inv.cost, Fn.cost]
        · cases h
      | poll can live =>
        simp only [Inv.step, Inv.self, Option.some.injEq, Prod.mk.injEq] at h
        rw [← h.2]
        simp only [Inv.cost, Fn.cost]
        split <;> omega
      | fan rs =>
        simp only [Inv.step, Inv.self, Option.some.injEq, Prod.mk.injEq] at h
        rw [← h.2]
        simp only [Inv.cost, Fn.cost, Frame.init, Inv.cost.costs]
        simp
        omega
    | join f gs =>
      rcases Inv.step_join h with ⟨r, rest, _, ht, _, rfl⟩ | ⟨_, ht, hr, hall, _, rfl⟩ |
        ⟨i, t, rerr, hp, _⟩ | ⟨i, q, t, t1, hp, _⟩
      · simp only [Inv.cost, ht, Fn.cost.costs, Inv.costs_append, Inv.cost.costs]
        simp
        omega
      · simp [Inv.cost, Frame.leave, hr]
      · cases hp
      · cases hp
  | cons i q ih =>
    cases t with
    | call fn => simp [Inv.step] at h
    | join f gs =>
      rcases Inv.step_join h with ⟨r, rest, hp, _⟩ | ⟨hp, _⟩ |
        ⟨j, t, rerr, hp, hg, hres, _, rfl⟩ | ⟨j, q2, t, t1, hp, hg, hst, rfl⟩
      · cases hp
      · cases hp
      · cases rerr with
        | none =>
          have := Inv.costs_set (y := (Status.clean, t)) hg
          simp only [Inv.collect, Inv.cost]
          simp at this
          omega
        | some e =>
          cases ho : f.once with
          | true =>
            have := Inv.costs_set (y := (Status.dropped, t)) hg
            simp only [Inv.collect, ho, if_true, Inv.cost]
            simp at this
            omega
          | false =>
            have := Inv.costs_set (y := (Status.latched, t)) hg
            simp only [Inv.collect, ho, Inv.cost, Frame.latch]
            simp at this ⊢
            omega
      · cases hp
        have h1 := ih hst
        have := Inv.costs_set (y := (Status.live, t1)) hg
        simp only [Inv.cost]
        simp at this
        omega

/-! ## Progress: an invocation that cannot block takes a step until it has returned -/

theorem Fn.nowaits_all (rs : List (Fn E)) :
    Fn.nowait.nowaits rs = true ↔ ∀ r ∈ rs, r.nowait = true := by
  induction rs with
  | nil => simp [Fn.nowait.nowaits]
  | cons r rs ih => simp [Fn.nowait.nowaits, ih]

theorem Inv.nowaits_live (gs : List (Status × Inv E)) :
    Inv.nowait.nowaits gs = true ↔ ∀ g ∈ gs, g.1 = Status.live → g.2.nowait = true := by
  induction gs with
  | nil => simp [Inv.nowait.nowaits]
  | cons g gs ih =>
    obtain ⟨st, t⟩ := g
    simp only [Inv.nowait.nowaits, Bool.and_eq_true, ih, List.mem_cons, forall_eq_or_imp]
    cases st <;> simp

theorem Inv.costs_get {gs : List (Status × Inv E)} {i : Nat} {t : Inv E}
    (h : gs[i]? = some (Status.live, t)) : t.cost + 1 ≤ Inv.cost.costs gs := by
  have := Inv.costs_set (y := (Status.clean, t)) h
  simp at this
  omega

theorem exists_live {gs : List (Status × Inv E)} (h : ¬ ∀ g ∈ gs, g.1 ≠ Status.live) :
    ∃ (i : Nat) (t : Inv E), gs[i]? = some (Status.live, t) := by
  simp only [not_forall, ne_eq, Decidable.not_not] at h
  obtain ⟨g, hg, hl⟩ := h
  obtain ⟨i, hi⟩ := List.mem_iff_getElem?.1 hg
  obtain ⟨st, t⟩ := g
  simp only at hl
  subst hl
  exact ⟨i, t, hi⟩

/-- An invocation that has not returned and cannot block has an enabled step. -/
theorem Inv.progress (k : Nat) : ∀ (t : Inv E) (c : Bool) (n : Nat), t.cost ≤ k →
    (c = true ∨ t.nowait = true) → t.result = none → ∃ p r, t.step p c n = some r := by
  induction k with
  | zero =>
    intro t c n hk hr hres
    cases t with
    | call fn =>
      cases fn with
      | ret x => simp [Inv.result] at hres
      | add k => exact ⟨[], _, rfl⟩
      | load m hit miss => exact ⟨[], _, rfl⟩
      | done k => simp [Inv.cost, Fn.cost] at hk
      | poll can live => exact ⟨[], _, rfl⟩
      | fan rs => exact ⟨[], _, rfl⟩
    | join f gs =>
      have hret : f.returned = false := by
        cases h : f.returned
        · rfl
        · simp [Inv.result, h] at hres
      simp [Inv.cost, hret] at hk
  | succ k ih =>
    intro t c n hk hr hres
    cases t with
    | call fn =>
      cases fn with
      | ret x => simp [Inv.result] at hres
      | add k => exact ⟨[], _, rfl⟩
      | load m hit miss => exact ⟨[], _, rfl⟩
      | done k =>
        rcases hr with rfl | hr
        · exact ⟨[], _, rfl⟩
        · simp [Inv.nowait, Fn.nowait] at hr
      | poll can live => exact ⟨[], _, rfl⟩
      | fan rs => exact ⟨[], _, rfl⟩
    | join f gs =>
      have hret : f.returned = false := by
        cases h : f.returned
        · rfl
        · simp [Inv.result, h] at hres
      cases htodo : f.todo with
      | cons r rest => exact ⟨[], _, Inv.step_spawn htodo⟩
      | nil =>
        by_cases hall : ∀ g ∈ gs, g.1 ≠ Status.live
        · exact ⟨[], _, Inv.step_leave htodo hret hall⟩
        · obtain ⟨i, t1, hi⟩ := exists_live hall
          cases hres1 : t1.result with
          | some rerr => exact ⟨[i], _, Inv.step_collect hi hres1⟩
          | none =>
            have hc1 := Inv.costs_get hi
            have hk1 : t1.cost ≤ k := by
              simp only [Inv.cost] at hk
              omega
            have hr1 : (c || f.cancelled) = true ∨ t1.nowait = true := by
              rcases hr with rfl | hr
              · left; rfl
              · simp only [Inv.nowait, Bool.or_eq_true, Bool.and_eq_true] at hr
                rcases hr with hr | hr
                · left; simp [hr]
                · right
                  exact (Inv.nowaits_live gs).1 hr.2 _ (List.mem_iff_getElem?.2 ⟨i, hi⟩) rfl
            obtain ⟨p, ⟨r1, r2⟩, hs⟩ := ih t1 (c || f.cancelled) n hk1 hr1 hres1
            exact ⟨i :: p, _, Inv.step_inner hi hres1 hs⟩

/-- A step of an invocation that cannot block leads to one that cannot block. -/
theorem Inv.step_nowait {p : List Nat} {c : Bool} {n n2 : Nat} {t t2 : Inv E}
    (h : t.step p c n = some (n2, t2)) (hr : c = true ∨ t.nowait = true) :
    c = true ∨ t2.nowait = true := by
  induction p generalizing c n n2 t t2 with
  | nil =>
    rcases hr with hr | hr
    · exact Or.inl hr
    right
    cases t with
    | call fn =>
      cases fn with
      | ret x => simp [Inv.step, Inv.self] at h
      | add k =>
        simp only [Inv.step, Inv.self, Option.some.injEq, Prod.mk.injEq] at h
        rw [← h.2]
        simpa [Inv.nowait, Fn.nowait] using hr
      | load m hit miss =>
        simp only [Inv.step, Inv.self, Option.some.injEq, Prod.mk.injEq] at h
        rw [← h.2]
        simp only [Inv.nowait, Fn.nowait, Bool.and_eq_true] at hr ⊢
        split
        · exact hr.1
        · exact hr.2
      | done k => simp [Inv.nowait, Fn.nowait] at hr
      | poll can live =>
        simp only [Inv.step, Inv.self, Option.some.injEq, Prod.mk.injEq] at h
        rw [← h.2]
        simp only [Inv.nowait, Fn.nowait, Bool.and_eq_true] at hr ⊢
        split
        · exact hr.1
        · exact hr.2
      | fan rs =>
        simp only [Inv.step, Inv.self, Option.some.injEq, Prod.mk.injEq] at h
        rw [← h.2]
        simp only [Inv.nowait, Fn.nowait] at hr
        simp [Inv.nowait, Frame.init, hr, Inv.nowait.nowaits]
    | join f gs =>
      rcases Inv.step_join h with ⟨r, rest, _, ht, _, rfl⟩ | ⟨_, ht, hrt, hall, _, rfl⟩ |
        ⟨i, t, rerr, hp, _⟩ | ⟨i, q, t, t1, hp, _⟩
      · simp only [Inv.nowait, Bool.or_eq_true, Bool.and_eq_true] at hr ⊢
        rcases hr with hr | hr
        · exact Or.inl hr
        · right
          rw [ht, Fn.nowaits_all] at hr
          refine ⟨(Fn.nowaits_all _).2 (fun r2 hr2 => hr.1 r2 (List.mem_cons_of_mem _ hr2)), ?_⟩
          rw [Inv.nowaits_live]
          intro g hg hl
          rcases List.mem_append.1 hg with hg | hg
          · exact (Inv.nowaits_live gs).1 hr.2 g hg hl
          · rw [List.mem_singleton] at hg
            subst hg
            exact hr.1 r (List.mem_cons_self _ _)
      · simp [Inv.nowait, Frame.leave]
      · cases hp
      · cases hp
  | cons i q ih =>
    cases c with
    | true => exact Or.inl rfl
    | false =>
    have hr : t.nowait = true := by simpa using hr
    right
    cases t with
    | call fn => simp [Inv.step] at h
    | join f gs =>
      have hset : ∀ (j : Nat) (y t0 : Status × Inv E), gs[j]? = some t0 →
          (y.1 = Status.live → y.2.nowait = true) →
          (Inv.join f gs).nowait = true → (Inv.join f (gs.set j y)).nowait = true := by
        intro j y t0 hj hy hn
        simp only [Inv.nowait, Bool.or_eq_true, Bool.and_eq_true] at hn ⊢
        rcases hn with hn | hn
        · exact Or.inl hn
        · right
          refine ⟨hn.1, ?_⟩
          rw [Inv.nowaits_live]
          intro g hg hl
          rcases mem_set_cases hg with rfl | hg
          · exact hy hl
          · exact (Inv.nowaits_live gs).1 hn.2 g hg hl
      rcases Inv.step_join h with ⟨r, rest, hp, _⟩ | ⟨hp, _⟩ |
        ⟨j, t, rerr, hp, hg, hres, _, rfl⟩ | ⟨j, q2, t, t1, hp, hg, hst, rfl⟩
      · cases hp
      · cases hp
      · cases rerr with
        | none => exact hset j (Status.clean, t) _ hg (by simp) hr
        | some e =>
          cases ho : f.once with
          | true =>
            simp only [Inv.collect, ho, if_true]
            exact hset j (Status.dropped, t) _ hg (by simp) hr
          | false =>
            simp [Inv.collect, ho, Inv.nowait, Frame.latch]
      · cases hp
        cases hcan : f.cancelled with
        | true => simp [Inv.nowait, hcan]
        | false =>
          have hn1 : t.nowait = true := by
            simp only [Inv.nowait, hcan, Bool.false_or, Bool.and_eq_true] at hr
            exact (Inv.nowaits_live gs).1 hr.2 _ (List.mem_iff_getElem?.2 ⟨i, hg⟩) rfl
          have h2 := ih hst (Or.inr hn1)
          simp only [hcan, Bool.or_false] at h2
          rcases h2 with h2 | h2
          · cases h2
          · exact hset i (Status.live, t1) _ hg (fun _ => h2) hr

/-- An invocation that cannot block returns: some execution of it under the unchanged context
ends in a returned state. -/
theorem Inv.completes (k : Nat) : ∀ (t : Inv E) (c : Bool) (n : Nat), t.cost ≤ k →
    (c = true ∨ t.nowait = true) →
    ∃ ps n2 t2 res, Inv.run ps c n t = some (n2, t2) ∧ t2.result = some res := by
  induction k with
  | zero =>
    intro t c n hk hr
    cases hres : t.result with
    | some res => exact ⟨[], n, t, res, rfl, hres⟩
    | none =>
      obtain ⟨p, ⟨r1, r2⟩, hs⟩ := Inv.progress 0 t c n hk hr hres
      have := Inv.step_cost hs
      omega
  | succ k ih =>
    intro t c n hk hr
    cases hres : t.result with
    | some res => exact ⟨[], n, t, res, rfl, hres⟩
    | none =>
      obtain ⟨p, ⟨r1, r2⟩, hs⟩ := Inv.progress (k + 1) t c n hk hr hres
      have hc := Inv.step_cost hs
      obtain ⟨ps, n2, t2, res, hrun, hres2⟩ :=
        ih r2 c r1 (by omega) (Inv.step_nowait hs hr)
      exact ⟨p :: ps, n2, t2, res, by simp [Inv.run, hs, hrun], hres2⟩

/-- An execution under an unchanged context is the execution of a schedule in which the
environment does not move. -/
theorem exec_run {ps : List (List Nat)} {c : Bool} {n n2 : Nat} {t t2 : Inv E}
    (h : Inv.run ps c n t = some (n2, t2)) :
    exec (ps.map some) ⟨c, n, t⟩ = some ⟨c, n2, t2⟩ := by
  induction ps generalizing n t with
  | nil =>
    simp only [Inv.run, Option.some.injEq, Prod.mk.injEq] at h
    obtain ⟨rfl, rfl⟩ := h
    rfl
  | cons p ps ih =>
    simp only [Inv.run] at h
    cases hs : t.step p c n with
    | none => simp [hs] at h
    | some r =>
      rw [hs] at h
      simp only [List.map_cons, exec, Conf.move, hs, Option.map_some', Option.some_bind]
      exact ih h

theorem run_exec {ps : List (List Nat)} {c : Bool} {n : Nat} {t : Inv E} {s : Conf E}
    (h : exec (ps.map some) ⟨c, n, t⟩ = some s) :
    s.cancelled = c ∧ Inv.run ps c n t = some (s.count, s.inv) := by
  induction ps generalizing n t with
  | nil =>
    simp only [List.map_nil, exec, Option.some.injEq] at h
    subst h
    exact ⟨rfl, rfl⟩
  | cons p ps ih =>
    simp only [List.map_cons, exec, Conf.move] at h
    cases hs : t.step p c n with
    | none => simp [hs] at h
    | some r =>
      simp only [hs, Option.map_some', Option.some_bind] at h
      have := ih h
      exact ⟨this.1, by simp [Inv.run, hs, this.2]⟩

/-- No execution is longer than the cost of its first state. -/
theorem Inv.run_length {ps : List (List Nat)} {c : Bool} {n n2 : Nat} {t t2 : Inv E}
    (h : Inv.run ps c n t = some (n2, t2)) : ps.length + t2.cost ≤ t.cost := by
  induction ps generalizing n t with
  | nil =>
    simp only [Inv.run, Option.some.injEq, Prod.mk.injEq] at h
    rw [← h.2]
    simp
  | cons p ps ih =>
    simp only [Inv.run] at h
    cases hs : t.step p c n with
    | none => simp [hs] at h
    | some r =>
      obtain ⟨r1, r2⟩ := r
      rw [hs] at h
      have h1 := ih h
      have h2 := Inv.step_cost hs
      simp only [List.length_cons] at h1 ⊢
      omega

theorem exec_length {ps : List (List Nat)} {s s2 : Conf E}
    (h : exec (ps.map some) s = some s2) : ps.length + s2.inv.cost ≤ s.inv.cost := by
  obtain ⟨c, n, t⟩ := s
  exact Inv.run_length (run_exec h).2

/-- A state from which some execution leads to a returned state, and which has not returned
itself, has an enabled step. -/
theorem step_of_completes {ps : List (List Nat)} {s s2 : Conf E} {res : Option E}
    (h : exec (ps.map some) s = some s2) (hres : s2.inv.result = some res)
    (hnone : s.inv.result = none) : ∃ p s3, s.move (some p) = some s3 := by
  cases ps with
  | nil =>
    simp only [List.map_nil, exec, Option.some.injEq] at h
    rw [h, hres] at hnone
    cases hnone
  | cons p ps =>
    simp only [List.map_cons, exec] at h
    cases hm : s.move (some p) with
    | none => simp [hm] at h
    | some s3 => exact ⟨p, s3, hm⟩

theorem Conf.free_move (s : Conf E) (m : Move) (s2 : Conf E) (h : s.free)
    (hm : s.move m = some s2) : s2.free := by
  cases m with
  | none =>
    rw [Conf.move_cancel hm]
    exact Or.inl rfl
  | some p =>
    obtain ⟨hc, hs⟩ := Conf.move_step hm
    have := Inv.step_nowait hs h
    rw [← hc] at this
    exact this

/-- A configuration that cannot block can be run to a returned state. -/
theorem Conf.free_completes (s : Conf E) (h : s.free) :
    ∃ (ps : List (List Nat)) (s2 : Conf E) (res : Option E),
      exec (ps.map some) s = some s2 ∧ s2.inv.result = some res := by
  obtain ⟨ps, n2, t2, res, hrun, hres⟩ :=
    Inv.completes s.inv.cost s.inv s.cancelled s.count (Nat.le_refl _) h
  exact ⟨ps, ⟨s.cancelled, n2, t2⟩, res, exec_run hrun, hres⟩

/-! ## The steps of the closure itself -/

theorem Conf.move_of_step {s : Conf E} {p : List Nat} {r : Nat × Inv E}
    (h : s.inv.step p s.cancelled s.count = some r) :
    s.move (some p) = some { s with count := r.1, inv := r.2 } := by
  simp [Conf.move, h]

theorem map_snd_set {gs : List (Status × Inv E)} {i : Nat} {st st2 : Status} {t : Inv E}
    (h : gs[i]? = some (st, t)) : (gs.set i (st2, t)).map (·.2) = gs.map (·.2) := by
  induction gs generalizing i with
  | nil => rfl
  | cons g gs ih =>
    cases i with
    | zero =>
      simp only [List.getElem?_cons_zero, Option.some.injEq] at h
      subst h
      rfl
    | succ j =>
      simp only [List.getElem?_cons_succ] at h
      simp only [List.set_cons_succ, List.map_cons, ih h]

theorem forall_snd_congr {gs gs2 : List (Status × Inv E)} (h : gs2.map (·.2) = gs.map (·.2))
    (P : Inv E → Prop) : (∀ g ∈ gs2, P g.2) → ∀ g ∈ gs, P g.2 := by
  intro h2 g hg
  have : g.2 ∈ gs2.map (·.2) := by
    rw [h]
    exact List.mem_map.2 ⟨g, hg, rfl⟩
  obtain ⟨g2, hg2, he⟩ := List.mem_map.1 this
  rw [← he]
  exact h2 g2 hg2

/-- The loop of lines 47-60 starts the next runners, as many as wanted. -/
theorem Inv.spawn_some (c : Bool) (n : Nat) : ∀ (pre rest : List (Fn E)) (f : Frame E)
    (gs : List (Status × Inv E)), f.todo = pre ++ rest →
    Inv.run (List.replicate pre.length []) c n (.join f gs)
      = some (n, .join { f with todo := rest }
          (gs ++ pre.map (fun r => (Status.live, Inv.call r)))) := by
  intro pre
  induction pre with
  | nil =>
    intro rest f gs h
    simp only [List.nil_append] at h
    simp only [List.length_nil, List.replicate_zero, Inv.run, List.map_nil, List.append_nil,
      ← h]
  | cons r pre ih =>
    intro rest f gs h
    have h2 := ih rest { f with todo := pre ++ rest } (gs ++ [(Status.live, .call r)]) rfl
    simp only [List.length_cons, List.replicate_succ, Inv.run,
      Inv.step_spawn (show f.todo = r :: (pre ++ rest) from h), Option.some_bind]
    rw [h2]
    simp

/-- A frame that has not returned and whose live goroutines all hold a returned call of
`runner.Run` has an enabled step of its own: the next `go` statement, the collection of a
result, or the return. -/
theorem Inv.own_step (c : Bool) (n : Nat) (f : Frame E) (gs : List (Status × Inv E))
    (hret : f.returned = false)
    (hall : ∀ g ∈ gs, g.1 = Status.live → ∃ x, g.2.result = some x) :
    ∃ p r, p.length ≤ 1 ∧ (Inv.join f gs).step p c n = some r := by
  cases htodo : f.todo with
  | cons r rest => exact ⟨[], _, by simp, Inv.step_spawn htodo⟩
  | nil =>
    by_cases hl : ∀ g ∈ gs, g.1 ≠ Status.live
    · exact ⟨[], _, by simp, Inv.step_leave htodo hret hl⟩
    · obtain ⟨i, t1, hi⟩ := exists_live hl
      obtain ⟨x, hx⟩ := hall _ (List.mem_iff_getElem?.2 ⟨i, hi⟩) rfl
      exact ⟨[i], _, by simp, Inv.step_collect hi hx⟩

/-- After the loop, once every call of `runner.Run` has returned, the closure collects the
results one by one and returns, by steps of its own only. -/
theorem Inv.gather (c : Bool) (n : Nat) : ∀ (k : Nat) (f : Frame E)
    (gs : List (Status × Inv E)), Inv.cost.costs gs ≤ k → f.todo = [] → f.returned = false →
    (∀ g ∈ gs, g.1 = Status.live → ∃ x, g.2.result = some x) →
    ∃ (ps : List (List Nat)) (f2 : Frame E) (gs2 : List (Status × Inv E)),
      (∀ p ∈ ps, p.length ≤ 1) ∧ Inv.run ps c n (.join f gs) = some (n, .join f2 gs2) ∧
      f2.returned = true ∧ gs2.map (·.2) = gs.map (·.2) := by
  intro k
  induction k with
  | zero =>
    intro f gs hk htodo hret hall
    have hl : ∀ g ∈ gs, g.1 ≠ Status.live := by
      by_contra hl
      obtain ⟨i, t1, hi⟩ := exists_live hl
      have := Inv.costs_get hi
      omega
    refine ⟨[[]], f.leave c, gs, by simp, ?_, rfl, rfl⟩
    simp only [Inv.run, Inv.step_leave htodo hret hl, Option.some_bind]
  | succ k ih =>
    intro f gs hk htodo hret hall
    by_cases hl : ∀ g ∈ gs, g.1 ≠ Status.live
    · refine ⟨[[]], f.leave c, gs, by simp, ?_, rfl, rfl⟩
      simp only [Inv.run, Inv.step_leave htodo hret hl, Option.some_bind]
    · obtain ⟨i, t1, hi⟩ := exists_live hl
      obtain ⟨x, hx⟩ := hall _ (List.mem_iff_getElem?.2 ⟨i, hi⟩) rfl
      have hstep := Inv.step_collect (c := c) (n := n) (f := f) hi hx
      have hnext : ∃ (f1 : Frame E) (st : Status), st ≠ Status.live ∧
          Inv.collect c f gs i t1 x = .join f1 (gs.set i (st, t1)) ∧ f1.todo = [] ∧
          f1.returned = false := by
        cases x with
        | none => exact ⟨f, Status.clean, by simp, rfl, htodo, hret⟩
        | some e =>
          cases ho : f.once with
          | true =>
            exact ⟨f, Status.dropped, by simp, by simp [Inv.collect, ho], htodo, hret⟩
          | false =>
            exact ⟨f.latch c e, Status.latched, by simp, by simp [Inv.collect, ho], htodo,
              hret⟩
      obtain ⟨f1, st, hst, hcol, htodo1, hret1⟩ := hnext
      have hcost := Inv.costs_set (y := (st, t1)) hi
      simp only [hst, if_false, if_true, Nat.add_zero] at hcost
      obtain ⟨ps, f2, gs2, hps, hrun, hret2, hmap⟩ := ih f1 (gs.set i (st, t1)) (by omega)
        htodo1 hret1 (by
          intro g hg hgl
          rcases mem_set_cases hg with rfl | hg
          · exact absurd hgl hst
          · exact hall g hg hgl)
      refine ⟨[i] :: ps, f2, gs2, ?_, ?_, hret2, by rw [hmap, map_snd_set hi]⟩
      · intro p hp
        rcases List.mem_cons.1 hp with rfl | hp
        · simp
        · exact hps p hp
      · simp only [Inv.run, hstep, Option.some_bind, hcol]
        exact hrun

/-- A frame that has returned nil holds goroutines that all returned nil, and conversely. -/
theorem Sound.nil_iff {c : Bool} {rs : List (Fn E)} {f : Frame E}
    {gs : List (Status × Inv E)} (hS : Sound c rs f gs) (hret : f.returned = true) :
    f.err = none ↔ ∀ g ∈ gs, g.2.result = some none := by
  have hnl : ∀ g ∈ gs, g.1 ≠ Status.live := (hS.returned_all hret).2
  constructor
  · intro herr g hgm
    have ho : f.once = false := by rw [hS.once_err, herr]; rfl
    cases hst : g.1 with
    | live => exact absurd hst (hnl g hgm)
    | latched =>
      have := hS.latched_once g hgm hst
      rw [ho] at this
      cases this
    | dropped =>
      have := (hS.dropped_res g hgm hst).1
      rw [ho] at this
      cases this
    | clean => exact hS.clean_res g hgm hst
  · intro hall
    cases hr : f.err with
    | none => rfl
    | some e =>
      have ho : f.once = true := by rw [hS.once_err, hr]; rfl
      obtain ⟨g, hgm, hl⟩ := hS.latched_ex ho
      have h2 := (hS.latched_res g hgm hl).2
      rw [hall g hgm, hr] at h2
      cases h2

/-- The error a frame holds is the error one of its goroutines returned. -/
theorem Sound.err_mem {c : Bool} {rs : List (Fn E)} {f : Frame E}
    {gs : List (Status × Inv E)} (hS : Sound c rs f gs) {e : E} (he : f.err = some e) :
    ∃ g ∈ gs, g.2.result = some (some e) := by
  have ho : f.once = true := by rw [hS.once_err, he]; rfl
  obtain ⟨g, hgm, hl⟩ := hS.latched_ex ho
  have h2 := (hS.latched_res g hgm hl).2
  rw [he] at h2
  exact ⟨g, hgm, h2⟩

/-- From a state of `Join` in which every runner has a goroutine whose call of `runner.Run`
has returned, the closure returns by steps of its own. -/
theorem gathers_of_joined {rs : List (Fn E)} {s : Conf E} {f : Frame E}
    {gs : List (Status × Inv E)} (hJ : Joined rs s) (hinv : s.inv = .join f gs)
    (hlen : gs.length = rs.length) (hall : ∀ g ∈ gs, ∃ x, g.2.result = some x) :
    ∃ (ps : List (List Nat)) (s2 : Conf E) (f2 : Frame E) (gs2 : List (Status × Inv E)),
      (∀ p ∈ ps, p.length ≤ 1) ∧ exec (ps.map some) s = some s2 ∧ s2.inv = .join f2 gs2 ∧
      f2.returned = true ∧ gs2.map (·.2) = gs.map (·.2) := by
  obtain ⟨sc, sn, si⟩ := s
  simp only at hinv
  subst hinv
  rcases hJ with h | ⟨f1, gs1, h1, hS⟩
  · cases h
  · cases h1
    have htodo : f.todo = [] := by
      rw [hS.todo_eq, hlen]
      exact List.drop_length _
    cases hret : f.returned with
    | true => exact ⟨[], _, f, gs, by simp, rfl, rfl, hret, rfl⟩
    | false =>
      obtain ⟨ps, f2, gs2, hps, hrun, hret2, hmap⟩ := Inv.gather sc sn _ f gs
        (Nat.le_refl _) htodo hret (fun g hg _ => hall g hg)
      exact ⟨ps, _, f2, gs2, hps, exec_run hrun, rfl, hret2, hmap⟩

/-! ## The result of `Join` -/

/-- C1: for a non-empty list of runners, in every state of `Join(runners...).Run(ctx)`: when
the invocation has returned `res`, every listed runner was executed by exactly one goroutine
and has returned; `res` is nil exactly if every runner returned nil; a non-nil `res` is the
error returned by the one goroutine that got through the `once` gate, every other goroutine
returned nil or had its error dropped; and an error that is latched at any point of the
execution is the result.  The invocation does return when the runners do: while it has not
returned and every call of `runner.Run` made so far has returned, a step of the closure itself
is enabled (the next `go`, the collection of a result, or the return); once every listed
runner has a goroutine and has returned, steps of the closure alone lead to the return, of nil
exactly if every runner returned nil and else of an error a runner returned; and no execution
takes more steps than the cost of its first state. -/
theorem Join_returns_first_failure (rs : List (Runner E)) (hne : rs ≠ []) (c : Bool) (n : Nat)
    (sched : List Move) (s : Conf E)
    (hex : exec sched ((Join rs).start c n) = some s) :
    (∀ res, s.inv.result = some res →
      ∃ f gs, s.inv = .join f gs ∧ gs.length = rs.length ∧
      (∀ (i : Nat) (g : Status × Inv E), gs[i]? = some g →
          ∃ (r : Runner E) (x : Option E), rs[i]? = some r ∧ Inv.Runs r.Run g.2 ∧
          g.2.result = some x ∧ g.1 ≠ Status.live ∧ (x = none ↔ g.1 = Status.clean)) ∧
      (res = none ↔ ∀ g ∈ gs, g.2.result = some none) ∧
      (∀ e, res = some e → ∃ (i : Nat) (g : Status × Inv E), gs[i]? = some g ∧
          g.1 = Status.latched ∧
          g.2.result = some (some e) ∧
          ∀ (j : Nat) (g2 : Status × Inv E), gs[j]? = some g2 → j ≠ i →
            g2.1 = Status.clean ∨ g2.1 = Status.dropped) ∧
      (∀ pre post s1 f1 gs1 e, sched = pre ++ post →
          exec pre ((Join rs).start c n) = some s1 → s1.inv = .join f1 gs1 →
          f1.err = some e → res = some e)) ∧
    (s.inv.result = none →
      (∀ f gs, s.inv = .join f gs → ∀ g ∈ gs, g.1 = Status.live → ∃ x, g.2.result = some x) →
      ∃ p s2, p.length ≤ 1 ∧ s.move (some p) = some s2) ∧
    (∀ f gs, s.inv = .join f gs → gs.length = rs.length →
      (∀ g ∈ gs, ∃ x, g.2.result = some x) →
      ∃ (ps : List (List Nat)) (s2 : Conf E) (res : Option E), (∀ p ∈ ps, p.length ≤ 1) ∧
        exec (ps.map some) s = some s2 ∧ s2.inv.result = some res ∧
        (res = none ↔ ∀ g ∈ gs, g.2.result = some none) ∧
        (∀ e, res = some e → ∃ g ∈ gs, g.2.result = some (some e))) ∧
    (∀ (ps : List (List Nat)) (s2 : Conf E), exec (ps.map some) s = some s2 →
      ps.length ≤ s.inv.cost) := by
  refine ⟨?_, ?_, ?_, ?_⟩
  · intro res hres
    obtain ⟨f, gs, hinv, hS, hret, herr, hlen⟩ := (Joined.exec hne hex).returned hres
    have hlen2 : gs.length = rs.length := by simpa using hlen
    have hnl : ∀ g ∈ gs, g.1 ≠ Status.live := (hS.returned_all hret).2
    refine ⟨f, gs, hinv, hlen2, ?_, ?_, ?_, ?_⟩
    · intro i g hg
      have hgm : g ∈ gs := List.mem_iff_getElem?.2 ⟨i, hg⟩
      have hi : i < rs.length := by
        by_contra hc
        rw [List.getElem?_eq_none (by omega)] at hg
        cases hg
      obtain ⟨x, hx⟩ := hS.done_res g hgm (hnl g hgm)
      refine ⟨rs[i], x, List.getElem?_eq_getElem hi, ?_, hx, hnl g hgm, ?_⟩
      · exact hS.runs i g rs[i].fn hg (by simp [List.getElem?_map, List.getElem?_eq_getElem hi])
      · constructor
        · rintro rfl
          cases hst : g.1 with
          | live => exact absurd hst (hnl g hgm)
          | latched =>
            obtain ⟨h1, h2⟩ := hS.latched_res g hgm hst
            rw [hx] at h2
            rw [← Option.some.inj h2] at h1
            cases h1
          | dropped =>
            obtain ⟨_, e, h2⟩ := hS.dropped_res g hgm hst
            rw [hx] at h2
            cases h2
          | clean => rfl
        · intro hst
          have := hS.clean_res g hgm hst
          rw [hx] at this
          exact Option.some.inj this
    · rw [← herr]
      exact hS.nil_iff hret
    · intro e hr
      have ho : f.once = true := by rw [hS.once_err, herr, hr]; rfl
      obtain ⟨g, hgm, hl⟩ := hS.latched_ex ho
      obtain ⟨i, hi⟩ := List.mem_iff_getElem?.1 hgm
      refine ⟨i, g, hi, hl, ?_, ?_⟩
      · have h2 := (hS.latched_res g hgm hl).2
        rw [herr, hr] at h2
        exact h2
      · intro j g2 hj hji
        have hgm2 : g2 ∈ gs := List.mem_iff_getElem?.2 ⟨j, hj⟩
        cases hst : g2.1 with
        | live => exact absurd hst (hnl g2 hgm2)
        | latched => exact absurd (hS.latched_one j i g2 g hj hi hst hl) hji
        | dropped => exact Or.inr rfl
        | clean => exact Or.inl rfl
    · intro pre post s1 f1 gs1 e hsched hpre hinv1 he1
      subst hsched
      rw [exec_append, hpre] at hex
      have hJ := Joined.exec hne hpre
      have hL : Latched (rs.map (·.fn)) e s1 := by
        rcases hJ with h | ⟨f2, gs2, h1, h2⟩
        · rw [h] at hinv1
          cases hinv1
        · rw [hinv1] at h1
          cases h1
          exact ⟨f1, gs1, hinv1, h2, he1⟩
      obtain ⟨f3, gs3, h3, _, h5⟩ := exec_keeps Latched.move_stays post s1 s hL hex
      rw [hinv] at h3
      cases h3
      rw [← herr]
      exact h5
  · intro hnone hall
    rcases Joined.exec hne hex with h | ⟨f, gs, h1, hS⟩
    · exact ⟨[], _, by simp, Conf.move_of_step (by rw [h]; rfl)⟩
    · have hret : f.returned = false := by
        cases hr : f.returned
        · rfl
        · simp [h1, Inv.result, hr] at hnone
      obtain ⟨p, r, hp, hs⟩ := Inv.own_step s.cancelled s.count f gs hret (hall f gs h1)
      exact ⟨p, _, hp, Conf.move_of_step (by rw [h1]; exact hs)⟩
  · intro f gs hinv hlen hall
    obtain ⟨ps, s2, f2, gs2, hps, hrun, hinv2, hret2, hmap⟩ :=
      gathers_of_joined (Joined.exec hne hex) hinv (by simpa using hlen) hall
    have hex2 : exec (sched ++ ps.map some) ((Join rs).start c n) = some s2 := by
      rw [exec_append, hex]
      exact hrun
    have hres2 : s2.inv.result = some f2.err := by simp [hinv2, Inv.result, hret2]
    obtain ⟨f3, gs3, h3, hS, -, -, -⟩ := (Joined.exec hne hex2).returned hres2
    rw [hinv2] at h3
    cases h3
    refine ⟨ps, s2, f2.err, hps, hrun, hres2, ?_, ?_⟩
    · rw [hS.nil_iff hret2]
      exact ⟨forall_snd_congr hmap (fun t => t.result = some none),
        forall_snd_congr hmap.symm (fun t => t.result = some none)⟩
    · intro e he
      obtain ⟨g2, hg2, hr2⟩ := hS.err_mem he
      have : g2.2 ∈ gs.map (·.2) := by
        rw [← hmap]
        exact List.mem_map.2 ⟨g2, hg2, rfl⟩
      obtain ⟨g, hg, hge⟩ := List.mem_map.1 this
      exact ⟨g, hg, by rw [hge]; exact hr2⟩
  · intro ps s2 h
    have := exec_length h
    omega

/-! ## `Join` over `Err(e)` and `OK()` -/

theorem Join_start {rs : List (Runner E)} (hne : rs ≠ []) (c : Bool) (n : Nat) :
    (Join rs).start c n = ⟨c, n, .call (.fan (rs.map (·.fn)))⟩ := by
  have : rs.length ≠ 0 := by
    intro h0
    exact hne (List.length_eq_zero.1 h0)
  simp [Runner.start, Runner.Run, Join, New, this]

/-- Whatever `Join` over `Err(e)` and `OK()` runners returns is `e`. -/
theorem Join_Err_safe {e : E} {pre post : List (Runner E)} (hpre : ∀ r ∈ pre, r = OK)
    (hpost : ∀ r ∈ post, r = OK) {c : Bool} {n : Nat} {sched : List Move} {s : Conf E}
    (hex : exec sched ((Join (pre ++ Err (some e) :: post)).start c n) = some s)
    {res : Option E} (hres : s.inv.result = some res) : res = some e := by
  have hne : pre ++ Err (some e) :: post ≠ [] := by simp
  obtain ⟨f, gs, hinv, hS, hret, herr, hlen⟩ := (Joined.exec hne hex).returned hres
  have hnl := (hS.returned_all hret).2
  -- every goroutine holds the returned call of an `Err`
  have hform : ∀ g ∈ gs, g.2 = .call (.ret none) ∨ g.2 = .call (.ret (some e)) := by
    intro g hg
    obtain ⟨j, hj⟩ := List.mem_iff_getElem?.1 hg
    have hjl : j < (pre ++ Err (some e) :: post).length := by
      by_contra hc
      rw [List.getElem?_eq_none (by simp at hlen hc ⊢; omega)] at hj
      cases hj
    have hr : (pre ++ Err (some e) :: post)[j] ∈ pre ++ Err (some e) :: post :=
      List.getElem_mem _
    have hrun := hS.runs j g _ hj
      (by rw [List.getElem?_map, List.getElem?_eq_getElem hjl]; rfl)
    rcases List.mem_append.1 hr with h | h
    · rw [hpre _ h] at hrun
      exact Or.inl hrun.ret
    · rcases List.mem_cons.1 h with h | h
      · rw [h] at hrun
        exact Or.inr hrun.ret
      · rw [hpost _ h] at hrun
        exact Or.inl hrun.ret
  -- the goroutine of `Err(e)`
  have hi : pre.length < gs.length := by simp at hlen ⊢; omega
  have hgi : gs[pre.length]? = some gs[pre.length] := List.getElem?_eq_getElem hi
  have hmem : gs[pre.length] ∈ gs := List.getElem_mem _
  have hrun := hS.runs pre.length _ (Err (some e)).fn hgi (by
    rw [List.getElem?_map, List.getElem?_append_right (Nat.le_refl _)]
    simp)
  have hgi2 : gs[pre.length].2 = .call (.ret (some e)) := hrun.ret
  have ho : f.once = true := by
    cases hst : gs[pre.length].1 with
    | live => exact absurd hst (hnl _ hmem)
    | latched => exact hS.latched_once _ hmem hst
    | dropped => exact (hS.dropped_res _ hmem hst).1
    | clean =>
      have := hS.clean_res _ hmem hst
      rw [hgi2] at this
      cases this
  obtain ⟨g, hgm, hl⟩ := hS.latched_ex ho
  obtain ⟨h1, h2⟩ := hS.latched_res g hgm hl
  rw [herr] at h1 h2
  rcases hform g hgm with h | h
  · rw [h] at h2
    simp only [Inv.result, Option.some.injEq] at h2
    rw [← h2] at h1
    cases h1
  · rw [h] at h2
    simp only [Inv.result, Option.some.injEq] at h2
    exact h2.symm

theorem Join_Err_free {e : E} {pre post : List (Runner E)} (hpre : ∀ r ∈ pre, r = OK)
    (hpost : ∀ r ∈ post, r = OK) (c : Bool) (n : Nat) :
    ((Join (pre ++ Err (some e) :: post)).start c n).free := by
  rw [Join_start (by simp)]
  right
  simp only [Inv.nowait, Fn.nowait, Fn.nowaits_all, List.mem_map, forall_exists_index, and_imp]
  intro fn r hr hfn
  subst hfn
  rcases List.mem_append.1 hr with h | h
  · rw [hpre _ h]; rfl
  · rcases List.mem_cons.1 h with h | h
    · rw [h]; rfl
    · rw [hpost _ h]; rfl

theorem Join_Err_live {e : E} {pre post : List (Runner E)} (hpre : ∀ r ∈ pre, r = OK)
    (hpost : ∀ r ∈ post, r = OK) {c : Bool} {n : Nat} {sched : List Move} {s : Conf E}
    (hex : exec sched ((Join (pre ++ Err (some e) :: post)).start c n) = some s) :
    ∃ (ps : List (List Nat)) (s2 : Conf E),
      exec (ps.map some) s = some s2 ∧ s2.inv.result = some (some e) := by
  have hfree := exec_keeps Conf.free_move sched _ s (Join_Err_free hpre hpost c n) hex
  obtain ⟨ps, s2, res, h1, h2⟩ := Conf.free_completes s hfree
  have h3 : exec (sched ++ ps.map some) ((Join (pre ++ Err (some e) :: post)).start c n)
      = some s2 := by
    rw [exec_append, hex]
    exact h1
  have := Join_Err_safe hpre hpost h3 h2
  subst this
  exact ⟨ps, s2, h1, h2⟩

/-- C2: for every non-nil error `e`, every context and every schedule, a `Join` over `Err(e)`
and any number of `OK()` runners, with `Err(e)` at any position, can only return `e`; from
every state it reaches it does return `e` when run on; and it cannot run on for ever or get
stuck: no run from a state is longer than the state's cost, and a state that has not returned
has an enabled step. -/
theorem Join_Err_among_OK (e : E) (pre post : List (Runner E)) (hpre : ∀ r ∈ pre, r = OK)
    (hpost : ∀ r ∈ post, r = OK) (c : Bool) (n : Nat) (sched : List Move) (s : Conf E)
    (hex : exec sched ((Join (pre ++ Err (some e) :: post)).start c n) = some s) :
    (∀ res, s.inv.result = some res → res = some e) ∧
    (∃ (ps : List (List Nat)) (s2 : Conf E),
      exec (ps.map some) s = some s2 ∧ s2.inv.result = some (some e)) ∧
    (∀ (ps : List (List Nat)) (s2 : Conf E), exec (ps.map some) s = some s2 →
      ps.length ≤ s.inv.cost ∧
      (s2.inv.result = none → ∃ p s3, s2.move (some p) = some s3)) := by
  refine ⟨fun res hres => Join_Err_safe hpre hpost hex hres, Join_Err_live hpre hpost hex, ?_⟩
  intro ps s2 h2
  refine ⟨by have := exec_length h2; omega, ?_⟩
  intro hnone
  have h3 : exec (sched ++ ps.map some) ((Join (pre ++ Err (some e) :: post)).start c n)
      = some s2 := by
    rw [exec_append, hex]
    exact h2
  obtain ⟨ps3, s3, h4, h5⟩ := Join_Err_live hpre hpost h3
  exact step_of_completes h4 h5 hnone

/-! ## Every runner is run once, and `Join` waits for all of them -/

theorem sum_map_set {α : Type} (w : α → Nat) {l : List α} {i : Nat} {x y : α}
    (h : l[i]? = some x) : ((l.set i y).map w).sum + w x = (l.map w).sum + w y := by
  induction l generalizing i with
  | nil => simp at h
  | cons a l ih =>
    cases i with
    | zero =>
      simp only [List.getElem?_cons_zero, Option.some.injEq] at h
      subst h
      simp only [List.set_cons_zero, List.map_cons, List.sum_cons]
      omega
    | succ j =>
      simp only [List.getElem?_cons_succ] at h
      have := ih h
      simp only [List.set_cons_succ, List.map_cons, List.sum_cons]
      omega

/-- The states of `Join` over runners that all do `count.Add(1); return nil`, started with the
counter at `n`: every goroutine has added or has still to add, so up to the wrap-around of the
32 bits the counter and the additions still to come make `n` plus the number of goroutines. -/
theorem counting_move (rs : List (Fn E)) (n : Nat) (s : Conf E) (m : Move) (s2 : Conf E)
    (h : (s.inv = .call (.fan rs) ∧ s.count = n ∧ ∀ r ∈ rs, r = Fn.add (.ret none)) ∨
      ∃ f gs, s.inv = .join f gs ∧ (∀ r ∈ f.todo, r = Fn.add (.ret none)) ∧
        (∀ g ∈ gs, g.2 = .call (.add (.ret none)) ∨ g.2 = .call (.ret none)) ∧
        (s.count + (gs.map (fun g => g.2.cost)).sum) % 2 ^ 32 = (n + gs.length) % 2 ^ 32)
    (hm : s.move m = some s2) :
    (s2.inv = .call (.fan rs) ∧ s2.count = n ∧ ∀ r ∈ rs, r = Fn.add (.ret none)) ∨
      ∃ f gs, s2.inv = .join f gs ∧ (∀ r ∈ f.todo, r = Fn.add (.ret none)) ∧
        (∀ g ∈ gs, g.2 = .call (.add (.ret none)) ∨ g.2 = .call (.ret none)) ∧
        (s2.count + (gs.map (fun g => g.2.cost)).sum) % 2 ^ 32 = (n + gs.length) % 2 ^ 32 := by
  cases m with
  | none =>
    rw [Conf.move_cancel hm]
    exact h
  | some p =>
    obtain ⟨-, hs⟩ := Conf.move_step hm
    rcases h with ⟨h1, h2, h3⟩ | ⟨f, gs, h1, h2, h3, h4⟩
    · rw [h1] at hs
      obtain ⟨-, hs⟩ := Inv.step_call hs
      simp only [Inv.self, Option.some.injEq, Prod.mk.injEq] at hs
      right
      exact ⟨_, _, hs.2.symm, h3, by simp, by simp [← hs.1, h2]⟩
    · rw [h1] at hs
      right
      have hkeep : ∀ (i : Nat) (t : Inv E) (st : Status), gs[i]? = some (Status.live, t) →
          (∀ g ∈ gs.set i (st, t), g.2 = .call (.add (.ret none)) ∨ g.2 = .call (.ret none)) ∧
          (s.count + ((gs.set i (st, t)).map (fun g => g.2.cost)).sum) % 2 ^ 32
            = (n + (gs.set i (st, t)).length) % 2 ^ 32 := by
        intro i t st hg
        constructor
        · intro g hgm
          rcases mem_set_cases hgm with rfl | hgm
          · exact h3 (Status.live, t) (List.mem_iff_getElem?.2 ⟨i, hg⟩)
          · exact h3 g hgm
        · have := sum_map_set (fun g : Status × Inv E => g.2.cost) (y := (st, t)) hg
          simp only [List.length_set] at this ⊢
          omega
      rcases Inv.step_join hs with ⟨r, rest, _, ht, hn, ht2⟩ | ⟨_, ht, hr, hall, hn, ht2⟩ |
        ⟨i, t, rerr, _, hg, hres, hn, ht2⟩ | ⟨i, q, t, t1, _, hg, hst, ht2⟩
      · refine ⟨_, _, ht2, ?_, ?_, ?_⟩
        · intro r2 hr2
          exact h2 r2 (by rw [ht]; exact List.mem_cons_of_mem _ hr2)
        · intro g hgm
          rcases List.mem_append.1 hgm with hgm | hgm
          · exact h3 g hgm
          · rw [List.mem_singleton] at hgm
            subst hgm
            left
            rw [h2 r (by rw [ht]; exact List.mem_cons_self _ _)]
        · have hr : r = Fn.add (.ret none) := h2 r (by rw [ht]; exact List.mem_cons_self _ _)
          subst hr
          simp only [List.map_append, List.sum_append, List.length_append, hn]
          simp [Inv.cost, Fn.cost]
          omega
      · exact ⟨_, _, ht2, by simpa [Frame.leave] using h2, h3, by rw [hn]; exact h4⟩
      · cases rerr with
        | none =>
          obtain ⟨k1, k2⟩ := hkeep i t Status.clean hg
          exact ⟨_, _, ht2, h2, k1, by rw [hn]; exact k2⟩
        | some e =>
          cases ho : f.once with
          | true =>
            obtain ⟨k1, k2⟩ := hkeep i t Status.dropped hg
            simp only [Inv.collect, ho, if_true] at ht2
            exact ⟨_, _, ht2, h2, k1, by rw [hn]; exact k2⟩
          | false =>
            obtain ⟨k1, k2⟩ := hkeep i t Status.latched hg
            simp only [Inv.collect, ho] at ht2
            exact ⟨_, _, ht2, by simpa [Frame.latch] using h2, k1, by rw [hn]; exact k2⟩
      · have hgm : (Status.live, t) ∈ gs := List.mem_iff_getElem?.2 ⟨i, hg⟩
        rcases h3 _ hgm with ht | ht
        · simp only at ht
          subst ht
          obtain ⟨-, hst⟩ := Inv.step_call hst
          simp only [Inv.self, Option.some.injEq, Prod.mk.injEq] at hst
          obtain ⟨hst1, hst2⟩ := hst
          subst hst2
          refine ⟨_, _, ht2, h2, ?_, ?_⟩
          · intro g hgm2
            rcases mem_set_cases hgm2 with rfl | hgm2
            · exact Or.inr rfl
            · exact h3 g hgm2
          · have := sum_map_set (fun g : Status × Inv E => g.2.cost)
              (y := (Status.live, Inv.call (Fn.ret none))) hg
            simp only [Inv.cost, Fn.cost, List.length_set] at this ⊢
            omega
        · simp only at ht
          subst ht
          rw [Inv.step_ret] at hst
          cases hst

theorem int32_congr {a b : Nat} (h : a % 2 ^ 32 = b % 2 ^ 32) : int32 a = int32 b := by
  simp only [int32, h]

theorem int32_small {a : Nat} (h : a < 2 ^ 31) : int32 a = (a : Int) := by
  have h1 : a % 2 ^ 32 = a := Nat.mod_eq_of_lt (by omega)
  simp only [int32, h1, h, if_true]

/-- The counter wraps: `count.Add(1)` at `2 ^ 31 - 1` gives `-2 ^ 31`. -/
theorem int32_wraps (k : Fn E) :
    (Inv.call (.add k)).self false (2 ^ 31 - 1) = some (2 ^ 31, .call k) ∧
    int32 (2 ^ 31 - 1) = 2 ^ 31 - 1 ∧ int32 (2 ^ 31) = -2 ^ 31 := by
  refine ⟨rfl, ?_, ?_⟩ <;> norm_num [int32]

/-- With runners that all do `count.Add(1); return nil`, when `Join` has returned the result is
nil and the counter holds its first value plus the number of runners, wrapped to 32 bits. -/
theorem counting_result {rs : List (Runner E)} (hne : rs ≠ [])
    (hall : ∀ r ∈ rs, r = New (.add (.ret none))) {c : Bool} {n : Nat} {sched : List Move}
    {s : Conf E} (hex : exec sched ((Join rs).start c n) = some s) {res : Option E}
    (hres : s.inv.result = some res) :
    res = none ∧ s.count % 2 ^ 32 = (n + rs.length) % 2 ^ 32 := by
  obtain ⟨f, gs, hinv, hS, hret, herr, hlen⟩ := (Joined.exec hne hex).returned hres
  have hC := exec_keeps (counting_move (rs.map (·.fn)) n) sched _ s
    (Or.inl ⟨by rw [Join_start hne], by rw [Join_start hne], by
      intro r hr
      obtain ⟨r0, hr0, rfl⟩ := List.mem_map.1 hr
      rw [hall r0 hr0]
      rfl⟩) hex
  rcases hC with ⟨h1, -⟩ | ⟨f2, gs2, h1, -, h3, h4⟩
  · rw [hinv] at h1
    cases h1
  · rw [hinv] at h1
    cases h1
    have hdone : ∀ g ∈ gs, g.2 = .call (.ret none) := by
      intro g hg
      have hnl := (hS.returned_all hret).2 g hg
      obtain ⟨x, hx⟩ := hS.done_res g hg hnl
      rcases h3 g hg with h | h
      · rw [h] at hx
        cases hx
      · exact h
    constructor
    · cases hr : res with
      | none => rfl
      | some e =>
        have ho : f.once = true := by rw [hS.once_err, herr, hr]; rfl
        obtain ⟨g, hgm, hl⟩ := hS.latched_ex ho
        have h2 := (hS.latched_res g hgm hl).2
        rw [hdone g hgm, herr, hr] at h2
        cases h2
    · have hz : (gs.map (fun g => g.2.cost)).sum = 0 := by
        apply List.sum_eq_zero
        intro x hx
        obtain ⟨g, hg, rfl⟩ := List.mem_map.1 hx
        rw [hdone g hg]
        rfl
      rw [hz] at h4
      simp only [List.length_map] at hlen
      rw [hlen] at h4
      simpa using h4

theorem counting_free {rs : List (Runner E)} (hne : rs ≠ [])
    (hall : ∀ r ∈ rs, r = New (.add (.ret none))) (c : Bool) (n : Nat) :
    ((Join rs).start c n).free := by
  rw [Join_start hne]
  right
  simp only [Inv.nowait, Fn.nowait, Fn.nowaits_all, List.mem_map, forall_exists_index, and_imp]
  intro fn r hr hfn
  subst hfn
  rw [hall r hr]
  rfl

/-- C3: in every state of `Join(runners...).Run(ctx)` over a non-empty list, the goroutines
started so far are one per runner, in the order of the list, each an execution of its runner,
and the runners not yet started are still to come; when the invocation has returned, every
runner has a goroutine and every goroutine's runner has returned.  Every listed runner does
get started: the first steps of the invocation derive the context and start one goroutine per
runner, each at the beginning of its runner's `Run`, and in every state the remaining `go`
statements are enabled whatever the goroutines do; every step of a started runner under the
derived context is a step of its goroutine; and while the invocation has not returned and
every call of `runner.Run` made so far has returned, a step of the closure itself is enabled.
With runners that all do `count.Add(1); return nil` every state can be run on to the return of
nil, and when the invocation has returned the result is nil and `count.Load()` gives the first
value plus the number of runners, wrapped as `atomic.Int32` wraps. -/
theorem Join_runs_each_once_and_waits (rs : List (Runner E)) (hne : rs ≠ []) (c : Bool)
    (n : Nat) (sched : List Move) (s : Conf E)
    (hex : exec sched ((Join rs).start c n) = some s) :
    (∀ f gs, s.inv = .join f gs → gs.length ≤ rs.length ∧
        f.todo = (rs.drop gs.length).map (·.fn) ∧
        ∀ (i : Nat) (g : Status × Inv E), gs[i]? = some g →
          ∃ r, rs[i]? = some r ∧ Inv.Runs r.Run g.2) ∧
    (∀ res, s.inv.result = some res → ∃ f gs, s.inv = .join f gs ∧ gs.length = rs.length ∧
        ∀ g ∈ gs, g.1 ≠ Status.live ∧ ∃ x, g.2.result = some x) ∧
    exec (List.replicate (rs.length + 1) (some [])) ((Join rs).start c n)
      = some ⟨c, n, .join (Frame.init []) (rs.map (fun r => (Status.live, r.Run)))⟩ ∧
    (∀ f gs, s.inv = .join f gs →
        exec (List.replicate (rs.length - gs.length) (some [])) s
          = some ⟨s.cancelled, s.count, .join { f with todo := [] }
              (gs ++ (rs.drop gs.length).map (fun r => (Status.live, r.Run)))⟩) ∧
    (∀ f gs (i : Nat) (t : Inv E) (p : List Nat) (r : Nat × Inv E), s.inv = .join f gs →
        gs[i]? = some (Status.live, t) → t.result = none →
        t.step p (s.cancelled || f.cancelled) s.count = some r →
        s.move (some (i :: p))
          = some ⟨s.cancelled, r.1, .join f (gs.set i (Status.live, r.2))⟩) ∧
    (s.inv.result = none →
      (∀ f gs, s.inv = .join f gs → ∀ g ∈ gs, g.1 = Status.live → ∃ x, g.2.result = some x) →
      ∃ p s2, p.length ≤ 1 ∧ s.move (some p) = some s2) ∧
    ((∀ r ∈ rs, r = New (.add (.ret none))) →
        (∃ (ps : List (List Nat)) (s2 : Conf E),
          exec (ps.map some) s = some s2 ∧ s2.inv.result = some none) ∧
        ∀ res, s.inv.result = some res →
          res = none ∧ int32 s.count = int32 (n + rs.length) ∧
          (n + rs.length < 2 ^ 31 → int32 s.count = ((n + rs.length : Nat) : Int))) := by
  have hJ := Joined.exec hne hex
  refine ⟨?_, ?_, ?_, ?_, ?_, ?_, ?_⟩
  · intro f gs hinv
    rcases hJ with h | ⟨f2, gs2, h1, hS⟩
    · rw [h] at hinv
      cases hinv
    · rw [hinv] at h1
      cases h1
      refine ⟨by simpa using hS.len_le, by rw [hS.todo_eq, List.map_drop], ?_⟩
      intro i g hg
      have hi : i < rs.length := by
        have := hS.len_le
        by_contra hc
        rw [List.getElem?_eq_none (by simp at this; omega)] at hg
        cases hg
      exact ⟨rs[i], List.getElem?_eq_getElem hi,
        hS.runs i g rs[i].fn hg (by simp [List.getElem?_map, List.getElem?_eq_getElem hi])⟩
  · intro res hres
    obtain ⟨f, gs, hinv, hS, hret, -, hlen⟩ := hJ.returned hres
    refine ⟨f, gs, hinv, by simpa using hlen, ?_⟩
    intro g hg
    have hnl := (hS.returned_all hret).2 g hg
    exact ⟨hnl, hS.done_res g hg hnl⟩
  · rw [Join_start hne, List.replicate_succ]
    have h1 := Inv.spawn_some c n (rs.map (·.fn)) [] (Frame.init (rs.map (·.fn))) []
      (by simp [Frame.init])
    have h2 := exec_run h1
    simp only [List.map_replicate, List.length_map] at h2
    simp only [exec, Conf.move, Inv.step, Inv.self, Option.map_some', Option.some_bind]
    rw [h2]
    simp [Frame.init, List.map_map, Runner.Run, Function.comp_def]
  · intro f gs hinv
    rcases hJ with h | ⟨f2, gs2, h1, hS⟩
    · rw [h] at hinv
      cases hinv
    · rw [hinv] at h1
      cases h1
      obtain ⟨sc, sn, si⟩ := s
      simp only at hinv
      subst hinv
      have h1 := Inv.spawn_some sc sn f.todo [] f gs (by simp)
      have h2 := exec_run h1
      have hl : f.todo.length = rs.length - gs.length := by
        rw [hS.todo_eq]
        simp
      simp only [List.map_replicate, hl] at h2
      rw [h2, hS.todo_eq]
      simp [List.map_drop, List.map_map, Runner.Run, Function.comp_def]
  · intro f gs i t p r hinv hg hres hs
    obtain ⟨r1, r2⟩ := r
    have := Inv.step_inner (f := f) hg hres hs
    exact Conf.move_of_step (by rw [hinv]; exact this)
  · intro hnone hall
    rcases hJ with h | ⟨f, gs, h1, hS⟩
    · exact ⟨[], _, by simp, Conf.move_of_step (by rw [h]; rfl)⟩
    · have hret : f.returned = false := by
        cases hr : f.returned
        · rfl
        · simp [h1, Inv.result, hr] at hnone
      obtain ⟨p, r, hp, hs⟩ := Inv.own_step s.cancelled s.count f gs hret (hall f gs h1)
      exact ⟨p, _, hp, Conf.move_of_step (by rw [h1]; exact hs)⟩
  · intro hall
    constructor
    · have hfree : s.free := exec_keeps Conf.free_move sched _ s (counting_free hne hall c n) hex
      obtain ⟨ps, s2, res, hrun, hres⟩ := Conf.free_completes s hfree
      have hex2 : exec (sched ++ ps.map some) ((Join rs).start c n) = some s2 := by
        rw [exec_append, hex]
        exact hrun
      rw [(counting_result hne hall hex2 hres).1] at hres
      exact ⟨ps, s2, hrun, hres⟩
    · intro res hres
      obtain ⟨h1, h2⟩ := counting_result hne hall hex hres
      refine ⟨h1, int32_congr h2, ?_⟩
      intro hlt
      rw [int32_congr h2]
      exact int32_small hlt

/-! ## `New`, `Err`, `OK` and the empty `Join` -/

/-- A returned call of `Err(e)` only ever sees the environment move. -/
theorem exec_ret {x : Option E} {c : Bool} {n : Nat} {sched : List Move} {s : Conf E}
    (h : exec sched ⟨c, n, .call (.ret x)⟩ = some s) :
    s.inv = .call (.ret x) ∧ s.count = n ∧ ∀ m ∈ sched, m = none := by
  induction sched generalizing c with
  | nil =>
    cases h
    exact ⟨rfl, rfl, by simp⟩
  | cons m ms ih =>
    cases m with
    | none =>
      simp only [exec, Conf.move, Option.some_bind] at h
      obtain ⟨h1, h2, h3⟩ := ih h
      exact ⟨h1, h2, by simpa using h3⟩
    | some p => simp [exec, Conf.move, Inv.step_ret] at h

/-- C9: for every error value `e` and every context, cancelled or not, `Err(e).Run(ctx)` has
returned exactly `e` without taking a step, and whatever the environment does afterwards the
result stays `e` and the counter untouched; `OK()` is `Err(nil)` and returns nil. -/
theorem Err_returns_its_error (e : Option E) (c : Bool) (n : Nat) :
    (Err e).returns c n [] = some e ∧
    (∀ p, ((Err e).start c n).move (some p) = none) ∧
    (∀ (sched : List Move) (s : Conf E), exec sched ((Err e).start c n) = some s →
        s.inv.result = some e ∧ s.count = n) ∧
    (OK : Runner E) = Err none ∧ (OK : Runner E).returns c n [] = some none := by
  refine ⟨rfl, ?_, ?_, rfl, rfl⟩
  · intro p
    simp [Runner.start, Runner.Run, Err, New, Conf.move, Inv.step_ret]
  · intro sched s h
    obtain ⟨h1, h2, -⟩ := exec_ret (x := e) h
    rw [h1]
    exact ⟨rfl, h2⟩

/-- C5: for every context, cancelled or not, `Join()` with no runners is `OK()`; its `Run` has
returned nil without taking a step, no step of it is ever enabled, and in no state is there a
frame of the `Join` closure, so no context is derived and no goroutine started. -/
theorem Join_empty_returns_nil (c : Bool) (n : Nat) :
    Join ([] : List (Runner E)) = OK ∧
    (Join ([] : List (Runner E))).returns c n [] = some none ∧
    (∀ p, ((Join ([] : List (Runner E))).start c n).move (some p) = none) ∧
    (∀ (sched : List Move) (s : Conf E),
        exec sched ((Join ([] : List (Runner E))).start c n) = some s →
        s.inv = .call (.ret none) ∧ s.inv.result = some none ∧ s.count = n ∧
        ∀ m ∈ sched, m = none) := by
  refine ⟨rfl, rfl, ?_, ?_⟩
  · intro p
    simp [Runner.start, Runner.Run, Join, OK, Err, New, Conf.move, Inv.step_ret]
  · intro sched s h
    obtain ⟨h1, h2, h3⟩ := exec_ret (x := none) h
    rw [h1]
    exact ⟨rfl, rfl, h2, h3⟩

/-- The call of `func(ctx) { <-ctx.Done(); return cerr }` under a context that the environment
may cancel. -/
theorem exec_done {cerr : E} {c : Bool} {n : Nat} {sched : List Move} {s : Conf E}
    (h : exec sched ⟨c, n, .call (.done (.ret (some cerr)))⟩ = some s) :
    s.count = n ∧ (s.inv = .call (.done (.ret (some cerr))) ∨
      (s.inv = .call (.ret (some cerr)) ∧ (c = true ∨ none ∈ sched))) := by
  induction sched generalizing c with
  | nil =>
    cases h
    exact ⟨rfl, Or.inl rfl⟩
  | cons m ms ih =>
    cases m with
    | none =>
      simp only [exec, Conf.move, Option.some_bind] at h
      obtain ⟨h1, h2⟩ := ih h
      refine ⟨h1, ?_⟩
      rcases h2 with h2 | h2
      · exact Or.inl h2
      · exact Or.inr ⟨h2.1, Or.inr (List.mem_cons_self _ _)⟩
    | some p =>
      simp only [exec, Conf.move] at h
      cases hs : (Inv.call (Fn.done (Fn.ret (some cerr)))).step p c n with
      | none => simp [hs] at h
      | some r =>
        obtain ⟨r1, r2⟩ := r
        obtain ⟨-, hself⟩ := Inv.step_call hs
        simp only [Inv.self] at hself
        split at hself
        · rename_i hc
          simp only [Option.some.injEq, Prod.mk.injEq] at hself
          obtain ⟨rfl, rfl⟩ := hself
          rw [hs, Option.map_some', Option.some_bind] at h
          obtain ⟨h1, h2, -⟩ := exec_ret h
          exact ⟨h2, Or.inr ⟨h1, Or.inl hc⟩⟩
        · cases hself

/-- C10: for every function `fn` and every context, `New(fn).Run(ctx)` is the call `fn(ctx)`:
the invocation starts at the beginning of `fn`, with the caller's context and nothing kept from
earlier invocations, and returns what `fn` returns; so a `fn` that waits for its context and
returns the context's error returns only once the caller's context is cancelled, and then that
non-nil error and never nil. -/
theorem New_Run_is_fn (fn : Fn E) (c : Bool) (n : Nat) (sched : List Move) (cerr : E) :
    (New fn).Run = .call fn ∧
    (New fn).returns c n sched = (exec sched ⟨c, n, .call fn⟩).bind (fun s => s.inv.result) ∧
    (∀ res, (New (.done (.ret (some cerr)))).returns c n sched = some res →
        res = some cerr ∧ (c = true ∨ none ∈ sched)) ∧
    (New (.done (.ret (some cerr)))).returns false n [none, some []] = some (some cerr) ∧
    (New (.done (.ret (some cerr)))).returns false n [some []] = none := by
  refine ⟨rfl, rfl, ?_, rfl, rfl⟩
  intro res h
  simp only [Runner.returns, Runner.start, Runner.Run, New, Option.bind_eq_some] at h
  obtain ⟨s, hs, hres⟩ := h
  obtain ⟨-, h2 | ⟨h2, h3⟩⟩ := exec_done hs
  · rw [h2] at hres
    cases hres
  · rw [h2] at hres
    cases hres
    exact ⟨rfl, h3⟩

/-! ## Concrete executions -/

/-- An execution of `Join(Err(7), OK())` with the goroutine of `OK()` collected first, and the
state of it in which both runners have returned and neither result is collected yet. -/
theorem Join_returns_first_failure_witness :
    [Err (some 7), OK] ≠ ([] : List (Runner Nat)) ∧
    exec [some [], some [], some [], some [1], some [0], some []]
        ((Join [Err (some 7), OK]).start false 0)
      = some ⟨false, 0, .join ⟨[], true, some 7, true, 1, 1, 1, true⟩
          [(Status.latched, .call (.ret (some 7))), (Status.clean, .call (.ret none))]⟩ ∧
    (∃ f gs, Inv.join ⟨[], true, some 7, true, 1, 1, 1, true⟩
          [(Status.latched, .call (.ret (some 7))), (Status.clean, .call (.ret none))]
          = .join f gs ∧
      gs.length = [Err (some 7), (OK : Runner Nat)].length ∧
      (∀ (i : Nat) (g : Status × Inv Nat), gs[i]? = some g →
          ∃ (r : Runner Nat) (x : Option Nat), [Err (some 7), OK][i]? = some r ∧
          Inv.Runs r.Run g.2 ∧
          g.2.result = some x ∧ g.1 ≠ Status.live ∧ (x = none ↔ g.1 = Status.clean)) ∧
      (some 7 = none ↔ ∀ g ∈ gs, g.2.result = some none) ∧
      (∀ e, some 7 = some e → ∃ (i : Nat) (g : Status × Inv Nat), gs[i]? = some g ∧
          g.1 = Status.latched ∧
          g.2.result = some (some e) ∧
          ∀ (j : Nat) (g2 : Status × Inv Nat), gs[j]? = some g2 → j ≠ i →
            g2.1 = Status.clean ∨ g2.1 = Status.dropped) ∧
      (∀ pre post s1 f1 gs1 e,
          [some [], some [], some [], some [1], some [0], some []] = pre ++ post →
          exec pre ((Join [Err (some 7), OK]).start false 0) = some s1 →
          s1.inv = .join f1 gs1 →
          f1.err = some e → some 7 = some e)) ∧
    (∀ (ps : List (List Nat)) (s2 : Conf Nat),
      exec (ps.map some) ⟨false, 0, .join ⟨[], true, some 7, true, 1, 1, 1, true⟩
          [(Status.latched, .call (.ret (some 7))), (Status.clean, .call (.ret none))]⟩
        = some s2 → ps.length ≤ 0) ∧
    exec [some [], some [], some []] ((Join [Err (some 7), OK]).start false 0)
      = some ⟨false, 0, .join ⟨[], false, none, false, 0, 0, 0, false⟩
          [(Status.live, .call (.ret (some 7))), (Status.live, .call (.ret none))]⟩ ∧
    (∃ (ps : List (List Nat)) (s2 : Conf Nat) (res : Option Nat), (∀ p ∈ ps, p.length ≤ 1) ∧
      exec (ps.map some) ⟨false, 0, .join ⟨[], false, none, false, 0, 0, 0, false⟩
          [(Status.live, .call (.ret (some 7))), (Status.live, .call (.ret none))]⟩
        = some s2 ∧
      s2.inv.result = some res ∧
      (res = none ↔ ∀ g ∈ [(Status.live, Inv.call (.ret (some 7))),
          (Status.live, Inv.call (.ret none))], g.2.result = some none) ∧
      (∀ e, res = some e → ∃ g ∈ [(Status.live, Inv.call (.ret (some 7))),
          (Status.live, Inv.call (.ret none))], g.2.result = some (some e))) :=
  ⟨by simp, rfl,
    (Join_returns_first_failure [Err (some 7), OK] (by simp) false 0
      [some [], some [], some [], some [1], some [0], some []]
      ⟨false, 0, .join ⟨[], true, some 7, true, 1, 1, 1, true⟩
          [(Status.latched, .call (.ret (some 7))), (Status.clean, .call (.ret none))]⟩
      rfl).1 (some 7) rfl,
    (Join_returns_first_failure [Err (some 7), OK] (by simp) false 0
      [some [], some [], some [], some [1], some [0], some []]
      ⟨false, 0, .join ⟨[], true, some 7, true, 1, 1, 1, true⟩
          [(Status.latched, .call (.ret (some 7))), (Status.clean, .call (.ret none))]⟩
      rfl).2.2.2,
    rfl,
    (Join_returns_first_failure [Err (some 7), OK] (by simp) false 0
      [some [], some [], some []]
      ⟨false, 0, .join ⟨[], false, none, false, 0, 0, 0, false⟩
          [(Status.live, .call (.ret (some 7))), (Status.live, .call (.ret none))]⟩
      rfl).2.2.1 _ _ rfl rfl (by
        intro g hg
        simp only [List.mem_cons, List.mem_singleton, List.not_mem_nil, or_false] at hg
        rcases hg with rfl | rfl
        · exact ⟨_, rfl⟩
        · exact ⟨_, rfl⟩)⟩

/-- The state of `Join(OK(), Err(7), OK(), OK())` under a cancelled context after the first
`go`. -/
theorem Join_Err_among_OK_witness :
    (∀ r ∈ [(OK : Runner Nat)], r = OK) ∧ (∀ r ∈ [(OK : Runner Nat), OK], r = OK) ∧
    exec [some [], some []] ((Join ([OK] ++ Err (some 7) :: [OK, OK])).start true 0)
      = some ⟨true, 0, .join ⟨[.ret (some 7), .ret none, .ret none], false, none, false,
          0, 0, 0, false⟩ [(Status.live, .call (.ret none))]⟩ ∧
    ((∀ res, (Inv.join ⟨[.ret (some 7), .ret none, .ret none], false, none, false,
          0, 0, 0, false⟩ [(Status.live, .call (.ret none))]).result = some res →
        res = some 7) ∧
      (∃ (ps : List (List Nat)) (s2 : Conf Nat),
        exec (ps.map some) ⟨true, 0, .join ⟨[.ret (some 7), .ret none, .ret none], false, none,
          false, 0, 0, 0, false⟩ [(Status.live, .call (.ret none))]⟩ = some s2 ∧
        s2.inv.result = some (some 7)) ∧
      (∀ (ps : List (List Nat)) (s2 : Conf Nat),
        exec (ps.map some) ⟨true, 0, .join ⟨[.ret (some 7), .ret none, .ret none], false, none,
          false, 0, 0, 0, false⟩ [(Status.live, .call (.ret none))]⟩ = some s2 →
        ps.length ≤ (Inv.join ⟨[.ret (some 7), .ret none, .ret none], false, none,
          false, 0, 0, 0, false⟩ [(Status.live, .call (.ret (none : Option Nat)))]).cost ∧
        (s2.inv.result = none → ∃ p s3, s2.move (some p) = some s3))) :=
  ⟨by simp, by simp, rfl,
    Join_Err_among_OK 7 [OK] [OK, OK] (by simp) (by simp) true 0 [some [], some []]
      ⟨true, 0, .join ⟨[.ret (some 7), .ret none, .ret none], false, none, false,
          0, 0, 0, false⟩ [(Status.live, .call (.ret none))]⟩ rfl⟩

/-- The two counting runners of `TestJoin_Success`: the counter is at 2 when `Join` returns, and
the loop starts both of them. -/
theorem Join_runs_each_once_and_waits_witness :
    [New (.add (.ret none)), New (.add (.ret none))] ≠ ([] : List (Runner Nat)) ∧
    exec [some [], some [], some [], some [0], some [1], some [1], some [0], some []]
        ((Join [New (.add (.ret none)), New (.add (.ret (none : Option Nat)))]).start false 0)
      = some ⟨false, 2, .join ⟨[], false, none, true, 0, 1, 1, true⟩
          [(Status.clean, .call (.ret none)), (Status.clean, .call (.ret none))]⟩ ∧
    ((∀ (f : Frame Nat) (gs : List (Status × Inv Nat)),
        Inv.join ⟨[], false, none, true, 0, 1, 1, true⟩
          [(Status.clean, .call (.ret none)), (Status.clean, .call (.ret none))]
          = .join f gs →
        gs.length ≤ [New (.add (.ret none)), New (.add (.ret (none : Option Nat)))].length ∧
        f.todo = (([New (.add (.ret none)), New (.add (.ret (none : Option Nat)))]).drop
          gs.length).map (·.fn) ∧
        ∀ (i : Nat) (g : Status × Inv Nat), gs[i]? = some g →
          ∃ r, [New (.add (.ret none)), New (.add (.ret (none : Option Nat)))][i]? = some r ∧
            Inv.Runs r.Run g.2) ∧
    (∀ res : Option Nat, (Inv.join ⟨[], false, none, true, 0, 1, 1, true⟩
          [(Status.clean, .call (.ret none)), (Status.clean, .call (.ret none))]).result
          = some res →
        ∃ (f : Frame Nat) (gs : List (Status × Inv Nat)),
        Inv.join ⟨[], false, none, true, 0, 1, 1, true⟩
          [(Status.clean, .call (.ret none)), (Status.clean, .call (.ret none))]
          = .join f gs ∧
        gs.length = [New (.add (.ret none)), New (.add (.ret (none : Option Nat)))].length ∧
        ∀ g ∈ gs, g.1 ≠ Status.live ∧ ∃ x, g.2.result = some x) ∧
    exec [some [], some [], some []]
        ((Join [New (.add (.ret none)), New (.add (.ret (none : Option Nat)))]).start false 0)
      = some ⟨false, 0, .join (Frame.init [])
          [(Status.live, .call (.add (.ret none))), (Status.live, .call (.add (.ret none)))]⟩ ∧
    ((none : Option Nat) = none ∧ int32 2 = int32 (0 + 2) ∧
      (0 + 2 < 2 ^ 31 → int32 2 = ((0 + 2 : Nat) : Int))) ∧
    exec [some [], some []]
        ⟨false, 0, .join (Frame.init [.add (.ret (none : Option Nat)), .add (.ret none)]) []⟩
      = some ⟨false, 0, .join (Frame.init [])
          [(Status.live, .call (.add (.ret none))), (Status.live, .call (.add (.ret none)))]⟩) :=
  ⟨by simp, rfl,
    (Join_runs_each_once_and_waits [New (.add (.ret none)), New (.add (.ret none))] (by simp)
      false 0 [some [], some [], some [], some [0], some [1], some [1], some [0], some []]
      ⟨false, 2, .join ⟨[], false, none, true, 0, 1, 1, true⟩
          [(Status.clean, .call (.ret none)), (Status.clean, .call (.ret none))]⟩ rfl).1,
    (Join_runs_each_once_and_waits [New (.add (.ret none)), New (.add (.ret none))] (by simp)
      false 0 [some [], some [], some [], some [0], some [1], some [1], some [0], some []]
      ⟨false, 2, .join ⟨[], false, none, true, 0, 1, 1, true⟩
          [(Status.clean, .call (.ret none)), (Status.clean, .call (.ret none))]⟩ rfl).2.1,
    (Join_runs_each_once_and_waits [New (.add (.ret none)), New (.add (.ret none))] (by simp)
      false 0 [some [], some [], some [], some [0], some [1], some [1], some [0], some []]
      ⟨false, 2, .join ⟨[], false, none, true, 0, 1, 1, true⟩
          [(Status.clean, .call (.ret none)), (Status.clean, .call (.ret none))]⟩ rfl).2.2.1,
    ((Join_runs_each_once_and_waits [New (.add (.ret none)), New (.add (.ret none))] (by simp)
      false 0 [some [], some [], some [], some [0], some [1], some [1], some [0], some []]
      ⟨false, 2, .join ⟨[], false, none, true, 0, 1, 1, true⟩
          [(Status.clean, .call (.ret none)), (Status.clean, .call (.ret none))]⟩
      rfl).2.2.2.2.2.2 (by simp)).2 none rfl,
    (Join_runs_each_once_and_waits [New (.add (.ret none)), New (.add (.ret none))] (by simp)
      false 0 [some []]
      ⟨false, 0, .join (Frame.init [.add (.ret (none : Option Nat)), .add (.ret none)]) []⟩
      rfl).2.2.2.1 _ _ rfl⟩

/-- An execution of `Join(Err(7), Err(8))` with the goroutine of `Err(8)` first at the gate:
`cancel` is called
once in the gate and once deferred. -/
theorem cancel_called_once_gated_once_deferred_witness :
    [Err (some 7), Err (some 8)] ≠ ([] : List (Runner Nat)) ∧
    exec [some [], some [], some [], some [1], some [0], some []]
        ((Join [Err (some 7), Err (some 8)]).start false 0)
      = some ⟨false, 0, .join ⟨[], true, some 8, true, 1, 1, 1, true⟩
          [(Status.dropped, .call (.ret (some 7))), (Status.latched, .call (.ret (some 8)))]⟩ ∧
    (∃ g ∈ [(Status.dropped, Inv.call (.ret (some 7))),
          (Status.latched, Inv.call (.ret (some 8)))], ∃ e, g.2.result = some (some e)) ∧
    ((⟨[], true, some 8, true, 1, 1, 1, true⟩ : Frame Nat).gate = 1 ∧
      (⟨[], true, some 8, true, 1, 1, 1, true⟩ : Frame Nat).deferred = 1 ∧
      (⟨[], true, some 8, true, 1, 1, 1, true⟩ : Frame Nat).gate
        + (⟨[], true, some 8, true, 1, 1, 1, true⟩ : Frame Nat).deferred = 2 ∧
      (⟨[], true, some 8, true, 1, 1, 1, true⟩ : Frame Nat).flips ≤ 1 ∧
      (false = false → (⟨[], true, some 8, true, 1, 1, 1, true⟩ : Frame Nat).flips = 1)) :=
  ⟨by simp, rfl, ⟨_, List.mem_cons_self _ _, 7, rfl⟩,
    cancel_called_once_gated_once_deferred [Err (some 7), Err (some 8)] false 0
      [some [], some [], some [], some [1], some [0], some []]
      ⟨false, 0, .join ⟨[], true, some 8, true, 1, 1, 1, true⟩
          [(Status.dropped, .call (.ret (some 7))), (Status.latched, .call (.ret (some 8)))]⟩
      ⟨[], true, some 8, true, 1, 1, 1, true⟩
      [(Status.dropped, .call (.ret (some 7))), (Status.latched, .call (.ret (some 8)))]
      (by simp) rfl rfl rfl ⟨_, List.mem_cons_self _ _, 7, rfl⟩⟩

/-! ## A runner that waits for cancellation next to one that fails -/

/-- A property kept by every step under the context state `c` holds along every execution
under `c`. -/
theorem run_keeps {P : Inv E → Prop} {c : Bool}
    (hstep : ∀ (t : Inv E) (p : List Nat) (n n2 : Nat) (t2 : Inv E), P t →
      t.step p c n = some (n2, t2) → P t2) :
    ∀ (ps : List (List Nat)) (n : Nat) (t : Inv E) (n2 : Nat) (t2 : Inv E), P t →
      Inv.run ps c n t = some (n2, t2) → P t2 := by
  intro ps
  induction ps with
  | nil =>
    intro n t n2 t2 hP h
    simp only [Inv.run, Option.some.injEq, Prod.mk.injEq] at h
    rw [← h.2]
    exact hP
  | cons p ps ih =>
    intro n t n2 t2 hP h
    simp only [Inv.run] at h
    cases hs : t.step p c n with
    | none => simp [hs] at h
    | some r =>
      obtain ⟨r1, r2⟩ := r
      rw [hs] at h
      exact ih r1 r2 n2 t2 (hstep t p n r1 r2 hP hs) h

theorem run_cons (p : List Nat) (ps : List (List Nat)) (c : Bool) (n : Nat) (t : Inv E) :
    Inv.run (p :: ps) c n t = (t.step p c n).bind (fun r => Inv.run ps c r.1 r.2) := rfl

theorem run_append (a b : List (List Nat)) (c : Bool) (n : Nat) (t : Inv E) :
    Inv.run (a ++ b) c n t = (Inv.run a c n t).bind (fun r => Inv.run b c r.1 r.2) := by
  induction a generalizing n t with
  | nil => rfl
  | cons p ps ih =>
    simp only [List.cons_append, Inv.run]
    cases t.step p c n with
    | none => rfl
    | some r => exact ih r.1 r.2

/-- The goroutine of a runner that fails at once holds the returned call. -/
theorem Sound.of_ret {c : Bool} {rs : List (Fn E)} {fr : Frame E}
    {gs : List (Status × Inv E)} (h : Sound c rs fr gs) {i : Nat} {g : Status × Inv E}
    {x : Option E} (hg : gs[i]? = some g) (hr : rs[i]? = some (.ret x)) :
    g.2 = .call (.ret x) :=
  (h.runs i g _ hg hr).ret

theorem Sound.runner_at {c : Bool} {rs : List (Fn E)} {fr : Frame E}
    {gs : List (Status × Inv E)} (h : Sound c rs fr gs) {i : Nat} {g : Status × Inv E}
    (hg : gs[i]? = some g) : ∃ r, rs[i]? = some r ∧ r ∈ rs := by
  have hi : i < rs.length := by
    have := h.len_le
    by_contra hc
    rw [List.getElem?_eq_none (by omega)] at hg
    cases hg
  exact ⟨rs[i], List.getElem?_eq_getElem hi, List.getElem_mem _⟩

/-- Every step under a context that is not cancelled keeps `Waiting`. -/
theorem Waiting.step_keeps {cerr f : E} {rs : List (Fn E)}
    (hrs : ∀ r ∈ rs, r = Fn.done (.ret (some cerr)) ∨ r = Fn.ret (some f))
    (t : Inv E) (p : List Nat) (n n2 : Nat) (t2 : Inv E) (h : Waiting cerr f rs t)
    (hs : t.step p false n = some (n2, t2)) : Waiting cerr f rs t2 := by
  rcases h with h | ⟨fr, gs, h1, hS, herr, hB⟩
  · rw [h] at hs
    obtain ⟨-, hs⟩ := Inv.step_call hs
    simp only [Inv.self, Option.some.injEq, Prod.mk.injEq] at hs
    refine Or.inr ⟨_, _, hs.2.symm, Sound.init _ _, Or.inl rfl, ?_⟩
    intro i g hg
    simp at hg
  · rw [h1] at hs
    right
    obtain ⟨fr2, gs2, h2, hS2⟩ := hS.step (fun h => h) hs
    refine ⟨fr2, gs2, h2, hS2, ?_⟩
    rw [h2] at hs
    have hret : ∀ (i : Nat) (t0 : Inv E), gs[i]? = some (Status.live, t0) →
        fr.returned = false := by
      intro i t0 hg
      cases hr : fr.returned
      · rfl
      · exact absurd rfl ((hS.returned_all hr).2 _ (List.mem_iff_getElem?.2 ⟨i, hg⟩))
    rcases Inv.step_join hs with ⟨r, rest, _, ht, _, ht2⟩ | ⟨_, ht, hr, hall, _, ht2⟩ |
      ⟨i, t, rerr, _, hg, hres, _, ht2⟩ | ⟨i, q, t, t1, _, hg, hst, ht2⟩
    · cases ht2
      refine ⟨herr, ?_⟩
      intro i g hg hr
      rcases get?_snoc_cases hg with hg | ⟨rfl, rfl⟩
      · exact hB i g hg hr
      · have := (drop_cons_get? (hS.todo_eq ▸ ht)).1
        rw [hr] at this
        cases this
        exact Or.inl ⟨rfl, rfl⟩
    · cases ht2
      exact ⟨herr, hB⟩
    · obtain ⟨r, hr, hrm⟩ := hS.runner_at hg
      have hcase : ∀ st : Status, st ≠ Status.latched →
          ∀ (j : Nat) (g : Status × Inv E), (gs.set i (st, t))[j]? = some g →
          rs[j]? = some (.done (.ret (some cerr))) →
          (g.2 = .call (.done (.ret (some cerr))) ∧ g.1 = Status.live) ∨
          (g.2 = .call (.ret (some cerr)) ∧ fr.once = true ∧ g.1 ≠ Status.latched) := by
        intro st hst j g hgj hrj
        rcases get?_set_cases hgj with ⟨rfl, rfl⟩ | ⟨_, hgj⟩
        · rcases hB j _ hg hrj with ⟨h3, _⟩ | ⟨h3, h4, _⟩
          · simp only at h3
            rw [h3] at hres
            cases hres
          · exact Or.inr ⟨h3, h4, hst⟩
        · exact hB j g hgj hrj
      cases rerr with
      | none =>
        simp only [Inv.collect, Inv.join.injEq] at ht2
        obtain ⟨rfl, rfl⟩ := ht2
        exact ⟨herr, hcase Status.clean (by decide)⟩
      | some e =>
        cases ho : fr.once with
        | true =>
          simp only [Inv.collect, ho, if_true, Inv.join.injEq] at ht2
          obtain ⟨rfl, rfl⟩ := ht2
          exact ⟨herr, hcase Status.dropped (by decide)⟩
        | false =>
          simp only [Inv.collect, ho, Inv.join.injEq] at ht2
          obtain ⟨rfl, rfl⟩ := ht2
          -- the goroutine at the gate is not a waiting one
          rcases hrs r hrm with rfl | rfl
          · rcases hB i _ hg hr with ⟨h3, _⟩ | ⟨_, h4, _⟩
            · simp only at h3
              rw [h3] at hres
              cases hres
            · rw [ho] at h4
              cases h4
          · have h3 := hS.of_ret hg hr
            simp only at h3
            rw [h3] at hres
            simp only [Inv.result, Option.some.injEq] at hres
            subst hres
            refine ⟨Or.inr rfl, ?_⟩
            intro j g hgj hrj
            rcases get?_set_cases hgj with ⟨rfl, rfl⟩ | ⟨_, hgj⟩
            · rw [hr] at hrj
              cases hrj
            · rcases hB j g hgj hrj with h5 | ⟨h5, h6, _⟩
              · exact Or.inl h5
              · rw [ho] at h6
                cases h6
    · cases ht2
      refine ⟨herr, ?_⟩
      obtain ⟨r, hr, hrm⟩ := hS.runner_at hg
      intro j g hgj hrj
      rcases get?_set_cases hgj with ⟨rfl, rfl⟩ | ⟨_, hgj⟩
      · rcases hB j _ hg hrj with ⟨h3, _⟩ | ⟨h3, _⟩
        · simp only at h3
          subst h3
          obtain ⟨-, hst⟩ := Inv.step_call hst
          simp only [Inv.self, Bool.false_or] at hst
          split at hst
          · rename_i hcan
            simp only [Option.some.injEq, Prod.mk.injEq] at hst
            right
            refine ⟨hst.2.symm, ?_, by simp⟩
            have := hS.cancelled_eq
            rw [hcan, hret j _ hg] at this
            simpa using this.symm
          · cases hst
        · simp only at h3
          subst h3
          rw [Inv.step_ret] at hst
          cases hst
      · exact hB j g hgj hrj

/-- The loop of lines 47-60 runs to its end: all the remaining `go` statements in a row. -/
theorem Inv.spawn_all (c : Bool) (n : Nat) : ∀ (todo : List (Fn E)) (f : Frame E)
    (gs : List (Status × Inv E)), f.todo = todo →
    ∃ gs2, Inv.run (List.replicate todo.length []) c n (.join f gs)
      = some (n, .join { f with todo := [] } gs2) := by
  intro todo
  induction todo with
  | nil =>
    intro f gs h
    refine ⟨gs, ?_⟩
    simp only [List.length_nil, List.replicate_zero, Inv.run, ← h]
  | cons r rest ih =>
    intro f gs h
    obtain ⟨gs2, h2⟩ := ih { f with todo := rest } (gs ++ [(Status.live, .call r)]) rfl
    refine ⟨gs2, ?_⟩
    simp only [List.length_cons, List.replicate_succ, Inv.run, Inv.step_spawn h,
      Option.some_bind]
    exact h2

theorem Waiting.start {cerr f : E} {rs : List (Runner E)} (hne : rs ≠ []) {n : Nat}
    (hall : ∀ r ∈ rs, r = New (.done (.ret (some cerr))) ∨ r = Err (some f))
    {ps : List (List Nat)} {s : Conf E}
    (hex : exec (ps.map some) ((Join rs).start false n) = some s) :
    s.cancelled = false ∧ Waiting cerr f (rs.map (·.fn)) s.inv := by
  rw [Join_start hne] at hex
  obtain ⟨h1, h2⟩ := run_exec hex
  refine ⟨h1, run_keeps (Waiting.step_keeps ?_) ps n _ _ _ (Or.inl rfl) h2⟩
  intro r hr
  obtain ⟨r0, hr0, rfl⟩ := List.mem_map.1 hr
  rcases hall r0 hr0 with h | h
  · rw [h]; exact Or.inl rfl
  · rw [h]; exact Or.inr rfl

/-- Whatever `Join` over waiting runners and runners failing with `f` returns under a context
that is not cancelled is `f`. -/
theorem Waiting.result {cerr f : E} {rs : List (Fn E)} {t : Inv E}
    (h : Waiting cerr f rs t) (hF : Fn.ret (some f) ∈ rs) {res : Option E}
    (hres : t.result = some res) : res = some f := by
  rcases h with h | ⟨fr, gs, h1, hS, herr, hB⟩
  · rw [h] at hres
    cases hres
  · have hJ : Joined rs ⟨false, 0, t⟩ := Or.inr ⟨fr, gs, h1, hS⟩
    obtain ⟨fr2, gs2, h2, -, hret, herr2, hlen⟩ := hJ.returned (s := ⟨false, 0, t⟩) hres
    simp only at h2
    rw [h1] at h2
    cases h2
    obtain ⟨i, hi⟩ := List.mem_iff_getElem?.1 hF
    have hil : i < gs.length := by
      by_contra hc
      rw [List.getElem?_eq_none (by omega)] at hi
      cases hi
    have hg : gs[i]? = some gs[i] := List.getElem?_eq_getElem hil
    have hm : gs[i] ∈ gs := List.getElem_mem _
    have h3 := hS.of_ret hg hi
    have ho : fr.once = true := by
      cases hst : gs[i].1 with
      | live => exact absurd hst ((hS.returned_all hret).2 _ hm)
      | latched => exact hS.latched_once _ hm hst
      | dropped => exact (hS.dropped_res _ hm hst).1
      | clean =>
        have := hS.clean_res _ hm hst
        rw [h3] at this
        cases this
    rw [← herr2]
    rcases herr with h4 | h4
    · have := hS.once_err
      rw [ho, h4] at this
      cases this
    · exact h4

/-- From every state `Join` over waiting runners and at least one failing with `f` reaches
under a context that is not cancelled, it returns `f` when run on: the loop runs to its end, a
failing runner is collected, which cancels the derived context, and nothing can block any
more. -/
theorem Waiting.run_on {cerr f : E} {fs : List (Fn E)}
    (hfs : ∀ r ∈ fs, r = Fn.done (.ret (some cerr)) ∨ r = Fn.ret (some f))
    (hF : Fn.ret (some f) ∈ fs) {ps : List (List Nat)} {n sn : Nat} {st : Inv E}
    (hrun : Inv.run ps false n (.call (.fan fs)) = some (sn, st)) :
    ∃ (ps2 : List (List Nat)) (n2 : Nat) (t2 : Inv E),
      Inv.run ps2 false sn st = some (n2, t2) ∧ t2.result = some (some f) := by
  have hW := run_keeps (Waiting.step_keeps hfs) ps n _ sn st (Or.inl rfl) hrun
  have key : ∀ (ps1 : List (List Nat)) (n1 : Nat) (fr : Frame E)
      (gs : List (Status × Inv E)),
      Inv.run ps1 false sn st = some (n1, .join fr gs) → fr.cancelled = true →
      ∃ (ps2 : List (List Nat)) (n2 : Nat) (t2 : Inv E),
        Inv.run ps2 false sn st = some (n2, t2) ∧ t2.result = some (some f) := by
    intro ps1 n1 fr gs h1 hcan
    obtain ⟨ps3, n3, t3, res, h3, hres⟩ :=
      Inv.completes _ (.join fr gs) false n1 (Nat.le_refl _)
        (Or.inr (by simp [Inv.nowait, hcan]))
    have h4 : Inv.run (ps1 ++ ps3) false sn st = some (n3, t3) := by
      rw [run_append, h1]
      exact h3
    have h5 : Inv.run (ps ++ (ps1 ++ ps3)) false n (.call (.fan fs)) = some (n3, t3) := by
      rw [run_append, hrun]
      exact h4
    have hW3 := run_keeps (Waiting.step_keeps hfs) _ n _ n3 t3 (Or.inl rfl) h5
    have := hW3.result hF hres
    subst this
    exact ⟨ps1 ++ ps3, n3, t3, h4, hres⟩
  -- first reach a frame whose loop has ended
  have hloop : ∃ (ps1 : List (List Nat)) (fr : Frame E) (gs : List (Status × Inv E)),
      Inv.run ps1 false sn st = some (sn, .join fr gs) ∧ fr.todo = [] := by
    rcases hW with h | ⟨fr, gs, h1, -⟩
    · obtain ⟨gs2, h2⟩ := Inv.spawn_all false sn fs (Frame.init fs) [] rfl
      refine ⟨[] :: List.replicate fs.length [], { Frame.init fs with todo := [] }, gs2,
        ?_, rfl⟩
      rw [h]
      simp only [Inv.run, Inv.step, Inv.self, Option.some_bind]
      exact h2
    · obtain ⟨gs2, h2⟩ := Inv.spawn_all false sn fr.todo fr gs rfl
      exact ⟨_, { fr with todo := [] }, gs2, by rw [h1]; exact h2, rfl⟩
  obtain ⟨ps1, fr, gs, h1, htodo⟩ := hloop
  cases hcan : fr.cancelled with
  | true => exact key ps1 _ fr gs h1 hcan
  | false =>
    have h5 : Inv.run (ps ++ ps1) false n (.call (.fan fs)) = some (sn, .join fr gs) := by
      rw [run_append, hrun]
      exact h1
    have hW1 := run_keeps (Waiting.step_keeps hfs) _ n _ sn _ (Or.inl rfl) h5
    rcases hW1 with h | ⟨fr2, gs2, h2, hS, -, -⟩
    · cases h
    · cases h2
      obtain ⟨i, hi⟩ := List.mem_iff_getElem?.1 hF
      have hlen : gs.length = fs.length := by
        have h6 := hS.todo_eq
        rw [htodo] at h6
        have h7 := List.drop_eq_nil_iff.1 h6.symm
        have h8 := hS.len_le
        omega
      have hil : i < gs.length := by
        by_contra hcc
        rw [List.getElem?_eq_none (by omega)] at hi
        cases hi
      have hg : gs[i]? = some gs[i] := List.getElem?_eq_getElem hil
      have hm : gs[i] ∈ gs := List.getElem_mem _
      have h3 := hS.of_ret hg hi
      have ho : fr.once = false := by
        have := hS.cancelled_eq
        rw [hcan] at this
        cases h9 : fr.once
        · rfl
        · rw [h9] at this
          cases this
      have hlive : gs[i].1 = Status.live := by
        cases hst : gs[i].1 with
        | live => rfl
        | latched =>
          have := hS.latched_once _ hm hst
          rw [ho] at this
          cases this
        | dropped =>
          have := (hS.dropped_res _ hm hst).1
          rw [ho] at this
          cases this
        | clean =>
          have := hS.clean_res _ hm hst
          rw [h3] at this
          cases this
      have hg2 : gs[i]? = some (Status.live, .call (.ret (some f))) := by
        rw [hg, ← hlive, ← h3]
      have hstep : (Inv.join fr gs).step [i] false sn
          = some (sn, .join (fr.latch false f) (gs.set i (Status.latched, .call (.ret (some f)))))
          := by
        rw [Inv.step_collect hg2 rfl]
        simp [Inv.collect, ho]
      refine key (ps1 ++ [[i]]) sn (fr.latch false f)
        (gs.set i (Status.latched, .call (.ret (some f)))) ?_ rfl
      rw [run_append, h1]
      simp only [Option.some_bind, Inv.run, hstep]

/-- C4: for a `Join` of runners that wait until the context they are given is cancelled and
then return the context's error `cerr`, and at least one runner that returns a non-nil error
`f` without waiting (this includes `Join(B, F)` and `Join(F, B)`), under a caller's context that
is never cancelled: whatever the schedule, the result can only be `f`; a waiting runner is
still waiting in a frame that has not returned, or it has returned `cerr` (never nil) in a
frame whose derived context is cancelled and whose latched error is `f`, and its own error was
dropped; from every state reached the invocation does return `f` when run on; and it cannot
run on for ever or get stuck: no run from a state is longer than the state's cost, and a state
that has not returned has an enabled step. -/
theorem Join_cancels_waiting_sibling (cerr f : E) (rs : List (Runner E))
    (hall : ∀ r ∈ rs, r = New (.done (.ret (some cerr))) ∨ r = Err (some f))
    (hF : Err (some f) ∈ rs) (n : Nat) (ps : List (List Nat)) (s : Conf E)
    (hex : exec (ps.map some) ((Join rs).start false n) = some s) :
    (∀ res, s.inv.result = some res → res = some f) ∧
    (∀ (fr : Frame E) (gs : List (Status × Inv E)), s.inv = .join fr gs →
      ∀ (i : Nat) (g : Status × Inv E), gs[i]? = some g →
        rs[i]? = some (New (.done (.ret (some cerr)))) →
        (g.2 = .call (.done (.ret (some cerr))) ∧ g.1 = Status.live ∧ fr.returned = false) ∨
        (g.2 = .call (.ret (some cerr)) ∧ fr.cancelled = true ∧ fr.err = some f ∧
          (g.1 = Status.live ∨ g.1 = Status.dropped))) ∧
    (∃ (ps2 : List (List Nat)) (s2 : Conf E),
      exec (ps2.map some) s = some s2 ∧ s2.inv.result = some (some f)) ∧
    (∀ (ps2 : List (List Nat)) (s2 : Conf E), exec (ps2.map some) s = some s2 →
      ps2.length ≤ s.inv.cost ∧
      (s2.inv.result = none → ∃ p s3, s2.move (some p) = some s3)) := by
  have hne : rs ≠ [] := List.ne_nil_of_mem hF
  have hFm : Fn.ret (some f) ∈ rs.map (·.fn) := List.mem_map.2 ⟨_, hF, rfl⟩
  have hfs : ∀ r ∈ rs.map (·.fn), r = Fn.done (.ret (some cerr)) ∨ r = Fn.ret (some f) := by
    intro r hr
    obtain ⟨r0, hr0, rfl⟩ := List.mem_map.1 hr
    rcases hall r0 hr0 with h | h
    · rw [h]; exact Or.inl rfl
    · rw [h]; exact Or.inr rfl
  have hlive : ∀ (qs : List (List Nat)) (s1 : Conf E),
      exec (qs.map some) ((Join rs).start false n) = some s1 →
      ∃ (ps2 : List (List Nat)) (s2 : Conf E),
        exec (ps2.map some) s1 = some s2 ∧ s2.inv.result = some (some f) := by
    intro qs s1 hq
    obtain ⟨hc1, hrun⟩ := run_exec (by rw [Join_start hne] at hq; exact hq)
    obtain ⟨ps2, n2, t2, h1, h2⟩ := Waiting.run_on hfs hFm hrun
    obtain ⟨sc, sn, st⟩ := s1
    simp only at hc1
    subst hc1
    exact ⟨ps2, ⟨false, n2, t2⟩, exec_run h1, h2⟩
  obtain ⟨hc, hW⟩ := Waiting.start hne hall hex
  refine ⟨fun res hres => hW.result hFm hres, ?_, hlive ps s hex, ?_⟩
  · intro fr gs hinv i g hg hr
    rcases hW with h | ⟨fr2, gs2, h1, hS, herr, hB⟩
    · rw [h] at hinv
      cases hinv
    · rw [hinv] at h1
      cases h1
      have hgm : g ∈ gs := List.mem_iff_getElem?.2 ⟨i, hg⟩
      rcases hB i g hg (by rw [List.getElem?_map, hr]; rfl) with ⟨h3, h4⟩ | ⟨h3, h4, h5⟩
      · left
        refine ⟨h3, h4, ?_⟩
        cases hret : fr.returned
        · rfl
        · exact absurd h4 ((hS.returned_all hret).2 g hgm)
      · right
        refine ⟨h3, by rw [hS.cancelled_eq, h4]; rfl, ?_, ?_⟩
        · rcases herr with h6 | h6
          · have := hS.once_err
            rw [h4, h6] at this
            cases this
          · exact h6
        · cases hst : g.1 with
          | live => exact Or.inl rfl
          | latched => exact absurd hst h5
          | dropped => exact Or.inr rfl
          | clean =>
            have := hS.clean_res g hgm hst
            rw [h3] at this
            cases this
  · intro ps2 s2 h2
    refine ⟨by have := exec_length h2; omega, ?_⟩
    intro hnone
    have h3 : exec ((ps ++ ps2).map some) ((Join rs).start false n) = some s2 := by
      rw [List.map_append, exec_append, hex]
      exact h2
    obtain ⟨ps3, s3, h4, h5⟩ := hlive (ps ++ ps2) s2 h3
    exact step_of_completes h4 h5 hnone

/-! ## Frames at every depth -/

theorem Inv.wfs_goroutines (gs : List (Status × Inv E)) :
    Inv.wf.wfs gs = true ↔ ∀ g ∈ gs, g.2.wf = true := by
  induction gs with
  | nil => simp [Inv.wf.wfs]
  | cons g gs ih =>
    obtain ⟨st, t⟩ := g
    simp [Inv.wf.wfs, ih]

theorem Inv.wf_join (f : Frame E) (gs : List (Status × Inv E)) :
    (Inv.join f gs).wf = true ↔
      f.once = f.err.isSome ∧ f.cancelled = (f.once || f.returned) ∧
      (f.returned = true → f.todo = [] ∧ ∀ g ∈ gs, g.1 ≠ Status.live) ∧
      ∀ g ∈ gs, g.2.wf = true := by
  simp only [Inv.wf, Bool.and_eq_true, beq_iff_eq, Bool.or_eq_true, Bool.not_eq_true',
    List.isEmpty_iff, List.all_eq_true, bne_iff_ne, ne_eq, Inv.wfs_goroutines]
  constructor
  · rintro ⟨⟨⟨h1, h2⟩, h3⟩, h4⟩
    refine ⟨h1, h2, ?_, h4⟩
    intro hr
    rcases h3 with h3 | h3
    · rw [hr] at h3
      cases h3
    · exact h3
  · rintro ⟨h1, h2, h3, h4⟩
    refine ⟨⟨⟨h1, h2⟩, ?_⟩, h4⟩
    cases hr : f.returned
    · exact Or.inl rfl
    · exact Or.inr (h3 hr)

theorem live_not_returned {f : Frame E} {gs : List (Status × Inv E)} {i : Nat} {t : Inv E}
    (h : (Inv.join f gs).wf = true) (hg : gs[i]? = some (Status.live, t)) :
    f.returned = false := by
  cases hr : f.returned
  · rfl
  · exact absurd rfl ((((Inv.wf_join f gs).1 h).2.2.1 hr).2 _ (List.mem_iff_getElem?.2 ⟨i, hg⟩))

/-- Every step keeps the frames as the code leaves them. -/
theorem Inv.step_wf {p : List Nat} {c : Bool} {n n2 : Nat} {t t2 : Inv E}
    (h : t.step p c n = some (n2, t2)) (hw : t.wf = true) : t2.wf = true := by
  induction p generalizing c n n2 t t2 with
  | nil =>
    cases t with
    | call fn =>
      cases fn with
      | ret x => simp [Inv.step, Inv.self] at h
      | add k =>
        simp only [Inv.step, Inv.self, Option.some.injEq, Prod.mk.injEq] at h
        rw [← h.2]; rfl
      | load m hit miss =>
        simp only [Inv.step, Inv.self, Option.some.injEq, Prod.mk.injEq] at h
        rw [← h.2]; rfl
      | done k =>
        simp only [Inv.step, Inv.self] at h
        split at h
        · simp only [Option.some.injEq, Prod.mk.injEq] at h
          rw [← h.2]; rfl
        · cases h
      | poll can live =>
        simp only [Inv.step, Inv.self, Option.some.injEq, Prod.mk.injEq] at h
        rw [← h.2]; rfl
      | fan rs =>
        simp only [Inv.step, Inv.self, Option.some.injEq, Prod.mk.injEq] at h
        rw [← h.2]; rfl
    | join f gs =>
      obtain ⟨h1, h2, h3, h4⟩ := (Inv.wf_join f gs).1 hw
      rcases Inv.step_join h with ⟨r, rest, _, ht, _, rfl⟩ | ⟨_, ht, hr, hall, _, rfl⟩ |
        ⟨i, t, rerr, hp, _⟩ | ⟨i, q, t, t1, hp, _⟩
      · rw [Inv.wf_join]
        refine ⟨h1, h2, ?_, ?_⟩
        · intro hr
          have := (h3 hr).1
          rw [ht] at this
          cases this
        · intro g hg
          rcases List.mem_append.1 hg with hg | hg
          · exact h4 g hg
          · rw [List.mem_singleton] at hg
            subst hg
            rfl
      · rw [Inv.wf_join]
        exact ⟨h1, by simp [Frame.leave], fun _ => ⟨ht, hall⟩, h4⟩
      · cases hp
      · cases hp
  | cons i q ih =>
    cases t with
    | call fn => simp [Inv.step] at h
    | join f gs =>
      obtain ⟨h1, h2, h3, h4⟩ := (Inv.wf_join f gs).1 hw
      have hset : ∀ (j : Nat) (t0 : Inv E) (y : Status × Inv E),
          gs[j]? = some (Status.live, t0) → y.2.wf = true →
          (Inv.join f (gs.set j y)).wf = true := by
        intro j t0 y hg hy
        rw [Inv.wf_join]
        refine ⟨h1, h2, ?_, ?_⟩
        · intro hr
          rw [live_not_returned hw hg] at hr
          cases hr
        · intro g hgm
          rcases mem_set_cases hgm with rfl | hgm
          · exact hy
          · exact h4 g hgm
      rcases Inv.step_join h with ⟨r, rest, hp, _⟩ | ⟨hp, _⟩ |
        ⟨j, t, rerr, hp, hg, hres, _, rfl⟩ | ⟨j, q2, t, t1, hp, hg, hst, rfl⟩
      · cases hp
      · cases hp
      · have hwt : t.wf = true := h4 _ (List.mem_iff_getElem?.2 ⟨j, hg⟩)
        cases rerr with
        | none => exact hset j t (Status.clean, t) hg hwt
        | some e =>
          cases ho : f.once with
          | true =>
            simp only [Inv.collect, ho, if_true]
            exact hset j t (Status.dropped, t) hg hwt
          | false =>
            simp only [Inv.collect, ho, Bool.false_eq_true, if_false]
            have := hset j t (Status.latched, t) hg hwt
            rw [Inv.wf_join] at this ⊢
            refine ⟨rfl, by simp [Frame.latch], ?_, this.2.2.2⟩
            intro hr
            have hr2 : f.returned = true := hr
            rw [live_not_returned hw hg] at hr2
            cases hr2
      · cases hp
        have hwt : t.wf = true := h4 _ (List.mem_iff_getElem?.2 ⟨i, hg⟩)
        exact hset i t (Status.live, t1) hg (ih hst hwt)

/-- An invocation that has returned takes no step. -/
theorem Inv.returned_stuck {t : Inv E} {r : Option E} (hw : t.wf = true)
    (hres : t.result = some r) (p : List Nat) (c : Bool) (n : Nat) : t.step p c n = none := by
  cases t with
  | call fn =>
    cases fn with
    | ret x => exact Inv.step_ret x p c n
    | add k => simp [Inv.result] at hres
    | load m hit miss => simp [Inv.result] at hres
    | done k => simp [Inv.result] at hres
    | poll can live => simp [Inv.result] at hres
    | fan rs => simp [Inv.result] at hres
  | join f gs =>
    obtain ⟨-, -, h3, -⟩ := (Inv.wf_join f gs).1 hw
    have hr : f.returned = true := by
      cases hr : f.returned
      · simp [Inv.result, hr] at hres
      · rfl
    cases hs : (Inv.join f gs).step p c n with
    | none => rfl
    | some x =>
      obtain ⟨x1, x2⟩ := x
      exfalso
      rcases Inv.step_join hs with ⟨r, rest, _, ht, _⟩ | ⟨_, _, hr2, _⟩ |
        ⟨i, t, rerr, _, hg, _⟩ | ⟨i, q, t, t1, _, hg, _⟩
      · rw [(h3 hr).1] at ht
        cases ht
      · rw [hr] at hr2
        cases hr2
      · exact (h3 hr).2 _ (List.mem_iff_getElem?.2 ⟨i, hg⟩) rfl
      · exact (h3 hr).2 _ (List.mem_iff_getElem?.2 ⟨i, hg⟩) rfl

/-! ## Runners that do not read the shared counter -/

theorem Fn.pures_all (rs : List (Fn E)) :
    Fn.pure.pures rs = true ↔ ∀ r ∈ rs, r.pure = true := by
  induction rs with
  | nil => simp [Fn.pure.pures]
  | cons r rs ih => simp [Fn.pure.pures, ih]

theorem Inv.pures_goroutines (gs : List (Status × Inv E)) :
    Inv.pure.pures gs = true ↔ ∀ g ∈ gs, g.2.pure = true := by
  induction gs with
  | nil => simp [Inv.pure.pures]
  | cons g gs ih =>
    obtain ⟨st, t⟩ := g
    simp [Inv.pure.pures, ih]

theorem Inv.pure_join (f : Frame E) (gs : List (Status × Inv E)) :
    (Inv.join f gs).pure = true ↔
      (∀ r ∈ f.todo, r.pure = true) ∧ ∀ g ∈ gs, g.2.pure = true := by
  simp [Inv.pure, Fn.pures_all, Inv.pures_goroutines]

/-- Every step keeps the invocation from reading the shared counter. -/
theorem Inv.step_pure {p : List Nat} {c : Bool} {n n2 : Nat} {t t2 : Inv E}
    (h : t.step p c n = some (n2, t2)) (hp : t.pure = true) : t2.pure = true := by
  induction p generalizing c n n2 t t2 with
  | nil =>
    cases t with
    | call fn =>
      cases fn with
      | ret x => simp [Inv.step, Inv.self] at h
      | add k =>
        simp only [Inv.step, Inv.self, Option.some.injEq, Prod.mk.injEq] at h
        rw [← h.2]
        exact hp
      | load m hit miss => simp [Inv.pure, Fn.pure] at hp
      | done k =>
        simp only [Inv.step, Inv.self] at h
        split at h
        · simp only [Option.some.injEq, Prod.mk.injEq] at h
          rw [← h.2]
          exact hp
        · cases h
      | poll can live =>
        simp only [Inv.step, Inv.self, Option.some.injEq, Prod.mk.injEq] at h
        rw [← h.2]
        simp only [Inv.pure, Fn.pure, Bool.and_eq_true] at hp ⊢
        split
        · exact hp.1
        · exact hp.2
      | fan rs =>
        simp only [Inv.step, Inv.self, Option.some.injEq, Prod.mk.injEq] at h
        rw [← h.2]
        simp only [Inv.pure, Fn.pure] at hp
        simp [Inv.pure, Frame.init, hp, Inv.pure.pures]
    | join f gs =>
      obtain ⟨h1, h2⟩ := (Inv.pure_join f gs).1 hp
      rcases Inv.step_join h with ⟨r, rest, _, ht, _, rfl⟩ | ⟨_, ht, hr, hall, _, rfl⟩ |
        ⟨i, t, rerr, hq, _⟩ | ⟨i, q, t, t1, hq, _⟩
      · rw [Inv.pure_join]
        rw [ht] at h1
        refine ⟨fun r2 hr2 => h1 r2 (List.mem_cons_of_mem _ hr2), ?_⟩
        intro g hg
        rcases List.mem_append.1 hg with hg | hg
        · exact h2 g hg
        · rw [List.mem_singleton] at hg
          subst hg
          exact h1 r (List.mem_cons_self _ _)
      · rw [Inv.pure_join]
        exact ⟨h1, h2⟩
      · cases hq
      · cases hq
  | cons i q ih =>
    cases t with
    | call fn => simp [Inv.step] at h
    | join f gs =>
      obtain ⟨h1, h2⟩ := (Inv.pure_join f gs).1 hp
      have hset : ∀ (j : Nat) (y : Status × Inv E) (f2 : Frame E), f2.todo = f.todo →
          y.2.pure = true → (Inv.join f2 (gs.set j y)).pure = true := by
        intro j y f2 hf hy
        rw [Inv.pure_join, hf]
        refine ⟨h1, ?_⟩
        intro g hgm
        rcases mem_set_cases hgm with rfl | hgm
        · exact hy
        · exact h2 g hgm
      rcases Inv.step_join h with ⟨r, rest, hq, _⟩ | ⟨hq, _⟩ |
        ⟨j, t, rerr, hq, hg, hres, _, rfl⟩ | ⟨j, q2, t, t1, hq, hg, hst, rfl⟩
      · cases hq
      · cases hq
      · have hpt : t.pure = true := h2 _ (List.mem_iff_getElem?.2 ⟨j, hg⟩)
        cases rerr with
        | none => exact hset j (Status.clean, t) f rfl hpt
        | some e =>
          cases ho : f.once with
          | true =>
            simp only [Inv.collect, ho, if_true]
            exact hset j (Status.dropped, t) f rfl hpt
          | false =>
            simp only [Inv.collect, ho, Bool.false_eq_true, if_false]
            exact hset j (Status.latched, t) _ rfl hpt
      · cases hq
        have hpt : t.pure = true := h2 _ (List.mem_iff_getElem?.2 ⟨i, hg⟩)
        exact hset i (Status.live, t1) f rfl (ih hst hpt)

/-! ## The outcomes of an invocation -/

theorem Fn.fan_err (c : Bool) (rs : List (Fn E)) (e : E) :
    e ∈ (Fn.out.outs c rs).1 ↔ ∃ r ∈ rs, e ∈ (r.out c).1 := by
  induction rs with
  | nil => simp [Fn.out.outs]
  | cons r rs ih => simp [Fn.out.outs, both, ih]

theorem Fn.fan_nil (c : Bool) (rs : List (Fn E)) :
    (Fn.out.outs c rs).2 = true ↔ ∀ r ∈ rs, (r.out c).2 = true := by
  induction rs with
  | nil => simp [Fn.out.outs]
  | cons r rs ih => simp [Fn.out.outs, both, ih]

theorem Inv.outs_err (c : Bool) (gs : List (Status × Inv E)) (e : E) :
    e ∈ (Inv.out.outs c gs).1 ↔ ∃ g ∈ gs, g.1 = Status.live ∧ e ∈ (g.2.out c).1 := by
  induction gs with
  | nil => simp [Inv.out.outs]
  | cons g gs ih =>
    obtain ⟨st, t⟩ := g
    simp only [Inv.out.outs]
    split
    · rename_i hst
      simp [both, ih, hst]
    · rename_i hst
      simp [ih, hst]

theorem Inv.outs_nil (c : Bool) (gs : List (Status × Inv E)) :
    (Inv.out.outs c gs).2 = true ↔ ∀ g ∈ gs, g.1 = Status.live → (g.2.out c).2 = true := by
  induction gs with
  | nil => simp [Inv.out.outs]
  | cons g gs ih =>
    obtain ⟨st, t⟩ := g
    simp only [Inv.out.outs]
    split
    · rename_i hst
      simp [both, ih, hst]
    · rename_i hst
      simp [ih, hst]

/-- The outcome left to an invocation that has returned is what it returned. -/
theorem Inv.out_returned {t : Inv E} {r : Option E} (hres : t.result = some r) (c : Bool) :
    t.out c = (r.toList, r.isNone) := by
  cases t with
  | call fn =>
    cases fn with
    | ret x =>
      simp only [Inv.result, Option.some.injEq] at hres
      subst hres
      rfl
    | add k => simp [Inv.result] at hres
    | load m hit miss => simp [Inv.result] at hres
    | done k => simp [Inv.result] at hres
    | poll can live => simp [Inv.result] at hres
    | fan rs => simp [Inv.result] at hres
  | join f gs =>
    simp only [Inv.result] at hres
    split at hres
    · rename_i hr
      simp only [Option.some.injEq] at hres
      subst hres
      simp [Inv.out, hr]
    · cases hres

theorem Among.refl (a : List E × Bool) : Among a a := ⟨fun _ h => h, fun h => h⟩

theorem Among.trans {a b d : List E × Bool} (h1 : Among a b) (h2 : Among b d) : Among a d :=
  ⟨fun e h => h2.1 e (h1.1 e h), fun h => h2.2 (h1.2 h)⟩

theorem Inv.out_settled {f : Frame E} (gs : List (Status × Inv E)) (c : Bool)
    (h : (f.once || f.returned) = true) :
    (Inv.join f gs).out c = (f.err.toList, f.err.isNone) := by
  simp [Inv.out, h]

theorem Inv.out_open {f : Frame E} (gs : List (Status × Inv E)) (c : Bool)
    (ho : f.once = false) (hr : f.returned = false) :
    (Inv.join f gs).out c = both (Fn.out.outs c f.todo) (Inv.out.outs c gs) := by
  simp [Inv.out, ho, hr]

theorem among_both {a : List E × Bool} {x y : List E × Bool}
    (h1 : ∀ e ∈ a.1, e ∈ x.1 ∨ e ∈ y.1) (h2 : a.2 = true → x.2 = true ∧ y.2 = true) :
    Among a (both x y) := by
  constructor
  · intro e he
    simp only [both, List.mem_append]
    exact h1 e he
  · intro h
    simp only [both, Bool.and_eq_true]
    exact h2 h

theorem mem_both {x y : List E × Bool} {e : E} :
    e ∈ (both x y).1 ↔ e ∈ x.1 ∨ e ∈ y.1 := by
  simp [both]

theorem nil_both {x y : List E × Bool} :
    (both x y).2 = true ↔ x.2 = true ∧ y.2 = true := by
  simp [both]

/-- The outcomes left after a goroutine's runner has stepped, or after a goroutine has been
collected whose runner returned nil, are among those left before. -/
theorem Inv.outs_set {c : Bool} {gs : List (Status × Inv E)} {i : Nat} {t : Inv E}
    {y : Status × Inv E} (hg : gs[i]? = some (Status.live, t))
    (hy : y.1 = Status.live → Among (y.2.out c) (t.out c))
    (hn : y.1 ≠ Status.live → (t.out c).2 = true) :
    Among (Inv.out.outs c (gs.set i y)) (Inv.out.outs c gs) := by
  constructor
  · intro e he
    rw [Inv.outs_err] at he ⊢
    obtain ⟨g, hgm, hl, hge⟩ := he
    rcases mem_set_cases hgm with rfl | hgm
    · exact ⟨_, List.mem_iff_getElem?.2 ⟨i, hg⟩, rfl, (hy hl).1 e hge⟩
    · exact ⟨g, hgm, hl, hge⟩
  · intro h
    rw [Inv.outs_nil] at h ⊢
    intro g hgm hl
    by_cases hgt : g = (Status.live, t)
    · subst hgt
      by_cases hyl : y.1 = Status.live
      · exact (hy hyl).2 (h y (mem_set_self hg) hyl)
      · exact hn hyl
    · exact h g (mem_set_of_mem hgm hg hgt) hl

/-- Under a context whose state does not change, no step of an invocation that does not read
the shared counter adds an outcome. -/
theorem Inv.step_out {p : List Nat} {c : Bool} {n n2 : Nat} {t t2 : Inv E}
    (h : t.step p c n = some (n2, t2)) (hw : t.wf = true) (hp : t.pure = true) :
    Among (t2.out c) (t.out c) := by
  induction p generalizing n n2 t t2 with
  | nil =>
    cases t with
    | call fn =>
      cases fn with
      | ret x => simp [Inv.step, Inv.self] at h
      | add k =>
        simp only [Inv.step, Inv.self, Option.some.injEq, Prod.mk.injEq] at h
        rw [← h.2]
        exact Among.refl _
      | load m hit miss => simp [Inv.pure, Fn.pure] at hp
      | done k =>
        simp only [Inv.step, Inv.self] at h
        split at h
        · rename_i hc
          simp only [Option.some.injEq, Prod.mk.injEq] at h
          rw [← h.2]
          simp only [Inv.out, Fn.out, hc, if_true]
          exact Among.refl _
        · cases h
      | poll can live =>
        simp only [Inv.step, Inv.self, Option.some.injEq, Prod.mk.injEq] at h
        rw [← h.2]
        simp only [Inv.out, Fn.out]
        cases c <;> exact Among.refl _
      | fan rs =>
        simp only [Inv.step, Inv.self, Option.some.injEq, Prod.mk.injEq] at h
        rw [← h.2, Inv.out_open [] c rfl rfl]
        simp only [Inv.out, Fn.out, Frame.init, Inv.out.outs]
        constructor
        · intro e he
          simpa [both] using he
        · intro hh
          simpa [both] using hh
    | join f gs =>
      obtain ⟨h1, h2, h3, h4⟩ := (Inv.wf_join f gs).1 hw
      rcases Inv.step_join h with ⟨r, rest, _, ht, _, rfl⟩ | ⟨_, ht, hr, hall, _, rfl⟩ |
        ⟨i, t, rerr, hq, _⟩ | ⟨i, q, t, t1, hq, _⟩
      · cases hF : (f.once || f.returned) with
        | true =>
          rw [Inv.out_settled _ c hF, Inv.out_settled _ c (by simpa using hF)]
          exact Among.refl _
        | false =>
          simp only [Bool.or_eq_false_iff] at hF
          rw [Inv.out_open _ c hF.1 hF.2, Inv.out_open _ c (by exact hF.1) (by exact hF.2)]
          simp only [ht]
          apply among_both
          · intro e he
            rw [mem_both, Inv.outs_err] at he
            rw [Fn.fan_err, Inv.outs_err]
            rcases he with he | ⟨g, hgm, hl, hge⟩
            · rw [Fn.fan_err] at he
              obtain ⟨r2, hr2, he2⟩ := he
              exact Or.inl ⟨r2, List.mem_cons_of_mem _ hr2, he2⟩
            · rcases List.mem_append.1 hgm with hgm | hgm
              · exact Or.inr ⟨g, hgm, hl, hge⟩
              · rw [List.mem_singleton] at hgm
                subst hgm
                exact Or.inl ⟨r, List.mem_cons_self _ _, hge⟩
          · intro hh
            rw [nil_both, Fn.fan_nil, Inv.outs_nil] at hh
            rw [Fn.fan_nil, Inv.outs_nil]
            constructor
            · intro r2 hr2
              rcases List.mem_cons.1 hr2 with rfl | hr2
              · exact hh.2 (Status.live, .call r2) (by simp) rfl
              · exact hh.1 r2 hr2
            · intro g hgm hl
              exact hh.2 g (List.mem_append_left _ hgm) hl
      · rw [Inv.out_settled _ c (by simp [Frame.leave])]
        cases ho : f.once with
        | true =>
          rw [Inv.out_settled _ c (by simp [ho])]
          exact Among.refl _
        | false =>
          have he : f.err = none := by
            rw [ho] at h1
            cases hfe : f.err
            · rfl
            · rw [hfe] at h1
              cases h1
          rw [Inv.out_open _ c ho hr]
          simp only [Frame.leave, he, ht]
          apply among_both
          · intro e hee
            simp at hee
          · intro _
            refine ⟨rfl, ?_⟩
            rw [Inv.outs_nil]
            intro g hgm hl
            exact absurd hl (hall g hgm)
      · cases hq
      · cases hq
  | cons i q ih =>
    cases t with
    | call fn => simp [Inv.step] at h
    | join f gs =>
      obtain ⟨h1, h2, h3, h4⟩ := (Inv.wf_join f gs).1 hw
      obtain ⟨hp1, hp2⟩ := (Inv.pure_join f gs).1 hp
      rcases Inv.step_join h with ⟨r, rest, hq, _⟩ | ⟨hq, _⟩ |
        ⟨j, t, rerr, hq, hg, hres, _, rfl⟩ | ⟨j, q2, t, t1, hq, hg, hst, rfl⟩
      · cases hq
      · cases hq
      · have hr := live_not_returned hw hg
        have hto := Inv.out_returned hres c
        cases ho : f.once with
        | true =>
          have hsame : ∀ y, (Inv.join f (gs.set j y)).out c = (Inv.join f gs).out c := by
            intro y
            rw [Inv.out_settled _ c (by simp [ho]), Inv.out_settled _ c (by simp [ho])]
          cases rerr with
          | none =>
            simp only [Inv.collect]
            rw [hsame]
            exact Among.refl _
          | some e =>
            simp only [Inv.collect, ho, if_true]
            rw [hsame]
            exact Among.refl _
        | false =>
          cases rerr with
          | none =>
            simp only [Inv.collect]
            rw [Inv.out_open _ c ho hr, Inv.out_open _ c ho hr]
            have := Inv.outs_set (c := c) (y := (Status.clean, t)) hg (by simp)
              (by intro _; rw [hto]; rfl)
            exact among_both (fun e he => by
                rw [mem_both] at he
                rcases he with he | he
                · exact Or.inl he
                · exact Or.inr (this.1 e he))
              (fun hh => by
                rw [nil_both] at hh
                exact ⟨hh.1, this.2 hh.2⟩)
          | some e =>
            simp only [Inv.collect, ho, Bool.false_eq_true, if_false]
            rw [Inv.out_settled _ c (by simp [Frame.latch]), Inv.out_open _ c ho hr]
            apply among_both
            · intro e2 he2
              simp only [Frame.latch, Option.toList, List.mem_singleton] at he2
              subst he2
              right
              rw [Inv.outs_err]
              exact ⟨_, List.mem_iff_getElem?.2 ⟨j, hg⟩, rfl, by rw [hto]; simp⟩
            · intro hh
              simp [Frame.latch] at hh
      · cases hq
        have hr := live_not_returned hw hg
        cases ho : f.once with
        | true =>
          rw [Inv.out_settled _ c (by simp [ho]), Inv.out_settled _ c (by simp [ho])]
          exact Among.refl _
        | false =>
          have hcan : f.cancelled = false := by rw [h2, ho, hr]; rfl
          rw [hcan, Bool.or_false] at hst
          have hgm : (Status.live, t) ∈ gs := List.mem_iff_getElem?.2 ⟨i, hg⟩
          have hi := ih hst (h4 _ hgm) (hp2 _ hgm)
          rw [Inv.out_open _ c ho hr, Inv.out_open _ c ho hr]
          have := Inv.outs_set (c := c) (y := (Status.live, t1)) hg (fun _ => hi)
            (by intro hne; exact absurd rfl hne)
          exact among_both (fun e he => by
              rw [mem_both] at he
              rcases he with he | he
              · exact Or.inl he
              · exact Or.inr (this.1 e he))
            (fun hh => by
              rw [nil_both] at hh
              exact ⟨hh.1, this.2 hh.2⟩)

/-- Along an execution under an unchanged context of an invocation that does not read the
shared counter, no outcome is added. -/
theorem Inv.run_out {ps : List (List Nat)} {c : Bool} {n n2 : Nat} {t t2 : Inv E}
    (h : Inv.run ps c n t = some (n2, t2)) (hw : t.wf = true) (hp : t.pure = true) :
    t2.wf = true ∧ t2.pure = true ∧ Among (t2.out c) (t.out c) := by
  induction ps generalizing n t with
  | nil =>
    simp only [Inv.run, Option.some.injEq, Prod.mk.injEq] at h
    rw [← h.2]
    exact ⟨hw, hp, Among.refl _⟩
  | cons p ps ih =>
    simp only [Inv.run] at h
    cases hs : t.step p c n with
    | none => simp [hs] at h
    | some r =>
      obtain ⟨r1, r2⟩ := r
      rw [hs] at h
      obtain ⟨k1, k2, k3⟩ := ih h (Inv.step_wf hs hw) (Inv.step_pure hs hp)
      exact ⟨k1, k2, k3.trans (Inv.step_out hs hw hp)⟩

/-- What an invocation of a body that does not read the shared counter returns under an
unchanged context is one of the outcomes of the body. -/
theorem Fn.returns_may {fn : Fn E} (hp : fn.pure = true) {ps : List (List Nat)} {c : Bool}
    {n n2 : Nat} {t2 : Inv E} {res : Option E}
    (h : Inv.run ps c n (.call fn) = some (n2, t2)) (hres : t2.result = some res) :
    May (fn.out c) res := by
  obtain ⟨-, -, h3⟩ := Inv.run_out h rfl hp
  rw [Inv.out_returned hres c] at h3
  cases res with
  | none => exact h3.2 rfl
  | some e => exact h3.1 e (by simp)

theorem Fn.cost_mem {rs : List (Fn E)} {r : Fn E} (h : r ∈ rs) :
    r.cost + 2 ≤ Fn.cost.costs rs := by
  induction rs with
  | nil => cases h
  | cons a rs ih =>
    simp only [Fn.cost.costs]
    rcases List.mem_cons.1 h with rfl | h
    · omega
    · have := ih h
      omega

/-- A body that may return nil under a context whose state stays `c` may return no error
under it. -/
theorem Fn.out_exclusive (c : Bool) (k : Nat) : ∀ (fn : Fn E), fn.cost ≤ k →
    (fn.out c).2 = true → ∀ e, e ∉ (fn.out c).1 := by
  induction k with
  | zero =>
    intro fn hk h e
    cases fn with
    | ret x =>
      cases x with
      | none => simp [Fn.out]
      | some y => simp [Fn.out] at h
    | add k => simp [Fn.cost] at hk
    | load m hit miss => simp [Fn.cost] at hk
    | done k => simp [Fn.cost] at hk
    | poll can live => simp [Fn.cost] at hk
    | fan rs => simp [Fn.cost] at hk
  | succ k ih =>
    intro fn hk h e
    cases fn with
    | ret x =>
      cases x with
      | none => simp [Fn.out]
      | some y => simp [Fn.out] at h
    | add k2 =>
      simp only [Fn.cost] at hk
      exact ih k2 (by omega) h e
    | load m hit miss => simp [Fn.out]
    | done k2 =>
      simp only [Fn.cost] at hk
      cases c with
      | false => simp [Fn.out]
      | true =>
        simp only [Fn.out, if_true] at h ⊢
        exact ih k2 (by omega) h e
    | poll can live =>
      simp only [Fn.cost] at hk
      cases c with
      | false =>
        simp only [Fn.out, Bool.false_eq_true, if_false] at h ⊢
        exact ih live (by omega) h e
      | true =>
        simp only [Fn.out, if_true] at h ⊢
        exact ih can (by omega) h e
    | fan rs =>
      simp only [Fn.cost] at hk
      simp only [Fn.out] at h ⊢
      rw [Fn.fan_nil] at h
      rw [Fn.fan_err]
      rintro ⟨r, hr, he⟩
      have := Fn.cost_mem hr
      exact ih r (by omega) (h r hr) e he

/-- Two executions of a runner that does not read the shared counter, under the same unchanged
context, both return nil or both return an error. -/
theorem pure_returns_agree {r : Runner E} (hp : r.fn.pure = true) {c : Bool} {n : Nat}
    {ps1 ps2 : List (List Nat)} {res1 res2 : Option E}
    (h1 : r.returns c n (ps1.map some) = some res1)
    (h2 : r.returns c n (ps2.map some) = some res2) : res1 = none ↔ res2 = none := by
  have key : ∀ (ps : List (List Nat)) (res : Option E),
      r.returns c n (ps.map some) = some res → May (r.fn.out c) res := by
    intro ps res h
    simp only [Runner.returns, Runner.start, Runner.Run, Option.bind_eq_some] at h
    obtain ⟨s, hs, hres⟩ := h
    obtain ⟨-, hrun⟩ := run_exec hs
    exact Fn.returns_may hp hrun hres
  have k1 := key ps1 res1 h1
  have k2 := key ps2 res2 h2
  have hex := Fn.out_exclusive c r.fn.cost r.fn (Nat.le_refl _)
  cases res1 with
  | none =>
    cases res2 with
    | none => simp
    | some e => exact absurd k2 (hex k1 e)
  | some e =>
    cases res2 with
    | none => exact absurd k1 (hex k2 e)
    | some e2 => simp

theorem Join_pure {rs : List (Runner E)} (hp : ∀ r ∈ rs, r.fn.pure = true) :
    (Join rs).fn.pure = true := by
  unfold Join
  split
  · rfl
  · simp only [New, Fn.pure, Fn.pures_all, List.mem_map, forall_exists_index, and_imp]
    intro fn r hr hfn
    rw [← hfn]
    exact hp r hr

/-! ## Whether `Join` fails does not depend on the schedule, for runners that do not share state -/

/-- C6 as stated fails: with a runner that does `count.Add(1)` and a runner that returns an
error if `count.Load() >= 1` and nil otherwise, under a context that is never cancelled, `Join`
returns the error when the first runs first and nil when the second runs first. -/
theorem Join_nil_or_error_depends_on_schedule :
    ¬ ∀ (rs : List (Runner Nat)) (c : Bool) (n : Nat) (ps1 ps2 : List (List Nat))
        (res1 res2 : Option Nat),
        (Join rs).returns c n (ps1.map some) = some res1 →
        (Join rs).returns c n (ps2.map some) = some res2 →
        (res1 = none ↔ res2 = none) := by
  intro h
  have := h [New (.add (.ret none)), New (.load 1 (.ret (some 7)) (.ret none))] false 0
    [[], [], [], [0], [1], [0], [1], []] [[], [], [], [1], [0], [0], [1], []]
    (some 7) none rfl rfl
  simp at this

/-- The state of the context has to stay the same: `Join` over the one runner that returns an
error if `ctx.Err() != nil` and nil otherwise returns nil when the caller's context is
cancelled after the runner has looked, and the error when it is cancelled before. -/
theorem Join_nil_or_error_depends_on_cancel :
    (Join [New (.poll (.ret (some 7)) (.ret none))]).returns false 0
        [some [], some [], some [0], none, some [0], some []] = some (none : Option Nat) ∧
    (Join [New (.poll (.ret (some 7)) (.ret none))]).returns false 0
        [some [], some [], none, some [0], some [0], some []] = some (some 7) :=
  ⟨rfl, rfl⟩

/-- C6 amended: for every list of runners none of which reads the shared counter, and every
two executions of the same `Join` under the same context whose state does not change during
them, the two results are both nil or both non-nil. -/
theorem Join_nil_or_error_fixed_for_pure (rs : List (Runner E))
    (hp : ∀ r ∈ rs, r.fn.pure = true) (c : Bool) (n : Nat) (ps1 ps2 : List (List Nat))
    (res1 res2 : Option E)
    (h1 : (Join rs).returns c n (ps1.map some) = some res1)
    (h2 : (Join rs).returns c n (ps2.map some) = some res2) :
    res1 = none ↔ res2 = none :=
  pure_returns_agree (Join_pure hp) h1 h2

/-! ## Every outcome is returned by some execution -/

theorem set_same {α : Type} {l : List α} {i : Nat} {x : α} (h : l[i]? = some x) :
    l.set i x = l := by
  induction l generalizing i with
  | nil => rfl
  | cons a l ih =>
    cases i with
    | zero =>
      simp only [List.getElem?_cons_zero, Option.some.injEq] at h
      rw [h]
      rfl
    | succ j =>
      simp only [List.getElem?_cons_succ] at h
      simp only [List.set_cons_succ, ih h]

theorem get?_snoc_last {α : Type} (l : List α) (x : α) : (l ++ [x])[l.length]? = some x := by
  rw [List.getElem?_append_right (Nat.le_refl _)]
  simp

theorem set_snoc_last {α : Type} (l : List α) (x y : α) :
    (l ++ [x]).set l.length y = l ++ [y] := by
  induction l with
  | nil => rfl
  | cons a l ih => simp only [List.cons_append, List.length_cons, List.set_cons_succ, ih]

/-- An execution of a goroutine's runner is an execution of the frame, each step taken at the
goroutine's index. -/
theorem Inv.run_lift {c : Bool} {f : Frame E} {i : Nat} : ∀ (ps : List (List Nat)) (n : Nat)
    (t : Inv E) (gs : List (Status × Inv E)) (n2 : Nat) (t2 : Inv E), t.wf = true →
    gs[i]? = some (Status.live, t) →
    Inv.run ps (c || f.cancelled) n t = some (n2, t2) →
    Inv.run (ps.map (List.cons i)) c n (.join f gs)
      = some (n2, .join f (gs.set i (Status.live, t2))) := by
  intro ps
  induction ps with
  | nil =>
    intro n t gs n2 t2 _ hg h
    simp only [Inv.run, Option.some.injEq, Prod.mk.injEq] at h
    obtain ⟨rfl, rfl⟩ := h
    simp only [List.map_nil, Inv.run, set_same hg]
  | cons p ps ih =>
    intro n t gs n2 t2 hw hg h
    simp only [Inv.run] at h
    cases hs : t.step p (c || f.cancelled) n with
    | none => simp [hs] at h
    | some r =>
      obtain ⟨r1, r2⟩ := r
      rw [hs] at h
      have hres : t.result = none := by
        cases hr : t.result with
        | none => rfl
        | some x =>
          rw [Inv.returned_stuck hw hr] at hs
          cases hs
      have h2 := ih r1 r2 (gs.set i (Status.live, r2)) n2 t2 (Inv.step_wf hs hw)
        (get?_set_same hg) h
      simp only [List.map_cons, Inv.run, Inv.step_inner hg hres hs, Option.some_bind]
      rw [h2, List.set_set]

/-- Once an error is latched, every execution of the frame keeps it. -/
theorem Inv.run_latched {c : Bool} {e : E} : ∀ (ps : List (List Nat)) (n : Nat) (f : Frame E)
    (gs : List (Status × Inv E)) (n2 : Nat) (t2 : Inv E),
    Inv.run ps c n (.join f gs) = some (n2, t2) → f.once = true → f.err = some e →
    ∃ f2 gs2, t2 = .join f2 gs2 ∧ f2.once = true ∧ f2.err = some e := by
  intro ps
  induction ps with
  | nil =>
    intro n f gs n2 t2 h ho he
    simp only [Inv.run, Option.some.injEq, Prod.mk.injEq] at h
    exact ⟨f, gs, h.2.symm, ho, he⟩
  | cons p ps ih =>
    intro n f gs n2 t2 h ho he
    simp only [Inv.run] at h
    cases hs : (Inv.join f gs).step p c n with
    | none => simp [hs] at h
    | some r =>
      obtain ⟨r1, r2⟩ := r
      rw [hs] at h
      simp only [Option.some_bind] at h
      rcases Inv.step_join hs with ⟨r, rest, _, ht, _, rfl⟩ | ⟨_, ht, hr, hall, _, rfl⟩ |
        ⟨i, t, rerr, _, hg, hres, _, rfl⟩ | ⟨i, q, t, t1, _, hg, hst, rfl⟩
      · exact ih _ _ _ _ _ h ho he
      · exact ih _ _ _ _ _ h ho he
      · cases rerr with
        | none => exact ih _ _ _ _ _ h ho he
        | some e2 =>
          simp only [Inv.collect, ho, if_true] at h
          exact ih _ _ _ _ _ h ho he
      · exact ih _ _ _ _ _ h ho he

/-- Runners that can each return nil are run one after the other, each started, run to its
return and collected, until the loop has ended with no goroutine live. -/
theorem Inv.run_all_nil {c : Bool} : ∀ (todo : List (Fn E)) (f : Frame E)
    (gs : List (Status × Inv E)) (n : Nat), f.todo = todo → f.cancelled = false →
    (∀ g ∈ gs, g.1 ≠ Status.live) →
    (∀ r ∈ todo, ∀ n, ∃ (ps : List (List Nat)) (n2 : Nat) (t2 : Inv E),
      Inv.run ps c n (.call r) = some (n2, t2) ∧ t2.result = some none) →
    ∃ (ps : List (List Nat)) (n2 : Nat) (gs2 : List (Status × Inv E)),
      Inv.run ps c n (.join f gs) = some (n2, .join { f with todo := [] } gs2) ∧
      ∀ g ∈ gs2, g.1 ≠ Status.live := by
  intro todo
  induction todo with
  | nil =>
    intro f gs n h _ hall _
    exact ⟨[], n, gs, by simp only [Inv.run, ← h], hall⟩
  | cons r rest ih =>
    intro f gs n h hcan hall hrun
    obtain ⟨psr, n1, t1, hr1, hres1⟩ := hrun r (List.mem_cons_self _ _) n
    have hlift := Inv.run_lift (c := c) (f := { f with todo := rest }) (i := gs.length) psr n
      (.call r) (gs ++ [(Status.live, .call r)]) n1 t1 rfl (get?_snoc_last _ _)
      (by simpa [hcan] using hr1)
    rw [set_snoc_last] at hlift
    have hcol : (Inv.join { f with todo := rest } (gs ++ [(Status.live, t1)])).step
        [gs.length] c n1
        = some (n1, .join { f with todo := rest } (gs ++ [(Status.clean, t1)])) := by
      rw [Inv.step_collect (get?_snoc_last _ _) hres1]
      simp only [Inv.collect, set_snoc_last]
    obtain ⟨ps2, n2, gs2, h2, hall2⟩ := ih { f with todo := rest }
      (gs ++ [(Status.clean, t1)]) n1 rfl hcan
      (by
        intro g hg
        rcases List.mem_append.1 hg with hg | hg
        · exact hall g hg
        · rw [List.mem_singleton] at hg
          subst hg
          simp)
      (fun r2 hr2 => hrun r2 (List.mem_cons_of_mem _ hr2))
    refine ⟨[] :: (psr.map (List.cons gs.length) ++ ([gs.length] :: ps2)), n2, gs2, ?_, hall2⟩
    simp only [Inv.run, Inv.step_spawn h, Option.some_bind]
    rw [run_append, hlift]
    simp only [Option.some_bind, Inv.run, hcol]
    exact h2

/-- Every outcome of a body is returned by some execution of it under the unchanged context,
whatever the counter is at. -/
theorem Fn.may_returns (c : Bool) (k : Nat) : ∀ (fn : Fn E), fn.cost ≤ k →
    ∀ (v : Option E), May (fn.out c) v → ∀ (n : Nat),
    ∃ (ps : List (List Nat)) (n2 : Nat) (t2 : Inv E),
      Inv.run ps c n (.call fn) = some (n2, t2) ∧ t2.result = some v := by
  induction k using Nat.strong_induction_on with
  | _ k ih =>
    intro fn hk v hv n
    cases fn with
    | ret x =>
      refine ⟨[], n, .call (.ret x), rfl, ?_⟩
      cases v with
      | none =>
        cases x with
        | none => rfl
        | some y => simp [May, Fn.out] at hv
      | some e =>
        cases x with
        | none => simp [May, Fn.out] at hv
        | some y =>
          simp only [May, Fn.out, Option.toList, List.mem_singleton] at hv
          rw [hv]
          rfl
    | add k2 =>
      simp only [Fn.cost] at hk
      obtain ⟨ps, n2, t2, h1, h2⟩ := ih k2.cost (by omega) k2 (Nat.le_refl _) v hv ((n + 1) % 2 ^ 32)
      exact ⟨[] :: ps, n2, t2, by simp only [Inv.run, Inv.step, Inv.self, Option.some_bind, h1],
        h2⟩
    | load m hit miss =>
      cases v <;> simp [May, Fn.out] at hv
    | done k2 =>
      simp only [Fn.cost] at hk
      cases c with
      | false => cases v <;> simp [May, Fn.out] at hv
      | true =>
        obtain ⟨ps, n2, t2, h1, h2⟩ := ih k2.cost (by omega) k2 (Nat.le_refl _) v
          (by simpa [Fn.out] using hv) n
        exact ⟨[] :: ps, n2, t2,
          by simp only [Inv.run, Inv.step, Inv.self, if_true, Option.some_bind, h1], h2⟩
    | poll can live =>
      simp only [Fn.cost] at hk
      cases c with
      | false =>
        obtain ⟨ps, n2, t2, h1, h2⟩ := ih live.cost (by omega) live (Nat.le_refl _) v
          (by simpa [Fn.out] using hv) n
        exact ⟨[] :: ps, n2, t2, by
          simp only [Inv.run, Inv.step, Inv.self, Bool.false_eq_true, if_false,
            Option.some_bind, h1], h2⟩
      | true =>
        obtain ⟨ps, n2, t2, h1, h2⟩ := ih can.cost (by omega) can (Nat.le_refl _) v
          (by simpa [Fn.out] using hv) n
        exact ⟨[] :: ps, n2, t2,
          by simp only [Inv.run, Inv.step, Inv.self, if_true, Option.some_bind, h1], h2⟩
    | fan rs =>
      simp only [Fn.cost] at hk
      have hsub : ∀ r ∈ rs, ∀ (v : Option E), May (r.out c) v → ∀ (n : Nat),
          ∃ (ps : List (List Nat)) (n2 : Nat) (t2 : Inv E),
            Inv.run ps c n (.call r) = some (n2, t2) ∧ t2.result = some v := by
        intro r hr
        have := Fn.cost_mem hr
        exact ih r.cost (by omega) r (Nat.le_refl _)
      cases v with
      | none =>
        have hnil : ∀ r ∈ rs, (r.out c).2 = true := (Fn.fan_nil c rs).1 hv
        obtain ⟨ps, n2, gs2, h1, hall⟩ := Inv.run_all_nil (c := c) rs (Frame.init rs) [] n rfl
          rfl (by simp) (fun r hr n => hsub r hr none (hnil r hr) n)
        have hlv : (Inv.join { Frame.init rs with todo := [] } gs2).step [] c n2
            = some (n2, .join (Frame.leave c { Frame.init rs with todo := [] }) gs2) :=
          Inv.step_leave rfl rfl hall
        refine ⟨[] :: (ps ++ [[]]), n2,
          .join (Frame.leave c { Frame.init rs with todo := [] }) gs2, ?_, rfl⟩
        have hd : (Inv.call (Fn.fan rs)).step [] c n = some (n, .join (Frame.init rs) []) := rfl
        simp only [Inv.run, hd, Option.some_bind]
        rw [run_append, h1]
        simp only [Option.some_bind, Inv.run, hlv]
      | some e =>
        obtain ⟨r, hr, he⟩ := (Fn.fan_err c rs e).1 hv
        obtain ⟨pre, post, rfl⟩ := List.append_of_mem hr
        obtain ⟨psr, n1, t1, hr1, hres1⟩ := hsub r hr (some e) he n
        -- the loop starts the runners up to `r`
        have hsp : Inv.run (List.replicate (pre.length + 1) []) c n
            (.join (Frame.init (pre ++ r :: post)) [])
            = some (n, .join ⟨post, false, none, false, 0, 0, 0, false⟩
                (pre.map (fun r => (Status.live, Inv.call r)) ++ [(Status.live, Inv.call r)]))
            := by
          have := Inv.spawn_some c n (pre ++ [r]) post (Frame.init (pre ++ r :: post)) []
            (by simp [Frame.init])
          simpa [Frame.init] using this
        -- `r` runs to its return
        have hg : (pre.map (fun r => (Status.live, Inv.call r))
            ++ [(Status.live, Inv.call r)])[pre.length]? = some (Status.live, Inv.call r) := by
          simp
        have hlift := Inv.run_lift (c := c)
          (f := ⟨post, false, none, false, 0, 0, 0, false⟩) (i := pre.length) psr n
          (.call r) _ n1 t1 rfl hg (by simp [hr1])
        -- it gets through the gate
        have hcol : (Inv.join (⟨post, false, none, false, 0, 0, 0, false⟩ : Frame E)
            ((pre.map (fun r => (Status.live, Inv.call r))
              ++ [(Status.live, Inv.call r)]).set pre.length (Status.live, t1))).step
              [pre.length] c n1
            = some (n1, .join (Frame.latch c ⟨post, false, none, false, 0, 0, 0, false⟩ e)
                (((pre.map (fun r => (Status.live, Inv.call r))
                  ++ [(Status.live, Inv.call r)]).set pre.length (Status.live, t1)).set
                  pre.length (Status.latched, t1))) := by
          rw [Inv.step_collect (get?_set_same hg) hres1]
          rfl
        -- nothing can block any more
        obtain ⟨ps3, n3, t3, res, h3, hres3⟩ := Inv.completes _
          (.join (Frame.latch c ⟨post, false, none, false, 0, 0, 0, false⟩ e)
            (((pre.map (fun r => (Status.live, Inv.call r))
              ++ [(Status.live, Inv.call r)]).set pre.length (Status.live, t1)).set
              pre.length (Status.latched, t1))) c n1 (Nat.le_refl _)
          (Or.inr (by simp [Inv.nowait, Frame.latch]))
        obtain ⟨f4, gs4, rfl, -, he4⟩ := Inv.run_latched ps3 _ _ _ _ _ h3 rfl rfl
        have hres4 : res = some e := by
          simp only [Inv.result] at hres3
          split at hres3
          · rw [he4] at hres3
            exact (Option.some.inj hres3).symm
          · cases hres3
        subst hres4
        refine ⟨[] :: (List.replicate (pre.length + 1) [] ++
          (psr.map (List.cons pre.length) ++ ([pre.length] :: ps3))), n3, _, ?_, hres3⟩
        have hd : (Inv.call (Fn.fan (pre ++ r :: post))).step [] c n
            = some (n, .join (Frame.init (pre ++ r :: post)) []) := rfl
        rw [run_cons, hd]
        simp only [Option.some_bind]
        rw [run_append, hsp]
        simp only [Option.some_bind]
        rw [run_append, hlift]
        simp only [Option.some_bind]
        rw [run_cons, hcol]
        simp only [Option.some_bind]
        exact h3

/-- The values a runner that does not read the shared counter can return under a context whose
state does not change are exactly the outcomes of its body. -/
theorem pure_returns_iff {r : Runner E} (hp : r.fn.pure = true) (c : Bool) (n : Nat)
    (res : Option E) :
    (∃ ps : List (List Nat), r.returns c n (ps.map some) = some res) ↔ May (r.fn.out c) res := by
  constructor
  · rintro ⟨ps, h⟩
    simp only [Runner.returns, Runner.start, Runner.Run, Option.bind_eq_some] at h
    obtain ⟨s, hs, hres⟩ := h
    obtain ⟨-, hrun⟩ := run_exec hs
    exact Fn.returns_may hp hrun hres
  · intro h
    obtain ⟨ps, n2, t2, h1, h2⟩ := Fn.may_returns c r.fn.cost r.fn (Nat.le_refl _) res h n
    refine ⟨ps, ?_⟩
    simp only [Runner.returns, Runner.start, Runner.Run, exec_run h1, Option.some_bind]
    exact h2

/-- A sound frame that has returned has one goroutine for each runner, and each has returned. -/
theorem Sound.returned_len {c : Bool} {rs : List (Fn E)} {f : Frame E}
    {gs : List (Status × Inv E)} (h : Sound c rs f gs) (hret : f.returned = true) :
    gs.length = rs.length ∧ ∀ g ∈ gs, ∃ x, g.2.result = some x := by
  constructor
  · have h3 := (h.returned_all hret).1
    rw [h.todo_eq] at h3
    have h4 := h.len_le
    have h5 := List.drop_eq_nil_iff.1 h3
    omega
  · intro g hg
    exact h.done_res g hg ((h.returned_all hret).2 g hg)

theorem May.flatten {a b d : List E × Bool} (v : Option E) :
    May (both (both a (both b ([], true))) (both d ([], true))) v ↔
      May (both a (both b (both d ([], true)))) v := by
  cases v with
  | none => simp [May, both, Bool.and_assoc]
  | some e => simp [May, both, or_assoc]

/-! ## The outcomes under a context that the caller may cancel at any moment -/

theorem Fn.fan_dyn_err (rs : List (Fn E)) (e : E) :
    e ∈ (Fn.dyn.dyns rs).1 ↔ ∃ r ∈ rs, e ∈ r.dyn.1 := by
  induction rs with
  | nil => simp [Fn.dyn.dyns]
  | cons r rs ih => simp [Fn.dyn.dyns, both, ih]

theorem Fn.fan_dyn_nil (rs : List (Fn E)) :
    (Fn.dyn.dyns rs).2 = true ↔ ∀ r ∈ rs, r.dyn.2 = true := by
  induction rs with
  | nil => simp [Fn.dyn.dyns]
  | cons r rs ih => simp [Fn.dyn.dyns, both, ih]

theorem Inv.dyns_err (gs : List (Status × Inv E)) (e : E) :
    e ∈ (Inv.dyn.dyns gs).1 ↔ ∃ g ∈ gs, g.1 = Status.live ∧ e ∈ g.2.dyn.1 := by
  induction gs with
  | nil => simp [Inv.dyn.dyns]
  | cons g gs ih =>
    obtain ⟨st, t⟩ := g
    simp only [Inv.dyn.dyns]
    split
    · rename_i hst
      simp [both, ih, hst]
    · rename_i hst
      simp [ih, hst]

theorem Inv.dyns_nil (gs : List (Status × Inv E)) :
    (Inv.dyn.dyns gs).2 = true ↔ ∀ g ∈ gs, g.1 = Status.live → g.2.dyn.2 = true := by
  induction gs with
  | nil => simp [Inv.dyn.dyns]
  | cons g gs ih =>
    obtain ⟨st, t⟩ := g
    simp only [Inv.dyn.dyns]
    split
    · rename_i hst
      simp [both, ih, hst]
    · rename_i hst
      simp [ih, hst]

/-- The outcome left to an invocation that has returned is what it returned. -/
theorem Inv.dyn_returned {t : Inv E} {r : Option E} (hres : t.result = some r) :
    t.dyn = (r.toList, r.isNone) := by
  cases t with
  | call fn =>
    cases fn with
    | ret x =>
      simp only [Inv.result, Option.some.injEq] at hres
      subst hres
      rfl
    | add k => simp [Inv.result] at hres
    | load m hit miss => simp [Inv.result] at hres
    | done k => simp [Inv.result] at hres
    | poll can live => simp [Inv.result] at hres
    | fan rs => simp [Inv.result] at hres
  | join f gs =>
    simp only [Inv.result] at hres
    split at hres
    · rename_i hr
      simp only [Option.some.injEq] at hres
      subst hres
      simp [Inv.dyn, hr]
    · cases hres

theorem Inv.dyn_settled {f : Frame E} (gs : List (Status × Inv E))
    (h : (f.once || f.returned) = true) :
    (Inv.join f gs).dyn = (f.err.toList, f.err.isNone) := by
  simp [Inv.dyn, h]

theorem Inv.dyn_open {f : Frame E} (gs : List (Status × Inv E))
    (ho : f.once = false) (hr : f.returned = false) :
    (Inv.join f gs).dyn = both (Fn.dyn.dyns f.todo) (Inv.dyn.dyns gs) := by
  simp [Inv.dyn, ho, hr]

theorem both_mono {a b x y : List E × Bool} (h1 : Among a x) (h2 : Among b y) :
    Among (both a b) (both x y) := by
  apply among_both
  · intro e he
    rw [mem_both] at he
    rcases he with he | he
    · exact Or.inl (h1.1 e he)
    · exact Or.inr (h2.1 e he)
  · intro hh
    rw [nil_both] at hh
    exact ⟨h1.2 hh.1, h2.2 hh.2⟩

/-- The outcomes left after a goroutine's runner has stepped, or after a goroutine has been
collected whose runner returned nil, are among those left before. -/
theorem Inv.dyns_set {gs : List (Status × Inv E)} {i : Nat} {t : Inv E}
    {y : Status × Inv E} (hg : gs[i]? = some (Status.live, t))
    (hy : y.1 = Status.live → Among y.2.dyn t.dyn)
    (hn : y.1 ≠ Status.live → t.dyn.2 = true) :
    Among (Inv.dyn.dyns (gs.set i y)) (Inv.dyn.dyns gs) := by
  constructor
  · intro e he
    rw [Inv.dyns_err] at he ⊢
    obtain ⟨g, hgm, hl, hge⟩ := he
    rcases mem_set_cases hgm with rfl | hgm
    · exact ⟨_, List.mem_iff_getElem?.2 ⟨i, hg⟩, rfl, (hy hl).1 e hge⟩
    · exact ⟨g, hgm, hl, hge⟩
  · intro h
    rw [Inv.dyns_nil] at h ⊢
    intro g hgm hl
    by_cases hgt : g = (Status.live, t)
    · subst hgt
      by_cases hyl : y.1 = Status.live
      · exact (hy hyl).2 (h y (mem_set_self hg) hyl)
      · exact hn hyl
    · exact h g (mem_set_of_mem hgm hg hgt) hl

/-- What a body may return under a cancelled context it may return under a context that the
caller may cancel at any moment: the caller may cancel at once. -/
theorem Fn.cancel_dyn (k : Nat) : ∀ (fn : Fn E), fn.cost ≤ k → Among (fn.out true) fn.dyn := by
  induction k using Nat.strong_induction_on with
  | _ k ih =>
    intro fn hk
    cases fn with
    | ret x => exact Among.refl _
    | add k2 =>
      simp only [Fn.cost] at hk
      exact ih k2.cost (by omega) k2 (Nat.le_refl _)
    | load m hit miss => exact Among.refl _
    | done k2 =>
      simp only [Fn.out, Fn.dyn, if_true]
      exact Among.refl _
    | poll can live =>
      simp only [Fn.out, Fn.dyn, if_true]
      exact ⟨fun e he => by simp [either, he], fun h => by simp [either, h]⟩
    | fan rs =>
      simp only [Fn.cost] at hk
      simp only [Fn.out, Fn.dyn]
      constructor
      · intro e he
        rw [Fn.fan_err] at he
        rw [Fn.fan_dyn_err]
        obtain ⟨r, hr, he⟩ := he
        have := Fn.cost_mem hr
        exact ⟨r, hr, (ih r.cost (by omega) r (Nat.le_refl _)).1 e he⟩
      · intro h
        rw [Fn.fan_nil] at h
        rw [Fn.fan_dyn_nil]
        intro r hr
        have := Fn.cost_mem hr
        exact (ih r.cost (by omega) r (Nat.le_refl _)).2 (h r hr)

theorem Fn.outs_dyns (rs : List (Fn E)) : Among (Fn.out.outs true rs) (Fn.dyn.dyns rs) := by
  constructor
  · intro e he
    rw [Fn.fan_err] at he
    rw [Fn.fan_dyn_err]
    obtain ⟨r, hr, he⟩ := he
    exact ⟨r, hr, (Fn.cancel_dyn r.cost r (Nat.le_refl _)).1 e he⟩
  · intro h
    rw [Fn.fan_nil] at h
    rw [Fn.fan_dyn_nil]
    intro r hr
    exact (Fn.cancel_dyn r.cost r (Nat.le_refl _)).2 (h r hr)

/-- What is left to an invocation under a cancelled context is left to it under a context that
the caller may cancel at any moment. -/
theorem Inv.out_dyn (k : Nat) : ∀ (t : Inv E), t.cost ≤ k → Among (t.out true) t.dyn := by
  induction k using Nat.strong_induction_on with
  | _ k ih =>
    intro t hk
    cases t with
    | call fn => exact Fn.cancel_dyn fn.cost fn (Nat.le_refl _)
    | join f gs =>
      cases hF : (f.once || f.returned) with
      | true =>
        rw [Inv.out_settled _ true hF, Inv.dyn_settled _ hF]
        exact Among.refl _
      | false =>
        simp only [Bool.or_eq_false_iff] at hF
        rw [Inv.out_open _ true hF.1 hF.2, Inv.dyn_open _ hF.1 hF.2]
        apply both_mono (Fn.outs_dyns _)
        have hsub : ∀ g ∈ gs, g.1 = Status.live → Among (g.2.out true) g.2.dyn := by
          intro g hg hl
          obtain ⟨i, hi⟩ := List.mem_iff_getElem?.1 hg
          obtain ⟨st, t⟩ := g
          simp only at hl
          subst hl
          have h1 := Inv.costs_get hi
          simp only [Inv.cost] at hk
          exact ih t.cost (by omega) t (Nat.le_refl _)
        constructor
        · intro e he
          rw [Inv.outs_err] at he
          rw [Inv.dyns_err]
          obtain ⟨g, hg, hl, he⟩ := he
          exact ⟨g, hg, hl, (hsub g hg hl).1 e he⟩
        · intro h
          rw [Inv.outs_nil] at h
          rw [Inv.dyns_nil]
          intro g hg hl
          exact (hsub g hg hl).2 (h g hg hl)

/-- While the context is not cancelled, no step of an invocation that does not read the shared
counter adds an outcome to those left under a context that may be cancelled at any moment. -/
theorem Inv.step_dyn {p : List Nat} {n n2 : Nat} {t t2 : Inv E}
    (h : t.step p false n = some (n2, t2)) (hw : t.wf = true) (hp : t.pure = true) :
    Among t2.dyn t.dyn := by
  induction p generalizing n n2 t t2 with
  | nil =>
    cases t with
    | call fn =>
      cases fn with
      | ret x => simp [Inv.step, Inv.self] at h
      | add k =>
        simp only [Inv.step, Inv.self, Option.some.injEq, Prod.mk.injEq] at h
        rw [← h.2]
        exact Among.refl _
      | load m hit miss => simp [Inv.pure, Fn.pure] at hp
      | done k => simp [Inv.step, Inv.self] at h
      | poll can live =>
        simp only [Inv.step, Inv.self, Option.some.injEq, Prod.mk.injEq] at h
        rw [← h.2]
        simp only [Inv.dyn, Fn.dyn, Bool.false_eq_true, if_false]
        exact ⟨fun e he => by simp [either, he], fun hh => by simp [either, hh]⟩
      | fan rs =>
        simp only [Inv.step, Inv.self, Option.some.injEq, Prod.mk.injEq] at h
        rw [← h.2, Inv.dyn_open [] rfl rfl]
        simp only [Inv.dyn, Fn.dyn, Frame.init, Inv.dyn.dyns]
        constructor
        · intro e he
          simpa [both] using he
        · intro hh
          simpa [both] using hh
    | join f gs =>
      obtain ⟨h1, h2, h3, h4⟩ := (Inv.wf_join f gs).1 hw
      rcases Inv.step_join h with ⟨r, rest, _, ht, _, rfl⟩ | ⟨_, ht, hr, hall, _, rfl⟩ |
        ⟨i, t, rerr, hq, _⟩ | ⟨i, q, t, t1, hq, _⟩
      · cases hF : (f.once || f.returned) with
        | true =>
          rw [Inv.dyn_settled _ hF, Inv.dyn_settled _ (by simpa using hF)]
          exact Among.refl _
        | false =>
          simp only [Bool.or_eq_false_iff] at hF
          rw [Inv.dyn_open _ hF.1 hF.2, Inv.dyn_open _ (by exact hF.1) (by exact hF.2)]
          simp only [ht]
          apply among_both
          · intro e he
            rw [mem_both, Inv.dyns_err] at he
            rw [Fn.fan_dyn_err, Inv.dyns_err]
            rcases he with he | ⟨g, hgm, hl, hge⟩
            · rw [Fn.fan_dyn_err] at he
              obtain ⟨r2, hr2, he2⟩ := he
              exact Or.inl ⟨r2, List.mem_cons_of_mem _ hr2, he2⟩
            · rcases List.mem_append.1 hgm with hgm | hgm
              · exact Or.inr ⟨g, hgm, hl, hge⟩
              · rw [List.mem_singleton] at hgm
                subst hgm
                exact Or.inl ⟨r, List.mem_cons_self _ _, hge⟩
          · intro hh
            rw [nil_both, Fn.fan_dyn_nil, Inv.dyns_nil] at hh
            rw [Fn.fan_dyn_nil, Inv.dyns_nil]
            constructor
            · intro r2 hr2
              rcases List.mem_cons.1 hr2 with rfl | hr2
              · exact hh.2 (Status.live, .call r2) (by simp) rfl
              · exact hh.1 r2 hr2
            · intro g hgm hl
              exact hh.2 g (List.mem_append_left _ hgm) hl
      · rw [Inv.dyn_settled _ (by simp [Frame.leave])]
        cases ho : f.once with
        | true =>
          rw [Inv.dyn_settled _ (by simp [ho])]
          exact Among.refl _
        | false =>
          have he : f.err = none := by
            rw [ho] at h1
            cases hfe : f.err
            · rfl
            · rw [hfe] at h1
              cases h1
          rw [Inv.dyn_open _ ho hr]
          simp only [Frame.leave, he, ht]
          apply among_both
          · intro e hee
            simp at hee
          · intro _
            refine ⟨rfl, ?_⟩
            rw [Inv.dyns_nil]
            intro g hgm hl
            exact absurd hl (hall g hgm)
      · cases hq
      · cases hq
  | cons i q ih =>
    cases t with
    | call fn => simp [Inv.step] at h
    | join f gs =>
      obtain ⟨h1, h2, h3, h4⟩ := (Inv.wf_join f gs).1 hw
      obtain ⟨hp1, hp2⟩ := (Inv.pure_join f gs).1 hp
      rcases Inv.step_join h with ⟨r, rest, hq, _⟩ | ⟨hq, _⟩ |
        ⟨j, t, rerr, hq, hg, hres, _, rfl⟩ | ⟨j, q2, t, t1, hq, hg, hst, rfl⟩
      · cases hq
      · cases hq
      · have hr := live_not_returned hw hg
        have hto := Inv.dyn_returned hres
        cases ho : f.once with
        | true =>
          have hsame : ∀ y, (Inv.join f (gs.set j y)).dyn = (Inv.join f gs).dyn := by
            intro y
            rw [Inv.dyn_settled _ (by simp [ho]), Inv.dyn_settled _ (by simp [ho])]
          cases rerr with
          | none =>
            simp only [Inv.collect]
            rw [hsame]
            exact Among.refl _
          | some e =>
            simp only [Inv.collect, ho, if_true]
            rw [hsame]
            exact Among.refl _
        | false =>
          cases rerr with
          | none =>
            simp only [Inv.collect]
            rw [Inv.dyn_open _ ho hr, Inv.dyn_open _ ho hr]
            have := Inv.dyns_set (y := (Status.clean, t)) hg (by simp)
              (by intro _; rw [hto]; rfl)
            exact among_both (fun e he => by
                rw [mem_both] at he
                rcases he with he | he
                · exact Or.inl he
                · exact Or.inr (this.1 e he))
              (fun hh => by
                rw [nil_both] at hh
                exact ⟨hh.1, this.2 hh.2⟩)
          | some e =>
            simp only [Inv.collect, ho, Bool.false_eq_true, if_false]
            rw [Inv.dyn_settled _ (by simp [Frame.latch]), Inv.dyn_open _ ho hr]
            apply among_both
            · intro e2 he2
              simp only [Frame.latch, Option.toList, List.mem_singleton] at he2
              subst he2
              right
              rw [Inv.dyns_err]
              exact ⟨_, List.mem_iff_getElem?.2 ⟨j, hg⟩, rfl, by rw [hto]; simp⟩
            · intro hh
              simp [Frame.latch] at hh
      · cases hq
        have hr := live_not_returned hw hg
        cases ho : f.once with
        | true =>
          rw [Inv.dyn_settled _ (by simp [ho]), Inv.dyn_settled _ (by simp [ho])]
          exact Among.refl _
        | false =>
          have hcan : f.cancelled = false := by rw [h2, ho, hr]; rfl
          rw [hcan, Bool.or_false] at hst
          have hgm : (Status.live, t) ∈ gs := List.mem_iff_getElem?.2 ⟨i, hg⟩
          have hi := ih hst (h4 _ hgm) (hp2 _ hgm)
          rw [Inv.dyn_open _ ho hr, Inv.dyn_open _ ho hr]
          have := Inv.dyns_set (y := (Status.live, t1)) hg (fun _ => hi)
            (by intro hne; exact absurd rfl hne)
          exact among_both (fun e he => by
              rw [mem_both] at he
              rcases he with he | he
              · exact Or.inl he
              · exact Or.inr (this.1 e he))
            (fun hh => by
              rw [nil_both] at hh
              exact ⟨hh.1, this.2 hh.2⟩)

/-- What an invocation of a body that does not read the shared counter returns, whenever the
caller cancels the context, is one of the outcomes of the body. -/
theorem Fn.exec_may {fn : Fn E} (hp : fn.pure = true) {c : Bool} {n : Nat}
    {sched : List Move} {s : Conf E} {res : Option E}
    (h : exec sched ⟨c, n, .call fn⟩ = some s) (hres : s.inv.result = some res) :
    May (fn.outcomes c) res := by
  have hP : s.inv.wf = true ∧ s.inv.pure = true ∧
      Among (if s.cancelled then s.inv.out true else s.inv.dyn) (fn.outcomes c) := by
    refine exec_keeps (P := fun s : Conf E => s.inv.wf = true ∧ s.inv.pure = true ∧
      Among (if s.cancelled then s.inv.out true else s.inv.dyn) (fn.outcomes c)) ?_ sched _ s
      ?_ h
    · intro s1 m s2 ⟨hw, hpu, ha⟩ hm
      cases m with
      | none =>
        rw [Conf.move_cancel hm]
        refine ⟨hw, hpu, ?_⟩
        simp only [if_true]
        cases hc : s1.cancelled with
        | true => simpa [hc] using ha
        | false =>
          rw [hc] at ha
          exact (Inv.out_dyn s1.inv.cost s1.inv (Nat.le_refl _)).trans (by simpa using ha)
      | some p =>
        obtain ⟨hc, hs⟩ := Conf.move_step hm
        refine ⟨Inv.step_wf hs hw, Inv.step_pure hs hpu, ?_⟩
        rw [hc]
        cases hc1 : s1.cancelled with
        | true =>
          rw [hc1] at hs ha
          simp only [if_true] at ha ⊢
          exact (Inv.step_out hs hw hpu).trans ha
        | false =>
          rw [hc1] at hs ha
          simp only [Bool.false_eq_true, if_false] at ha ⊢
          exact (Inv.step_dyn hs hw hpu).trans ha
    · refine ⟨rfl, hp, ?_⟩
      cases c with
      | true => exact Among.refl _
      | false => exact Among.refl _
  obtain ⟨-, -, ha⟩ := hP
  have hx : Among (res.toList, res.isNone) (fn.outcomes c) := by
    cases hc : s.cancelled with
    | true =>
      rw [hc] at ha
      simp only [if_true] at ha
      rw [Inv.out_returned hres true] at ha
      exact ha
    | false =>
      rw [hc] at ha
      simp only [Bool.false_eq_true, if_false] at ha
      rw [Inv.dyn_returned hres] at ha
      exact ha
  cases res with
  | none => exact hx.2 rfl
  | some e => exact hx.1 e (by simp)

theorem Inv.run_wf {ps : List (List Nat)} {c : Bool} {n n2 : Nat} {t t2 : Inv E}
    (h : Inv.run ps c n t = some (n2, t2)) (hw : t.wf = true) : t2.wf = true := by
  induction ps generalizing n t with
  | nil =>
    simp only [Inv.run, Option.some.injEq, Prod.mk.injEq] at h
    rw [← h.2]
    exact hw
  | cons p ps ih =>
    simp only [Inv.run] at h
    cases hs : t.step p c n with
    | none => simp [hs] at h
    | some r =>
      obtain ⟨r1, r2⟩ := r
      rw [hs] at h
      exact ih h (Inv.step_wf hs hw)

theorem set_mid {α : Type} (pre rest : List α) (x y : α) :
    (pre ++ x :: rest).set pre.length y = pre ++ y :: rest := by
  induction pre with
  | nil => rfl
  | cons a l ih => simp only [List.cons_append, List.length_cons, List.set_cons_succ, ih]

theorem get?_mid {α : Type} (pre rest : List α) (x : α) :
    (pre ++ x :: rest)[pre.length]? = some x := by
  rw [List.getElem?_append_right (Nat.le_refl _)]
  simp

/-- The loop starts the runners one after the other, and each is run, before the next is
started, as far as one of its executions goes. -/
theorem Inv.run_each {c : Bool} (Q : Inv E → Prop) : ∀ (todo : List (Fn E)) (f : Frame E)
    (gs : List (Status × Inv E)) (n : Nat), f.todo = todo → f.cancelled = false →
    (∀ r ∈ todo, ∀ n, ∃ (ps : List (List Nat)) (n1 : Nat) (t1 : Inv E),
      Inv.run ps c n (.call r) = some (n1, t1) ∧ Q t1) →
    ∃ (ps : List (List Nat)) (n2 : Nat) (gs2 : List (Status × Inv E)),
      Inv.run ps c n (.join f gs) = some (n2, .join { f with todo := [] } (gs ++ gs2)) ∧
      ∀ g ∈ gs2, g.1 = Status.live ∧ Q g.2 := by
  intro todo
  induction todo with
  | nil =>
    intro f gs n h _ _
    exact ⟨[], n, [], by simp only [Inv.run, ← h, List.append_nil], by simp⟩
  | cons r rest ih =>
    intro f gs n h hcan hrun
    obtain ⟨psr, n1, t1, hr1, hq1⟩ := hrun r (List.mem_cons_self _ _) n
    have hlift := Inv.run_lift (c := c) (f := { f with todo := rest }) (i := gs.length) psr n
      (.call r) (gs ++ [(Status.live, .call r)]) n1 t1 rfl (get?_snoc_last _ _)
      (by simpa [hcan] using hr1)
    rw [set_snoc_last] at hlift
    obtain ⟨ps2, n2, gs2, h2, hall2⟩ := ih { f with todo := rest }
      (gs ++ [(Status.live, t1)]) n1 rfl hcan
      (fun r2 hr2 => hrun r2 (List.mem_cons_of_mem _ hr2))
    refine ⟨[] :: (psr.map (List.cons gs.length) ++ ps2), n2, (Status.live, t1) :: gs2, ?_, ?_⟩
    · simp only [Inv.run, Inv.step_spawn h, Option.some_bind]
      rw [run_append, hlift]
      simp only [Option.some_bind]
      rw [h2]
      simp
    · intro g hg
      rcases List.mem_cons.1 hg with rfl | hg
      · exact ⟨rfl, hq1⟩
      · exact hall2 g hg

/-- After the loop, under a cancelled context, goroutines whose runners can each be run on to
the return of nil are run on and collected one after the other, and the closure returns. -/
theorem Inv.end_all_nil : ∀ (rest pre : List (Status × Inv E)) (f : Frame E) (n : Nat),
    f.todo = [] → f.returned = false → (∀ g ∈ pre, g.1 ≠ Status.live) →
    (∀ g ∈ rest, g.1 = Status.live ∧ g.2.wf = true ∧
      ∀ m, ∃ (ps : List (List Nat)) (m2 : Nat) (t2 : Inv E),
        Inv.run ps true m g.2 = some (m2, t2) ∧ t2.result = some none) →
    ∃ (ps : List (List Nat)) (n2 : Nat) (gs2 : List (Status × Inv E)),
      Inv.run ps true n (.join f (pre ++ rest)) = some (n2, .join (f.leave true) gs2) := by
  intro rest
  induction rest with
  | nil =>
    intro pre f n htodo hret hpre _
    refine ⟨[[]], n, pre, ?_⟩
    simp only [List.append_nil, Inv.run, Inv.step_leave htodo hret hpre, Option.some_bind]
  | cons g rest ih =>
    intro pre f n htodo hret hpre hrest
    obtain ⟨st, t⟩ := g
    obtain ⟨hl, hw, hrun⟩ := hrest (st, t) (List.mem_cons_self _ _)
    simp only at hl hw hrun
    subst hl
    obtain ⟨psr, n1, t1, hr1, hres1⟩ := hrun n
    have hlift := Inv.run_lift (c := true) (f := f) (i := pre.length) psr n t
      (pre ++ (Status.live, t) :: rest) n1 t1 hw (get?_mid _ _ _) (by simpa using hr1)
    rw [set_mid] at hlift
    have hcol : (Inv.join f (pre ++ (Status.live, t1) :: rest)).step [pre.length] true n1
        = some (n1, .join f ((pre ++ [(Status.clean, t1)]) ++ rest)) := by
      rw [Inv.step_collect (get?_mid _ _ _) hres1]
      simp only [Inv.collect, set_mid, List.append_assoc, List.singleton_append]
    obtain ⟨ps2, n2, gs2, h2⟩ := ih (pre ++ [(Status.clean, t1)]) f n1 htodo hret
      (by
        intro g hg
        rcases List.mem_append.1 hg with hg | hg
        · exact hpre g hg
        · rw [List.mem_singleton] at hg
          subst hg
          simp)
      (fun g hg => hrest g (List.mem_cons_of_mem _ hg))
    refine ⟨psr.map (List.cons pre.length) ++ ([pre.length] :: ps2), n2, gs2, ?_⟩
    rw [run_append, hlift]
    simp only [Option.some_bind]
    rw [run_cons, hcol]
    simp only [Option.some_bind]
    exact h2

theorem may_either {a b : List E × Bool} {v : Option E} (h : May (either a b) v) :
    May a v ∨ May b v := by
  cases v with
  | none => simpa [May, either] using h
  | some e => simpa [May, either] using h

/-- Every outcome of a body under a context that the caller may cancel at any moment is
returned by some execution of it: steps under the context not yet cancelled up to some state,
and from there, whatever the counter is at, steps under the cancelled context. -/
theorem Fn.dyn_returns (k : Nat) : ∀ (fn : Fn E), fn.cost ≤ k →
    ∀ (v : Option E), May fn.dyn v → ∀ (n : Nat),
    ∃ (ps : List (List Nat)) (n1 : Nat) (t1 : Inv E),
      Inv.run ps false n (.call fn) = some (n1, t1) ∧ t1.wf = true ∧
      ∀ m, ∃ (ps2 : List (List Nat)) (m2 : Nat) (t2 : Inv E),
        Inv.run ps2 true m t1 = some (m2, t2) ∧ t2.result = some v := by
  induction k using Nat.strong_induction_on with
  | _ k ih =>
    intro fn hk v hv n
    cases fn with
    | ret x =>
      refine ⟨[], n, .call (.ret x), rfl, rfl, fun m => ⟨[], m, .call (.ret x), rfl, ?_⟩⟩
      cases v with
      | none =>
        cases x with
        | none => rfl
        | some y => simp [May, Fn.dyn] at hv
      | some e =>
        cases x with
        | none => simp [May, Fn.dyn] at hv
        | some y =>
          simp only [May, Fn.dyn, Option.toList, List.mem_singleton] at hv
          rw [hv]
          rfl
    | add k2 =>
      simp only [Fn.cost] at hk
      obtain ⟨ps, n1, t1, h1, hw, h2⟩ :=
        ih k2.cost (by omega) k2 (Nat.le_refl _) v hv ((n + 1) % 2 ^ 32)
      exact ⟨[] :: ps, n1, t1, by simp only [Inv.run, Inv.step, Inv.self, Option.some_bind, h1],
        hw, h2⟩
    | load m hit miss =>
      cases v <;> simp [May, Fn.dyn] at hv
    | done k2 =>
      refine ⟨[], n, .call (.done k2), rfl, rfl, ?_⟩
      intro m
      obtain ⟨ps, m2, t2, h1, h2⟩ := Fn.may_returns true k2.cost k2 (Nat.le_refl _) v hv m
      exact ⟨[] :: ps, m2, t2,
        by simp only [Inv.run, Inv.step, Inv.self, if_true, Option.some_bind, h1], h2⟩
    | poll can live =>
      simp only [Fn.cost] at hk
      rcases may_either (show May (either (can.out true) live.dyn) v from hv) with hv | hv
      · refine ⟨[], n, .call (.poll can live), rfl, rfl, ?_⟩
        intro m
        obtain ⟨ps, m2, t2, h1, h2⟩ := Fn.may_returns true can.cost can (Nat.le_refl _) v hv m
        exact ⟨[] :: ps, m2, t2,
          by simp only [Inv.run, Inv.step, Inv.self, if_true, Option.some_bind, h1], h2⟩
      · obtain ⟨ps, n1, t1, h1, hw, h2⟩ := ih live.cost (by omega) live (Nat.le_refl _) v hv n
        exact ⟨[] :: ps, n1, t1, by
          simp only [Inv.run, Inv.step, Inv.self, Bool.false_eq_true, if_false,
            Option.some_bind, h1], hw, h2⟩
    | fan rs =>
      simp only [Fn.cost] at hk
      have hsub : ∀ r ∈ rs, ∀ (v : Option E), May r.dyn v → ∀ (n : Nat),
          ∃ (ps : List (List Nat)) (n1 : Nat) (t1 : Inv E),
            Inv.run ps false n (.call r) = some (n1, t1) ∧ t1.wf = true ∧
            ∀ m, ∃ (ps2 : List (List Nat)) (m2 : Nat) (t2 : Inv E),
              Inv.run ps2 true m t1 = some (m2, t2) ∧ t2.result = some v := by
        intro r hr
        have := Fn.cost_mem hr
        exact ih r.cost (by omega) r (Nat.le_refl _)
      have hd : ∀ n, (Inv.call (Fn.fan rs)).step [] false n
          = some (n, .join (Frame.init rs) []) := fun _ => rfl
      cases v with
      | none =>
        have hnil : ∀ r ∈ rs, r.dyn.2 = true := (Fn.fan_dyn_nil rs).1 hv
        obtain ⟨ps, n2, gs2, h1, hall⟩ := Inv.run_each (c := false)
          (fun t1 => t1.wf = true ∧ ∀ m, ∃ (ps2 : List (List Nat)) (m2 : Nat) (t2 : Inv E),
              Inv.run ps2 true m t1 = some (m2, t2) ∧ t2.result = some none)
          rs (Frame.init rs) [] n rfl rfl
          (fun r hr n => hsub r hr none (hnil r hr) n)
        simp only [List.nil_append] at h1
        have hrun : Inv.run ([] :: ps) false n (.call (.fan rs))
            = some (n2, .join { Frame.init rs with todo := [] } gs2) := by
          rw [run_cons, hd]
          exact h1
        refine ⟨[] :: ps, n2, _, hrun, Inv.run_wf hrun rfl, ?_⟩
        intro m
        obtain ⟨ps3, m2, gs3, h3⟩ := Inv.end_all_nil gs2 [] { Frame.init rs with todo := [] } m
          rfl rfl (by simp) (fun g hg => ⟨(hall g hg).1, (hall g hg).2.1, (hall g hg).2.2⟩)
        exact ⟨ps3, m2, .join (Frame.leave true { Frame.init rs with todo := [] }) gs3,
          by simpa using h3, rfl⟩
      | some e =>
        obtain ⟨r, hr, he⟩ := (Fn.fan_dyn_err rs e).1 hv
        obtain ⟨pre, post, rfl⟩ := List.append_of_mem hr
        obtain ⟨psr, n1, t1, hr1, hw1, hend1⟩ := hsub r hr (some e) he n
        -- the loop starts the runners up to `r`
        have hsp : Inv.run (List.replicate (pre.length + 1) []) false n
            (.join (Frame.init (pre ++ r :: post)) [])
            = some (n, .join ⟨post, false, none, false, 0, 0, 0, false⟩
                (pre.map (fun r => (Status.live, Inv.call r)) ++ [(Status.live, Inv.call r)]))
            := by
          have := Inv.spawn_some false n (pre ++ [r]) post (Frame.init (pre ++ r :: post)) []
            (by simp [Frame.init])
          simpa [Frame.init] using this
        -- `r` runs as far as it gets before the cancellation
        have hg : (pre.map (fun r => (Status.live, Inv.call r))
            ++ [(Status.live, Inv.call r)])[pre.length]? = some (Status.live, Inv.call r) := by
          simp
        have hlift := Inv.run_lift (c := false)
          (f := ⟨post, false, none, false, 0, 0, 0, false⟩) (i := pre.length) psr n
          (.call r) _ n1 t1 rfl hg (by simp [hr1])
        have hrun : Inv.run ([] :: (List.replicate (pre.length + 1) [] ++
            psr.map (List.cons pre.length))) false n (.call (.fan (pre ++ r :: post)))
            = some (n1, .join ⟨post, false, none, false, 0, 0, 0, false⟩
              ((pre.map (fun r => (Status.live, Inv.call r))
                ++ [(Status.live, Inv.call r)]).set pre.length (Status.live, t1))) := by
          rw [run_cons, hd]
          simp only [Option.some_bind]
          rw [run_append, hsp]
          simp only [Option.some_bind]
          exact hlift
        refine ⟨_, n1, _, hrun, Inv.run_wf hrun rfl, ?_⟩
        intro m
        obtain ⟨ps2, m2, t2, hr2, hres2⟩ := hend1 m
        -- after the cancellation `r` runs to its return
        have hlift2 := Inv.run_lift (c := true)
          (f := ⟨post, false, none, false, 0, 0, 0, false⟩) (i := pre.length) ps2 m
          t1 _ m2 t2 hw1 (get?_set_same hg) (by simpa using hr2)
        rw [List.set_set] at hlift2
        -- it gets through the gate
        have hcol : (Inv.join (⟨post, false, none, false, 0, 0, 0, false⟩ : Frame E)
            ((pre.map (fun r => (Status.live, Inv.call r))
              ++ [(Status.live, Inv.call r)]).set pre.length (Status.live, t2))).step
              [pre.length] true m2
            = some (m2, .join (Frame.latch true ⟨post, false, none, false, 0, 0, 0, false⟩ e)
                (((pre.map (fun r => (Status.live, Inv.call r))
                  ++ [(Status.live, Inv.call r)]).set pre.length (Status.live, t2)).set
                  pre.length (Status.latched, t2))) := by
          rw [Inv.step_collect (get?_set_same hg) hres2]
          rfl
        -- nothing can block any more
        obtain ⟨ps3, n3, t3, res, h3, hres3⟩ := Inv.completes _
          (.join (Frame.latch true ⟨post, false, none, false, 0, 0, 0, false⟩ e)
            (((pre.map (fun r => (Status.live, Inv.call r))
              ++ [(Status.live, Inv.call r)]).set pre.length (Status.live, t2)).set
              pre.length (Status.latched, t2))) true m2 (Nat.le_refl _) (Or.inl rfl)
        obtain ⟨f4, gs4, rfl, -, he4⟩ := Inv.run_latched ps3 _ _ _ _ _ h3 rfl rfl
        have hres4 : res = some e := by
          simp only [Inv.result] at hres3
          split at hres3
          · rw [he4] at hres3
            exact (Option.some.inj hres3).symm
          · cases hres3
        subst hres4
        refine ⟨ps2.map (List.cons pre.length) ++ ([pre.length] :: ps3), n3, _, ?_, hres3⟩
        rw [run_append, hlift2]
        simp only [Option.some_bind]
        rw [run_cons, hcol]
        simp only [Option.some_bind]
        exact h3

/-- Every outcome of a body is returned by some execution of it in which the caller cancels
the context at some moment or never. -/
theorem Fn.may_exec (fn : Fn E) (c : Bool) (n : Nat) (v : Option E)
    (hv : May (fn.outcomes c) v) :
    ∃ (sched : List Move) (s : Conf E),
      exec sched ⟨c, n, .call fn⟩ = some s ∧ s.inv.result = some v := by
  cases c with
  | true =>
    obtain ⟨ps, n2, t2, h1, h2⟩ := Fn.may_returns true fn.cost fn (Nat.le_refl _) v hv n
    exact ⟨ps.map some, _, exec_run h1, h2⟩
  | false =>
    obtain ⟨ps, n1, t1, h1, -, hend⟩ := Fn.dyn_returns fn.cost fn (Nat.le_refl _) v hv n
    obtain ⟨ps2, m2, t2, h2, hres⟩ := hend n1
    refine ⟨ps.map some ++ none :: ps2.map some, ⟨true, m2, t2⟩, ?_, hres⟩
    rw [exec_append, exec_run h1]
    simp only [Option.some_bind, exec, Conf.move]
    exact exec_run h2

/-- The values a runner that does not read the shared counter can return, over all schedules
and all moments at which the caller may cancel the context, are exactly the outcomes of its
body. -/
theorem pure_returns_any_iff {r : Runner E} (hp : r.fn.pure = true) (c : Bool) (n : Nat)
    (res : Option E) :
    (∃ sched : List Move, r.returns c n sched = some res) ↔ May (r.fn.outcomes c) res := by
  constructor
  · rintro ⟨sched, h⟩
    simp only [Runner.returns, Runner.start, Runner.Run, Option.bind_eq_some] at h
    obtain ⟨s, hs, hres⟩ := h
    exact Fn.exec_may hp hs hres
  · intro h
    obtain ⟨sched, s, h1, h2⟩ := Fn.may_exec r.fn c n res h
    refine ⟨sched, ?_⟩
    simp only [Runner.returns, Runner.start, Runner.Run, h1, Option.some_bind]
    exact h2

/-- A cancellation of the caller's context after the invocation has returned changes nothing:
what is returned under a schedule is returned under the schedule followed by the cancellation. -/
theorem returns_cancel_last {r : Runner E} {c : Bool} {n : Nat} {sched : List Move}
    {res : Option E} (h : r.returns c n sched = some res) :
    r.returns c n (sched ++ [none]) = some res := by
  simp only [Runner.returns, Option.bind_eq_some] at h ⊢
  obtain ⟨s, hs, hres⟩ := h
  refine ⟨{ s with cancelled := true }, ?_, hres⟩
  rw [exec_append, hs]
  rfl

/-- The values returned over the schedules in which the caller cancels the context are the
values returned over all schedules. -/
theorem returns_cancelled_iff (r : Runner E) (c : Bool) (n : Nat) (res : Option E) :
    (∃ sched : List Move, none ∈ sched ∧ r.returns c n sched = some res) ↔
      (∃ sched : List Move, r.returns c n sched = some res) := by
  constructor
  · rintro ⟨sched, -, h⟩
    exact ⟨sched, h⟩
  · rintro ⟨sched, h⟩
    exact ⟨sched ++ [none], by simp, returns_cancel_last h⟩

/-! ## Nested and flat `Join` -/

/-- C7 amended: for runners `a`, `b`, `d` none of which reads the shared counter, and every
context, `Join(Join(a, b), d)` and `Join(a, b, d)` can return the same values: over all
schedules in which the caller cancels the context at any moment or never (from a context that
is cancelled or not when the invocation starts), over the schedules in which the caller does
cancel it, and over all schedules under a context whose state does not change; and in every
context and for all runners, when either has returned, `a`, `b` and `d` have each been run by
one goroutine and have returned. -/
theorem Join_nested_flat_same_for_pure (a b d : Runner E) (c : Bool) (n : Nat) :
    (a.fn.pure = true → b.fn.pure = true → d.fn.pure = true → ∀ res : Option E,
      ((∃ sched : List Move, (Join [Join [a, b], d]).returns c n sched = some res) ↔
        (∃ sched : List Move, (Join [a, b, d]).returns c n sched = some res)) ∧
      ((∃ sched : List Move, none ∈ sched ∧
          (Join [Join [a, b], d]).returns c n sched = some res) ↔
        (∃ sched : List Move, none ∈ sched ∧ (Join [a, b, d]).returns c n sched = some res)) ∧
      ((∃ ps : List (List Nat), (Join [Join [a, b], d]).returns c n (ps.map some) = some res) ↔
        (∃ ps : List (List Nat), (Join [a, b, d]).returns c n (ps.map some) = some res))) ∧
    (∀ (sched : List Move) (s : Conf E) (res : Option E),
      exec sched ((Join [Join [a, b], d]).start c n) = some s → s.inv.result = some res →
      ∃ (f f2 : Frame E) (st : Status) (ga gb gd : Status × Inv E),
        s.inv = .join f [(st, .join f2 [ga, gb]), gd] ∧ f2.returned = true ∧
        Inv.Runs a.Run ga.2 ∧ Inv.Runs b.Run gb.2 ∧ Inv.Runs d.Run gd.2 ∧
        (∃ x, ga.2.result = some x) ∧ (∃ x, gb.2.result = some x) ∧
        (∃ x, gd.2.result = some x)) ∧
    (∀ (sched : List Move) (s : Conf E) (res : Option E),
      exec sched ((Join [a, b, d]).start c n) = some s → s.inv.result = some res →
      ∃ (f : Frame E) (ga gb gd : Status × Inv E), s.inv = .join f [ga, gb, gd] ∧
        Inv.Runs a.Run ga.2 ∧ Inv.Runs b.Run gb.2 ∧ Inv.Runs d.Run gd.2 ∧
        (∃ x, ga.2.result = some x) ∧ (∃ x, gb.2.result = some x) ∧
        (∃ x, gd.2.result = some x)) := by
  refine ⟨?_, ?_, ?_⟩
  · intro ha hb hd res
    have hab : (Join [a, b]).fn.pure = true :=
      Join_pure (by intro r hr; simp at hr; rcases hr with rfl | rfl <;> assumption)
    have h1 : (Join [Join [a, b], d]).fn.pure = true :=
      Join_pure (by intro r hr; simp at hr; rcases hr with rfl | rfl <;> assumption)
    have h2 : (Join [a, b, d]).fn.pure = true :=
      Join_pure (by intro r hr; simp at hr; rcases hr with rfl | rfl | rfl <;> assumption)
    have hany : (∃ sched : List Move, (Join [Join [a, b], d]).returns c n sched = some res) ↔
        (∃ sched : List Move, (Join [a, b, d]).returns c n sched = some res) := by
      rw [pure_returns_any_iff h1, pure_returns_any_iff h2]
      cases c with
      | true => exact May.flatten res
      | false => exact May.flatten res
    refine ⟨hany, ?_, ?_⟩
    · rw [returns_cancelled_iff, returns_cancelled_iff]
      exact hany
    · rw [pure_returns_iff h1, pure_returns_iff h2]
      exact May.flatten res
  · intro sched s res hex hres
    obtain ⟨f, gs, hinv, hS, hret, -, hlen⟩ := (Joined.exec (by simp) hex).returned hres
    obtain ⟨-, hdone⟩ := hS.returned_len hret
    match gs, hlen with
    | [g0, gd], _ =>
      have hr0 := hS.runs 0 g0 (.fan [a.fn, b.fn]) rfl rfl
      have hrd := hS.runs 1 gd d.fn rfl rfl
      obtain ⟨x0, hx0⟩ := hdone g0 (by simp)
      obtain ⟨xd, hxd⟩ := hdone gd (by simp)
      rcases hr0.fan with h0 | ⟨f2, gs2, h0, hS2⟩
      · rw [h0] at hx0
        cases hx0
      · have hret2 : f2.returned = true := by
          rw [h0] at hx0
          simp only [Inv.result] at hx0
          split at hx0
          · assumption
          · cases hx0
        obtain ⟨hlen2, hdone2⟩ := hS2.returned_len hret2
        match gs2, hlen2 with
        | [ga, gb], _ =>
          have hra := hS2.runs 0 ga a.fn rfl rfl
          have hrb := hS2.runs 1 gb b.fn rfl rfl
          obtain ⟨st, t0⟩ := g0
          simp only at h0
          subst h0
          exact ⟨f, f2, st, ga, gb, gd, hinv, hret2, hra, hrb, hrd, hdone2 ga (by simp),
            hdone2 gb (by simp), xd, hxd⟩
  · intro sched s res hex hres
    obtain ⟨f, gs, hinv, hS, hret, -, hlen⟩ := (Joined.exec (by simp) hex).returned hres
    obtain ⟨-, hdone⟩ := hS.returned_len hret
    match gs, hlen with
    | [ga, gb, gd], _ =>
      exact ⟨f, ga, gb, gd, hinv, hS.runs 0 ga a.fn rfl rfl, hS.runs 1 gb b.fn rfl rfl,
        hS.runs 2 gd d.fn rfl rfl, hdone ga (by simp), hdone gb (by simp), hdone gd (by simp)⟩

/-- The states of the flat `Join` over `Err(1)`, a runner that waits for its context and then
does `count.Add(1)`, and a runner that returns the error 3 if `count.Load() >= 1`: while the
caller's context is not cancelled, the only error latched is 1, and before it is latched the
counter is at 0, the second runner is waiting and the third has not returned an error. -/
theorem flat_move (s : Conf Nat) (m : Move) (s2 : Conf Nat)
    (h : s.cancelled = false →
      (s.inv = .call (.fan [.ret (some 1), .done (.add (.ret none)),
          .load 1 (.ret (some 3)) (.ret none)]) ∧ s.count = 0) ∨
      ∃ f gs, s.inv = .join f gs ∧
        Sound false [.ret (some 1), .done (.add (.ret none)),
          .load 1 (.ret (some 3)) (.ret none)] f gs ∧
        (f.err = none ∨ f.err = some 1) ∧
        (f.once = false → s.count = 0 ∧
          (∀ g, gs[1]? = some g → g.2 = .call (.done (.add (.ret none)))) ∧
          (∀ g, gs[2]? = some g →
            g.2 = .call (.load 1 (.ret (some 3)) (.ret none)) ∨ g.2 = .call (.ret none))))
    (hm : s.move m = some s2) :
    s2.cancelled = false →
      (s2.inv = .call (.fan [.ret (some 1), .done (.add (.ret none)),
          .load 1 (.ret (some 3)) (.ret none)]) ∧ s2.count = 0) ∨
      ∃ f gs, s2.inv = .join f gs ∧
        Sound false [.ret (some 1), .done (.add (.ret none)),
          .load 1 (.ret (some 3)) (.ret none)] f gs ∧
        (f.err = none ∨ f.err = some 1) ∧
        (f.once = false → s2.count = 0 ∧
          (∀ g, gs[1]? = some g → g.2 = .call (.done (.add (.ret none)))) ∧
          (∀ g, gs[2]? = some g →
            g.2 = .call (.load 1 (.ret (some 3)) (.ret none)) ∨ g.2 = .call (.ret none))) := by
  intro hc2
  cases m with
  | none =>
    rw [Conf.move_cancel hm] at hc2
    cases hc2
  | some p =>
    obtain ⟨hc, hs⟩ := Conf.move_step hm
    rw [hc] at hc2
    rw [hc2] at hs
    rcases h hc2 with ⟨h1, h2⟩ | ⟨f, gs, h1, hS, herr, hK⟩
    · rw [h1] at hs
      obtain ⟨-, hs⟩ := Inv.step_call hs
      simp only [Inv.self, Option.some.injEq, Prod.mk.injEq] at hs
      right
      refine ⟨_, _, hs.2.symm, Sound.init _ _, Or.inl rfl, ?_⟩
      intro _
      exact ⟨by rw [← hs.1, h2], by simp, by simp⟩
    · rw [h1] at hs
      right
      obtain ⟨f2, gs2, h2, hS2⟩ := hS.step (fun h => h) hs
      refine ⟨f2, gs2, h2, hS2, ?_⟩
      rw [h2] at hs
      rcases Inv.step_join hs with ⟨r, rest, _, ht, hn, ht2⟩ | ⟨_, ht, hr, hall, hn, ht2⟩ |
        ⟨i, t, rerr, _, hg, hres, hn, ht2⟩ | ⟨i, q, t, t1, _, hg, hst, ht2⟩
      · cases ht2
        refine ⟨herr, ?_⟩
        intro ho
        obtain ⟨k1, k2, k3⟩ := hK ho
        have hd := (drop_cons_get? (hS.todo_eq ▸ ht)).1
        refine ⟨by rw [hn]; exact k1, ?_, ?_⟩
        · intro g hg
          rcases get?_snoc_cases hg with hg | ⟨hl, rfl⟩
          · exact k2 g hg
          · rw [← hl] at hd
            simp only [List.getElem?_cons_succ, List.getElem?_cons_zero,
              Option.some.injEq] at hd
            rw [← hd]
        · intro g hg
          rcases get?_snoc_cases hg with hg | ⟨hl, rfl⟩
          · exact k3 g hg
          · rw [← hl] at hd
            simp only [List.getElem?_cons_succ, List.getElem?_cons_zero,
              Option.some.injEq] at hd
            rw [← hd]
            exact Or.inl rfl
      · cases ht2
        refine ⟨herr, ?_⟩
        intro ho
        obtain ⟨k1, k2, k3⟩ := hK ho
        exact ⟨by rw [hn]; exact k1, k2, k3⟩
      · have hkeep : ∀ st : Status, f.once = false → s2.count = 0 ∧
            (∀ g, (gs.set i (st, t))[1]? = some g → g.2 = .call (.done (.add (.ret none)))) ∧
            (∀ g, (gs.set i (st, t))[2]? = some g →
              g.2 = .call (.load 1 (.ret (some 3)) (.ret none)) ∨ g.2 = .call (.ret none)) := by
          intro st ho
          obtain ⟨k1, k2, k3⟩ := hK ho
          refine ⟨by rw [hn]; exact k1, ?_, ?_⟩
          · intro g hgj
            rcases get?_set_cases hgj with ⟨rfl, rfl⟩ | ⟨_, hgj⟩
            · exact k2 (Status.live, t) hg
            · exact k2 g hgj
          · intro g hgj
            rcases get?_set_cases hgj with ⟨rfl, rfl⟩ | ⟨_, hgj⟩
            · exact k3 (Status.live, t) hg
            · exact k3 g hgj
        cases rerr with
        | none =>
          simp only [Inv.collect, Inv.join.injEq] at ht2
          obtain ⟨rfl, rfl⟩ := ht2
          exact ⟨herr, hkeep Status.clean⟩
        | some e =>
          cases ho : f.once with
          | true =>
            simp only [Inv.collect, ho, if_true, Inv.join.injEq] at ht2
            obtain ⟨rfl, rfl⟩ := ht2
            exact ⟨herr, hkeep Status.dropped⟩
          | false =>
            simp only [Inv.collect, ho, Bool.false_eq_true, if_false, Inv.join.injEq] at ht2
            obtain ⟨rfl, rfl⟩ := ht2
            obtain ⟨k1, k2, k3⟩ := hK ho
            refine ⟨?_, fun hh => by simp [Frame.latch] at hh⟩
            right
            have hlen := hS.len_le
            simp only [List.length_cons, List.length_nil] at hlen
            have hil : i < gs.length := by
              by_contra hcc
              rw [List.getElem?_eq_none (by omega)] at hg
              cases hg
            match i, hg, hil with
            | 0, hg, _ =>
              have := hS.of_ret (x := some 1) hg rfl
              simp only at this
              rw [this] at hres
              simp only [Inv.result, Option.some.injEq] at hres
              simp [Frame.latch, hres]
            | 1, hg, _ =>
              have := k2 _ hg
              simp only at this
              rw [this] at hres
              cases hres
            | 2, hg, _ =>
              rcases k3 _ hg with h3 | h3 <;>
              · simp only at h3
                rw [h3] at hres
                cases hres
            | (j + 3), _, hil => omega
      · cases ht2
        refine ⟨herr, ?_⟩
        intro ho
        obtain ⟨k1, k2, k3⟩ := hK ho
        have hret : f.returned = false := by
          cases hr : f.returned
          · rfl
          · exact absurd rfl ((hS.returned_all hr).2 _ (List.mem_iff_getElem?.2 ⟨i, hg⟩))
        have hcan : f.cancelled = false := by rw [hS.cancelled_eq, ho, hret]; rfl
        rw [hcan] at hst
        have hlen := hS.len_le
        simp only [List.length_cons, List.length_nil] at hlen
        have hil : i < gs.length := by
          by_contra hcc
          rw [List.getElem?_eq_none (by omega)] at hg
          cases hg
        match i, hg, hil with
        | 0, hg, _ =>
          have := hS.of_ret (x := some 1) hg rfl
          simp only at this
          rw [this, Inv.step_ret] at hst
          cases hst
        | 1, hg, _ =>
          have := k2 _ hg
          simp only at this
          rw [this] at hst
          obtain ⟨-, hst⟩ := Inv.step_call hst
          simp [Inv.self] at hst
        | 2, hg, _ =>
          rcases k3 _ hg with h3 | h3
          · simp only at h3
            rw [h3, k1] at hst
            obtain ⟨-, hst⟩ := Inv.step_call hst
            simp only [Inv.self, Nat.not_succ_le_zero, if_false, Option.some.injEq,
              Prod.mk.injEq] at hst
            refine ⟨by rw [← hst.1], ?_, ?_⟩
            · intro g hgj
              rw [get?_set_other (by decide)] at hgj
              exact k2 g hgj
            · intro g hgj
              rw [get?_set_same hg] at hgj
              cases hgj
              exact Or.inr hst.2.symm
          · simp only at h3
            rw [h3, Inv.step_ret] at hst
            cases hst
        | (j + 3), _, hil => omega

/-- The flat `Join` of `flat_move` never returns the error 3 under a context that is never
cancelled. -/
theorem flat_never_three (ps : List (List Nat)) (res : Option Nat)
    (h : (Join [Err (some 1), New (.done (.add (.ret none))),
      New (.load 1 (.ret (some 3)) (.ret none))]).returns false 0 (ps.map some) = some res) :
    res ≠ some 3 := by
  simp only [Runner.returns, Option.bind_eq_some] at h
  obtain ⟨s, hs, hres⟩ := h
  have hc : s.cancelled = false := by
    rw [Join_start (by simp)] at hs
    exact (run_exec hs).1
  have hK := exec_keeps
    (P := fun s : Conf Nat => s.cancelled = false →
      (s.inv = .call (.fan [.ret (some 1), .done (.add (.ret none)),
          .load 1 (.ret (some 3)) (.ret none)]) ∧ s.count = 0) ∨
      ∃ f gs, s.inv = .join f gs ∧
        Sound false [.ret (some 1), .done (.add (.ret none)),
          .load 1 (.ret (some 3)) (.ret none)] f gs ∧
        (f.err = none ∨ f.err = some 1) ∧
        (f.once = false → s.count = 0 ∧
          (∀ g, gs[1]? = some g → g.2 = .call (.done (.add (.ret none)))) ∧
          (∀ g, gs[2]? = some g →
            g.2 = .call (.load 1 (.ret (some 3)) (.ret none)) ∨ g.2 = .call (.ret none))))
    flat_move (ps.map some) _ s (fun _ => Or.inl ⟨rfl, rfl⟩) hs hc
  rcases hK with ⟨h1, -⟩ | ⟨f, gs, h1, -, herr, -⟩
  · rw [h1] at hres
    cases hres
  · rw [h1] at hres
    simp only [Inv.result] at hres
    split at hres
    · simp only [Option.some.injEq] at hres
      rw [← hres]
      rcases herr with h | h <;> rw [h] <;> simp
    · cases hres

/-- C7 as stated fails: with `a = Err(1)`, `b` a runner that waits for its context and then
does `count.Add(1)`, and `d` a runner that returns the error 3 if `count.Load() >= 1`, under a
context that is never cancelled, `Join(Join(a, b), d)` can return 3 (the inner `Join` cancels
`b` while `d` is still running, and `d` gets through the outer gate before the inner `Join`
has returned), and `Join(a, b, d)` cannot. -/
theorem Join_nested_flat_differ :
    ¬ ∀ (a b d : Runner Nat) (c : Bool) (n : Nat) (res : Option Nat),
      (∃ ps : List (List Nat), (Join [Join [a, b], d]).returns c n (ps.map some) = some res) ↔
      (∃ ps : List (List Nat), (Join [a, b, d]).returns c n (ps.map some) = some res) := by
  intro h
  have h1 := (h (Err (some 1)) (New (.done (.add (.ret none))))
    (New (.load 1 (.ret (some 3)) (.ret none))) false 0 (some 3)).1
    ⟨[[], [], [], [0], [0], [0], [0, 0], [0, 1], [0, 1], [1], [1], [0, 1], [0], [0], []], rfl⟩
  obtain ⟨ps, hps⟩ := h1
  exact flat_never_three ps (some 3) hps rfl

/-- An execution of `Join(B, F)` with `B` waiting for its context and `F = Err(7)`: `F` is
collected, `B` sees
the cancellation, returns the context's error 9, which is dropped, and `Join` returns 7. -/
theorem Join_cancels_waiting_sibling_witness :
    (∀ r ∈ [New (.done (.ret (some 9))), Err (some 7)],
      r = New (.done (.ret (some 9))) ∨ r = Err (some (7 : Nat))) ∧
    Err (some 7) ∈ [New (.done (.ret (some 9))), Err (some (7 : Nat))] ∧
    exec (([[], [], [], [1], [0], [0], []] : List (List Nat)).map some)
        ((Join [New (.done (.ret (some 9))), Err (some 7)]).start false 0)
      = some ⟨false, 0, .join ⟨[], true, some 7, true, 1, 1, 1, true⟩
          [(Status.dropped, .call (.ret (some 9))), (Status.latched, .call (.ret (some 7)))]⟩ ∧
    ((∀ res : Option Nat, (Inv.join ⟨[], true, some 7, true, 1, 1, 1, true⟩
          [(Status.dropped, .call (.ret (some 9))),
            (Status.latched, .call (.ret (some 7)))]).result = some res → res = some 7) ∧
    (∀ (fr : Frame Nat) (gs : List (Status × Inv Nat)),
      Inv.join ⟨[], true, some 7, true, 1, 1, 1, true⟩
          [(Status.dropped, .call (.ret (some 9))), (Status.latched, .call (.ret (some 7)))]
          = .join fr gs →
      ∀ (i : Nat) (g : Status × Inv Nat), gs[i]? = some g →
        [New (.done (.ret (some 9))), Err (some 7)][i]? = some (New (.done (.ret (some 9)))) →
        (g.2 = .call (.done (.ret (some 9))) ∧ g.1 = Status.live ∧ fr.returned = false) ∨
        (g.2 = .call (.ret (some 9)) ∧ fr.cancelled = true ∧ fr.err = some 7 ∧
          (g.1 = Status.live ∨ g.1 = Status.dropped))) ∧
    (∃ (ps2 : List (List Nat)) (s2 : Conf Nat),
      exec (ps2.map some) ⟨false, 0, .join ⟨[], true, some 7, true, 1, 1, 1, true⟩
          [(Status.dropped, .call (.ret (some 9))), (Status.latched, .call (.ret (some 7)))]⟩
        = some s2 ∧ s2.inv.result = some (some 7)) ∧
    (∀ (ps2 : List (List Nat)) (s2 : Conf Nat),
      exec (ps2.map some) ⟨false, 0, .join ⟨[], true, some 7, true, 1, 1, 1, true⟩
          [(Status.dropped, .call (.ret (some 9))), (Status.latched, .call (.ret (some 7)))]⟩
        = some s2 →
      ps2.length ≤ (Inv.join ⟨[], true, some 7, true, 1, 1, 1, true⟩
          [(Status.dropped, .call (.ret (some 9))),
            (Status.latched, .call (.ret (some (7 : Nat))))]).cost ∧
      (s2.inv.result = none → ∃ p s3, s2.move (some p) = some s3))) :=
  ⟨by simp, by simp, rfl,
    Join_cancels_waiting_sibling 9 7 [New (.done (.ret (some 9))), Err (some 7)] (by simp)
      (by simp) 0 [[], [], [], [1], [0], [0], []]
      ⟨false, 0, .join ⟨[], true, some 7, true, 1, 1, 1, true⟩
          [(Status.dropped, .call (.ret (some 9))), (Status.latched, .call (.ret (some 7)))]⟩
      rfl⟩

/-- The task `Join(Err(7), Err(8))` returns 7 under one schedule and 8 under another, an error
both
times. -/
theorem Join_nil_or_error_fixed_for_pure_witness :
    (∀ r ∈ [Err (some 7), Err (some (8 : Nat))], r.fn.pure = true) ∧
    (Join [Err (some 7), Err (some 8)]).returns false 0
        (([[], [], [], [0], [1], []] : List (List Nat)).map some) = some (some 7) ∧
    (Join [Err (some 7), Err (some 8)]).returns false 0
        (([[], [], [], [1], [0], []] : List (List Nat)).map some) = some (some 8) ∧
    ((some 7 : Option Nat) = none ↔ (some 8 : Option Nat) = none) :=
  ⟨by decide, rfl, rfl,
    Join_nil_or_error_fixed_for_pure [Err (some 7), Err (some 8)] (by decide) false 0
      [[], [], [], [0], [1], []] [[], [], [], [1], [0], []] (some 7) (some 8) rfl rfl⟩

/-- The tasks `Join(Join(Err(1), B), Err(3))` and `Join(Err(1), B, Err(3))` with `B` waiting
for its
context and then returning 2. -/
theorem Join_nested_flat_same_for_pure_witness :
    (Err (some (1 : Nat))).fn.pure = true ∧
    (New (.done (.ret (some (2 : Nat))))).fn.pure = true ∧
    (Err (some (3 : Nat))).fn.pure = true ∧
    ((∀ res : Option Nat,
      ((∃ sched : List Move,
        (Join [Join [Err (some 1), New (.done (.ret (some 2)))], Err (some 3)]).returns false 0
          sched = some res) ↔
      (∃ sched : List Move,
        (Join [Err (some 1), New (.done (.ret (some 2))), Err (some 3)]).returns false 0
          sched = some res)) ∧
      ((∃ sched : List Move, none ∈ sched ∧
        (Join [Join [Err (some 1), New (.done (.ret (some 2)))], Err (some 3)]).returns false 0
          sched = some res) ↔
      (∃ sched : List Move, none ∈ sched ∧
        (Join [Err (some 1), New (.done (.ret (some 2))), Err (some 3)]).returns false 0
          sched = some res)) ∧
      ((∃ ps : List (List Nat),
        (Join [Join [Err (some 1), New (.done (.ret (some 2)))], Err (some 3)]).returns false 0
          (ps.map some) = some res) ↔
      (∃ ps : List (List Nat),
        (Join [Err (some 1), New (.done (.ret (some 2))), Err (some 3)]).returns false 0
          (ps.map some) = some res))) ∧
    (∀ (sched : List Move) (s : Conf Nat) (res : Option Nat),
      exec sched ((Join [Join [Err (some 1), New (.done (.ret (some 2)))],
        Err (some 3)]).start false 0) = some s → s.inv.result = some res →
      ∃ (f f2 : Frame Nat) (st : Status) (ga gb gd : Status × Inv Nat),
        s.inv = .join f [(st, .join f2 [ga, gb]), gd] ∧ f2.returned = true ∧
        Inv.Runs (Err (some 1)).Run ga.2 ∧
        Inv.Runs (New (.done (.ret (some 2)))).Run gb.2 ∧
        Inv.Runs (Err (some 3)).Run gd.2 ∧
        (∃ x, ga.2.result = some x) ∧ (∃ x, gb.2.result = some x) ∧
        (∃ x, gd.2.result = some x)) ∧
    (∀ (sched : List Move) (s : Conf Nat) (res : Option Nat),
      exec sched ((Join [Err (some 1), New (.done (.ret (some 2))),
        Err (some 3)]).start false 0) = some s → s.inv.result = some res →
      ∃ (f : Frame Nat) (ga gb gd : Status × Inv Nat), s.inv = .join f [ga, gb, gd] ∧
        Inv.Runs (Err (some 1)).Run ga.2 ∧
        Inv.Runs (New (.done (.ret (some 2)))).Run gb.2 ∧
        Inv.Runs (Err (some 3)).Run gd.2 ∧
        (∃ x, ga.2.result = some x) ∧ (∃ x, gb.2.result = some x) ∧
        (∃ x, gd.2.result = some x))) :=
  ⟨rfl, rfl, rfl,
    (Join_nested_flat_same_for_pure (Err (some 1)) (New (.done (.ret (some 2)))) (Err (some 3))
      false 0).1 rfl rfl rfl,
    (Join_nested_flat_same_for_pure (Err (some 1)) (New (.done (.ret (some 2)))) (Err (some 3))
      false 0).2⟩

end runner
